import Mathlib

/-!
Diet Manager CLI: food model and food catalog.

A shallow embedding of `src/food.cpp` (classes `Food`, `BasicFood`,
`FoodComponent`, `CompositeFood`, `FoodDatabaseManager`, `FoodEntry`, `Command`,
`FoodDiary`, `DateUtil` and the daily profiles of `UserProfile`) together with
the properties of the catalog (calorie aggregation, resolution of composite
definitions on load, persistence, insertion, lookup and keyword search), of
the diary (adding and deleting entries, totals of a day, the undo history,
persistence of the logs), of the validity test of date strings and of the
profile chosen for a date that has none.

Conventions of the embedding.

* The C++ `float` type is an arbitrary carrier `α` with a zero, an addition
  and a multiplication. The definitions use no law of arithmetic, so they read
  the same for machine floats as for exact numbers; a theorem that needs a law
  says so through its type-class assumptions.
* `std::map<string, V>` is an association list kept in strictly increasing key
  order (`mapInsert`), so that iteration visits keys in the order of the C++
  container. Strings are compared lexicographically by character code.
* `shared_ptr<Food>` is a value of the inductive type `Food`: food objects are
  never mutated after construction, so a shared handle and a value agree.
* The recursive lambda `loadCompositeFood` has no bound on its recursion depth
  in the source; the embedding gives it a fuel argument and returns `none`
  when the fuel is exhausted.
* Text written to `cout` by the loader is recorded as a list of `Warning`s.
* A string is its sequence of characters; `::tolower` acts on the letters
  `A` to `Z` only, and `string::find` is the test that one sequence occurs
  inside another.
* A persisted file is the list of its parsed records; numbers are read back
  as they were written.
* The `double` values of the diary live in the same carrier `α` as the `float`
  values of the catalog, the conversion between them being the identity. Only
  `AddFoodCommand::undo` compares numbers (`abs(a - b) < 0.001`); it and what
  depends on it take `α` to be a linearly ordered field.
* `std::stack` is a list with the top first.
* Where the rounding of `double` addition matters, the carrier is
  `WholeDouble`: the doubles that are non-negative whole numbers, with the sum
  rounded to 53 significant bits, ties to even. `FoodDiary.undoWith` is
  `FoodDiary.undo` with the comparison as a parameter, so that the undo runs on
  this carrier too.
* `std::unordered_map<string, DailyProfile>` is the list of its entries in
  iteration order, with at most one entry per key.
* `string::length` counts bytes and `String.data` lists characters; the two
  agree on the strings that `isValidDate` accepts, and a string with a
  character outside ASCII is rejected by both.
-/

namespace DietManager

variable {α : Type}

/-! ## Ordered string maps (`std::map<string, V>`) -/

/-- Lexicographic comparison of character sequences by character code. -/
def ltChars : List Char → List Char → Bool
  | [], [] => false
  | [], _ :: _ => true
  | _ :: _, [] => false
  | a :: as, b :: bs =>
      if a.toNat < b.toNat then true
      else if a.toNat = b.toNat then ltChars as bs
      else false

/-- The comparison `std::less<string>` used by the maps of the program. -/
def keyLt (a b : String) : Bool := ltChars a.data b.data

/-- Contents of a `std::map<string, V>`: entries in iteration order. -/
abbrev StrMap (β : Type) := List (String × β)

/-- Lookup `m.find(key)`: the mapped value, or `none` for `m.end()`. -/
def mapFind {β : Type} : StrMap β → String → Option β
  | [], _ => none
  | (k, v) :: rest, key => if key = k then some v else mapFind rest key

/-- Assignment `m[key] = v`: replaces the value of an existing key, otherwise
inserts the entry at its place in key order. -/
def mapInsert {β : Type} : StrMap β → String → β → StrMap β
  | [], key, v => [(key, v)]
  | (k, w) :: rest, key, v =>
      if keyLt key k then (key, v) :: (k, w) :: rest
      else if key = k then (key, v) :: rest
      else (k, w) :: mapInsert rest key v

/-- Keys of a map in iteration order. -/
def mapKeys {β : Type} (m : StrMap β) : List String := m.map Prod.fst

/-- Values of a map in iteration order. -/
def mapValues {β : Type} (m : StrMap β) : List β := m.map Prod.snd

/-- Representation invariant of `std::map`: keys strictly increasing. -/
def KeysSorted {β : Type} (m : StrMap β) : Prop :=
  List.Pairwise (fun a b => keyLt a.1 b.1 = true) m

/-! ## Food model -/

mutual
/-- A food: `BasicFood` (fixed calories) or `CompositeFood` (components). -/
inductive Food (α : Type) where
  | basic (name : String) (keywords : List String) (calories : α)
  | composite (name : String) (keywords : List String)
      (components : List (FoodComponent α))
/-- The struct `FoodComponent`: a food and a number of servings. -/
inductive FoodComponent (α : Type) where
  | mk (food : Food α) (servings : α)
end

/-- Field `food` of a component. -/
def FoodComponent.food : FoodComponent α → Food α
  | .mk f _ => f

/-- Field `servings` of a component. -/
def FoodComponent.servings : FoodComponent α → α
  | .mk _ s => s

/-- Accessor `Food::getName`. -/
def Food.getName : Food α → String
  | .basic n _ _ => n
  | .composite n _ _ => n

/-- Accessor `Food::getKeywords`. -/
def Food.getKeywords : Food α → List String
  | .basic _ k _ => k
  | .composite _ k _ => k

/-- Accessor `Food::getType`: the tag set by the subclass constructor. -/
def Food.getType : Food α → String
  | .basic _ _ _ => "basic"
  | .composite _ _ _ => "composite"

/-- Components of a composite food (none for a basic food). -/
def Food.components : Food α → List (FoodComponent α)
  | .basic _ _ _ => []
  | .composite _ _ cs => cs

mutual
/-- Virtual `getCalories`: the stored value of a basic food; for a composite
food the loop `totalCalories += component.food->getCalories() * servings`
started from `0.0f`. -/
def Food.getCalories [Zero α] [Add α] [Mul α] : Food α → α
  | .basic _ _ c => c
  | .composite _ _ comps => CompositeFood.accumulate comps 0
/-- One term of the loop: `component.food->getCalories() * component.servings`. -/
def FoodComponent.calories [Zero α] [Add α] [Mul α] : FoodComponent α → α
  | .mk f s => f.getCalories * s
/-- The loop of `CompositeFood::getCalories` with its running total. -/
def CompositeFood.accumulate [Zero α] [Add α] [Mul α] :
    List (FoodComponent α) → α → α
  | [], total => total
  | c :: rest, total => CompositeFood.accumulate rest (total + c.calories)
end

/-! ## Persisted records -/

/-- One element of a persisted `components` array. -/
structure ComponentJson (α : Type) where
  name : String
  servings : α

/-- One persisted food record, by its `type` tag. A composite record may carry
a `calories` field (the writer emits one); the loader never reads it. A record
whose tag is neither `basic` nor `composite` is kept only by name. -/
inductive FoodJson (α : Type) where
  | basic (name : String) (keywords : List String) (calories : α)
  | composite (name : String) (keywords : List String) (calories : Option α)
      (components : List (ComponentJson α))
  | other (name : String)

/-- Field `name` of a record. -/
def FoodJson.name : FoodJson α → String
  | .basic n _ _ => n
  | .composite n _ _ _ => n
  | .other n => n

/-- Serializer `FoodComponent::toJson`: the component by name and servings. -/
def FoodComponent.toJson (c : FoodComponent α) : ComponentJson α :=
  ⟨c.food.getName, c.servings⟩

/-- Serializer `Food::toJson` with the override of `CompositeFood`. -/
def Food.toJson [Zero α] [Add α] [Mul α] : Food α → FoodJson α
  | .basic n k c => .basic n k c
  | .composite n k comps =>
      .composite n k (some (Food.composite n k comps).getCalories)
        (comps.map FoodComponent.toJson)

/-- Constructor `BasicFood::fromJson` applied to the fields of a basic record. -/
def BasicFood.fromJson (name : String) (keywords : List String) (calories : α) :
    Food α :=
  .basic name keywords calories

/-! ## Food database manager -/

/-- A line written to `cout` by the loader. -/
inductive Warning where
  /-- Line `Warning: Food 'name' not found.` -/
  | foodNotFound (name : String)
  /-- Line `Warning: Component 'component' not found for composite food 'parent'`. -/
  | componentNotFound (component parent : String)
  deriving DecidableEq, Repr

/-- State of `FoodDatabaseManager`: the map `foods` and the flag `modified`. -/
structure FoodDatabaseManager (α : Type) where
  foods : StrMap (Food α)
  modified : Bool

/-- A new manager: no foods, not modified. -/
def FoodDatabaseManager.empty : FoodDatabaseManager α := ⟨[], false⟩

/-- State threaded through the loader: the map `foods` being filled and the
warnings printed so far. -/
structure LoadState (α : Type) where
  foods : StrMap (Food α)
  out : List Warning

/-- Staged composite record in `pendingFoods`: keywords and component list. -/
structure Pending (α : Type) where
  keywords : List String
  components : List (ComponentJson α)

/-- First pass of `loadDatabase` over one record: a basic food is stored under
its name, a composite is staged, any other tag is skipped. -/
def firstPassStep (acc : StrMap (Food α) × StrMap (Pending α)) (r : FoodJson α) :
    StrMap (Food α) × StrMap (Pending α) :=
  match r with
  | .basic n k c => (mapInsert acc.1 n (BasicFood.fromJson n k c), acc.2)
  | .composite n k _ comps => (acc.1, mapInsert acc.2 n ⟨k, comps⟩)
  | .other _ => acc

/-- First pass of `loadDatabase`: all records in file order. -/
def firstPass (records : List (FoodJson α)) :
    StrMap (Food α) × StrMap (Pending α) :=
  records.foldl firstPassStep ([], [])

/-- The component loop inside `loadCompositeFood`, for the composite `parent`;
`load` is the recursive call. A component already in `foods` is taken from
there, otherwise it is loaded; a component that cannot be loaded is skipped
with a warning. -/
def loadComponents (load : LoadState α → String → Option (LoadState α × Option (Food α)))
    (parent : String) :
    List (ComponentJson α) → LoadState α → List (FoodComponent α) →
      Option (LoadState α × List (FoodComponent α))
  | [], st, acc => some (st, acc)
  | c :: rest, st, acc =>
      let r :=
        match mapFind st.foods c.name with
        | some f => some (st, some f)
        | none => load st c.name
      match r with
      | none => none
      | some (st1, some f) =>
          loadComponents load parent rest st1 (acc ++ [FoodComponent.mk f c.servings])
      | some (st1, none) =>
          loadComponents load parent rest
            ⟨st1.foods, st1.out ++ [Warning.componentNotFound c.name parent]⟩ acc

/-- The recursive lambda `loadCompositeFood` of `loadDatabase`. The first
argument bounds the recursion depth; `none` means the bound was exceeded. The
result is the new state and the returned pointer (`none` for `nullptr`). -/
def loadCompositeFood (pending : StrMap (Pending α)) :
    Nat → LoadState α → String → Option (LoadState α × Option (Food α))
  | 0, _, _ => none
  | fuel + 1, st, name =>
      match mapFind st.foods name with
      | some f => some (st, some f)
      | none =>
          match mapFind pending name with
          | none => some (⟨st.foods, st.out ++ [Warning.foodNotFound name]⟩, none)
          | some foodJson =>
              match loadComponents (loadCompositeFood pending fuel) name
                  foodJson.components st [] with
              | none => none
              | some (st1, components) =>
                  let food := Food.composite name foodJson.keywords components
                  some (⟨mapInsert st1.foods name food, st1.out⟩, some food)

/-- Second pass of `loadDatabase`: `loadCompositeFood` on every staged name in
key order, the returned pointer being dropped. -/
def secondPass (pending : StrMap (Pending α)) (fuel : Nat) :
    List String → LoadState α → Option (LoadState α)
  | [], st => some st
  | name :: rest, st =>
      match loadCompositeFood pending fuel st name with
      | none => none
      | some (st1, _) => secondPass pending fuel rest st1

/-- Both passes of `loadDatabase` over the parsed records, from empty `foods`. -/
def loadRecords (fuel : Nat) (records : List (FoodJson α)) : Option (LoadState α) :=
  let fp := firstPass records
  secondPass fp.2 fuel (mapKeys fp.2) ⟨fp.1, []⟩

/-- What `loadDatabase` finds at `databaseFilePath`. -/
inductive DatabaseFile (α : Type) where
  /-- The file cannot be opened. -/
  | missing
  /-- The file is not a JSON document: `file >> j` throws. -/
  | invalid
  /-- The file parses to an array of well-formed food records. -/
  | records (rs : List (FoodJson α))

/-- Outcome of a call of `loadDatabase` that returns. -/
structure LoadResult (α : Type) where
  success : Bool
  db : FoodDatabaseManager α
  out : List Warning

/-- Member `FoodDatabaseManager::loadDatabase`: `foods` is cleared first; a
missing or unparsable file gives `false`; otherwise both passes run and the
result is `true`. `none` means the recursion bound `fuel` was exceeded. -/
def FoodDatabaseManager.loadDatabase (db : FoodDatabaseManager α) (fuel : Nat) :
    DatabaseFile α → Option (LoadResult α)
  | .missing => some ⟨false, ⟨[], db.modified⟩, []⟩
  | .invalid => some ⟨false, ⟨[], db.modified⟩, []⟩
  | .records rs =>
      match loadRecords fuel rs with
      | none => none
      | some st => some ⟨true, ⟨st.foods, db.modified⟩, st.out⟩

/-- Member `FoodDatabaseManager::saveDatabase` when the file can be written:
every food of `foods` in key order through `toJson`; `modified` is reset. -/
def FoodDatabaseManager.saveDatabase [Zero α] [Add α] [Mul α]
    (db : FoodDatabaseManager α) : FoodDatabaseManager α × List (FoodJson α) :=
  (⟨db.foods, false⟩, (mapValues db.foods).map Food.toJson)

/-- Member `FoodDatabaseManager::addFood`. -/
def FoodDatabaseManager.addFood (db : FoodDatabaseManager α) (food : Food α) :
    Bool × FoodDatabaseManager α :=
  match mapFind db.foods food.getName with
  | some _ => (false, db)
  | none => (true, ⟨mapInsert db.foods food.getName food, true⟩)

/-- Member `FoodDatabaseManager::getFood`: `none` stands for `nullptr`. -/
def FoodDatabaseManager.getFood (db : FoodDatabaseManager α) (name : String) :
    Option (Food α) :=
  mapFind db.foods name

/-- Lower-casing `transform(..., ::tolower)` of a string, as characters. -/
def lowerChars (s : String) : List Char := s.data.map Char.toLower

/-- Test `lowerFoodKeyword.find(lowerKeyword) != string::npos`. -/
def containsLower (foodKeyword keyword : String) : Bool :=
  decide (lowerChars keyword <:+: lowerChars foodKeyword)

/-- Innermost loop of `searchFoodsByKeywords`: does some keyword of the food
contain the query term (the loop breaks at the first hit). -/
def keywordHit (keyword : String) : List String → Bool
  | [] => false
  | foodKeyword :: rest =>
      if containsLower foodKeyword keyword then true else keywordHit keyword rest

/-- Middle loop of `searchFoodsByKeywords`: the counter `cnt` after all query
terms, starting from `cnt`. -/
def countHits (foodKeywords : List String) : List String → Nat → Nat
  | [], cnt => cnt
  | keyword :: rest, cnt =>
      countHits foodKeywords rest (if keywordHit keyword foodKeywords then cnt + 1 else cnt)

/-- Outer loop of `searchFoodsByKeywords` over the entries of `foods`. -/
def searchLoop (keywords : List String) (matchall : Bool) :
    StrMap (Food α) → List (Food α) → List (Food α)
  | [], results => results
  | (_, food) :: rest, results =>
      let cnt := countHits food.getKeywords keywords 0
      if matchall && cnt == keywords.length then
        searchLoop keywords matchall rest (results ++ [food])
      else if !matchall && cnt > 0 then
        searchLoop keywords matchall rest (results ++ [food])
      else searchLoop keywords matchall rest results

/-- Member `FoodDatabaseManager::searchFoodsByKeywords`. -/
def FoodDatabaseManager.searchFoodsByKeywords (db : FoodDatabaseManager α)
    (keywords : List String) (matchall : Bool) : List (Food α) :=
  searchLoop keywords matchall db.foods []

/-! ## Specification vocabulary -/

/-- Each food of the map is stored under its own name. -/
def NamesAreKeys (m : StrMap (Food α)) : Prop :=
  ∀ e ∈ m, e.2.getName = e.1

/-- Catalog states reachable from the empty catalog by `addFood` and by calls
of `loadDatabase` that return. -/
inductive Reachable : FoodDatabaseManager α → Prop where
  | empty : Reachable FoodDatabaseManager.empty
  | addFood {db : FoodDatabaseManager α} (food : Food α) :
      Reachable db → Reachable (db.addFood food).2
  | loadDatabase {db : FoodDatabaseManager α} (fuel : Nat) (file : DatabaseFile α)
      (res : LoadResult α) :
      Reachable db → db.loadDatabase fuel file = some res → Reachable res.db

/-- A query term matches a food: compared case-insensitively, the term is a
substring of at least one keyword of the food. -/
def TermMatches (term : String) (food : Food α) : Prop :=
  ∃ k ∈ food.getKeywords, lowerChars term <:+: lowerChars k

/-- Every query term matches the food. -/
def MatchesAllTerms (terms : List String) (food : Food α) : Prop :=
  ∀ t ∈ terms, TermMatches t food

/-- At least one query term matches the food. -/
def MatchesSomeTerm (terms : List String) (food : Food α) : Prop :=
  ∃ t ∈ terms, TermMatches t food

instance (term : String) (food : Food α) : Decidable (TermMatches term food) := by
  unfold TermMatches; infer_instance

instance (terms : List String) (food : Food α) : Decidable (MatchesAllTerms terms food) := by
  unfold MatchesAllTerms; infer_instance

instance (terms : List String) (food : Food α) : Decidable (MatchesSomeTerm terms food) := by
  unfold MatchesSomeTerm; infer_instance

/-! ## Vocabulary for the resolution of composite definitions -/

/-- The staged composite references contain no cycle: along every reference
from a staged composite to a staged composite the rank strictly decreases. -/
def Acyclic (pending : StrMap (Pending α)) (rank : String → Nat) : Prop :=
  ∀ n pj, mapFind pending n = some pj →
    ∀ c ∈ pj.components, (mapFind pending c.name).isSome = true → rank c.name < rank n

/-- Some staged composite declares a component of this name. -/
def IsComponentName (pending : StrMap (Pending α)) (n : String) : Prop :=
  ∃ p pj, mapFind pending p = some pj ∧ ∃ c ∈ pj.components, c.name = n

/-- The warning is about the food name `n`. -/
def Warning.Names (w : Warning) (n : String) : Prop :=
  w = Warning.foodNotFound n ∨ ∃ p, w = Warning.componentNotFound n p

/-- The declared components that the map resolves, in declared order, each
with the food stored under its name and its declared servings. -/
def resolvedComponents (foods : StrMap (Food α)) (cs : List (ComponentJson α)) :
    List (FoodComponent α) :=
  cs.filterMap (fun c => (mapFind foods c.name).map (fun f => FoodComponent.mk f c.servings))

/-- Relation between two states of the loader, the second later than the first:
entries are kept, new entries are staged composites built from their resolvable
components, and every new line of output is a warning about an unresolvable
component name. -/
structure Grows (pending : StrMap (Pending α)) (st st1 : LoadState α) : Prop where
  mono : ∀ k f, mapFind st.foods k = some f → mapFind st1.foods k = some f
  fresh : ∀ k, mapFind st.foods k = none → (mapFind st1.foods k).isSome = true →
    (mapFind pending k).isSome = true
  out_mono : ∀ w ∈ st.out, w ∈ st1.out
  built : ∀ k f, mapFind st.foods k = none → mapFind st1.foods k = some f →
    ∃ pj, mapFind pending k = some pj ∧
      f = Food.composite k pj.keywords (resolvedComponents st1.foods pj.components) ∧
      ∀ c ∈ pj.components, mapFind st1.foods c.name = none →
        mapFind pending c.name = none ∧ Warning.componentNotFound c.name k ∈ st1.out
  out_sound : ∀ w ∈ st1.out, w ∈ st.out ∨
    ∃ n, w.Names n ∧ mapFind pending n = none ∧ mapFind st1.foods n = none ∧
      IsComponentName pending n

/-- The food of the last basic record of the given name, if any. -/
def lastBasic : List (FoodJson α) → String → Option (Food α)
  | [], _ => none
  | r :: rest, n =>
      match lastBasic rest n with
      | some f => some f
      | none =>
          match r with
          | .basic m k c => if n = m then some (BasicFood.fromJson m k c) else none
          | _ => none

/-- The keywords and components of the last composite record of the given
name, if any. -/
def lastComposite : List (FoodJson α) → String → Option (Pending α)
  | [], _ => none
  | r :: rest, n =>
      match lastComposite rest n with
      | some pj => some pj
      | none =>
          match r with
          | .composite m k _ cs => if n = m then some ⟨k, cs⟩ else none
          | _ => none

mutual
/-- Nesting depth of a food: 0 for a basic food, one more than the deepest
component for a composite food. -/
def Food.height : Food α → Nat
  | .basic _ _ _ => 0
  | .composite _ _ comps => FoodComponent.maxHeight comps + 1
/-- Nesting depth of the food of a component. -/
def FoodComponent.height : FoodComponent α → Nat
  | .mk f _ => f.height
/-- Largest nesting depth among the foods of a component list. -/
def FoodComponent.maxHeight : List (FoodComponent α) → Nat
  | [] => 0
  | c :: rest => max c.height (FoodComponent.maxHeight rest)
end

/-- Largest nesting depth among the foods of a map. -/
def maxHeight : StrMap (Food α) → Nat
  | [] => 0
  | (_, f) :: rest => max f.height (maxHeight rest)

/-- A catalog closed under component references: keys in order, each food
under its own name, and every component of every composite is the catalog
entry stored under the name of the component. -/
def CatalogClosed (m : StrMap (Food α)) : Prop :=
  KeysSorted m ∧ NamesAreKeys m ∧
    ∀ e ∈ m, ∀ c ∈ e.2.components, mapFind m c.food.getName = some c.food

/-! ## Example data -/

/-- Two composites that list each other. -/
def mutualRecords : List (FoodJson Nat) :=
  [.composite "X" ["x"] none [⟨"Y", 1⟩], .composite "Y" ["y"] none [⟨"X", 1⟩]]

/-- A composite that lists itself. -/
def selfRecords : List (FoodJson Nat) :=
  [.composite "Z" [] none [⟨"Z", 2⟩]]

/-- A composite with an undefined component next to a composite that lists
itself. -/
def ghostLoopRecords : List (FoodJson Nat) :=
  [.composite "Loop" [] none [⟨"Loop", 1⟩], .composite "Meal" [] none [⟨"Ghost", 1⟩]]

/-- A composite with an undefined component whose name a basic record also
declares. -/
def shadowedRecords : List (FoodJson Nat) :=
  [.basic "Meal" ["m"] 100, .composite "Meal" [] none [⟨"Ghost", 1⟩]]

/-- A composite with one defined and one undefined component. -/
def ghostRecords : List (FoodJson Nat) :=
  [.composite "Meal" ["lunch"] none [⟨"Ghost", 1⟩, ⟨"Rice", 2⟩], .basic "Rice" ["carbs"] 200]

/-- The basic food at the bottom of a chain of definitions. -/
def chainC (nC : String) (kC : List String) (c : α) : Food α :=
  Food.basic nC kC c

/-- The composite whose only component is the bottom food of the chain. -/
def chainB (nB nC : String) (kB kC : List String) (c sB : α) : Food α :=
  Food.composite nB kB [FoodComponent.mk (chainC nC kC c) sB]

/-- The composite whose only component is the middle composite of the chain. -/
def chainA (nA nB nC : String) (kA kB kC : List String) (c sA sB : α) : Food α :=
  Food.composite nA kA [FoodComponent.mk (chainB nB nC kB kC c sB) sA]

/-- The three records of a chain, bottom food first. -/
def chainRecords (nA nB nC : String) (kA kB kC : List String) (calA calB : Option α)
    (c sA sB : α) : List (FoodJson α) :=
  [FoodJson.basic nC kC c, FoodJson.composite nB kB calB [⟨nC, sB⟩],
    FoodJson.composite nA kA calA [⟨nB, sA⟩]]

/-- The catalog holding the three foods of a chain. -/
def chainCatalog (nA nB nC : String) (kA kB kC : List String) (c sA sB : α) :
    StrMap (Food α) :=
  mapInsert (mapInsert (mapInsert [] nC (chainC nC kC c)) nB (chainB nB nC kB kC c sB)) nA
    (chainA nA nB nC kA kB kC c sA sB)

/-- The basic record that `saveDatabase` writes for a food, read back. -/
def Food.asBasic : Food α → Option (Food α)
  | .basic n k c => some (BasicFood.fromJson n k c)
  | .composite _ _ _ => none

/-- The staged record that the first pass keeps of what `saveDatabase` writes
for a food. -/
def Food.asPending : Food α → Option (Pending α)
  | .basic _ _ _ => none
  | .composite _ k comps => some ⟨k, comps.map FoodComponent.toJson⟩

/-- A composite food whose component is not an entry of any catalog. -/
def orphanMeal : Food Nat :=
  Food.composite "Meal" ["lunch"] [FoodComponent.mk (Food.basic "Apple" ["fruit"] 95) 1]

/-- The catalog reached from the empty one by adding `orphanMeal`. -/
def orphanCatalog : FoodDatabaseManager Nat :=
  (FoodDatabaseManager.empty.addFood orphanMeal).2

/-- A catalog closed under component references. -/
def pieCatalog : FoodDatabaseManager Nat :=
  ⟨[("Apple", Food.basic "Apple" ["fruit"] 95),
    ("Pie", Food.composite "Pie" ["dessert"]
      [FoodComponent.mk (Food.basic "Apple" ["fruit"] 95) 2])], true⟩

/-! ## Food diary -/

/-- Removal `m.erase(key)`: every entry stored under the key is removed. -/
def mapErase {β : Type} : StrMap β → String → StrMap β
  | [], _ => []
  | (k, v) :: rest, key =>
      if key = k then mapErase rest key else (k, v) :: mapErase rest key

/-- Class `FoodEntry`: one line of a daily log. -/
structure FoodEntry (α : Type) where
  foodName : String
  servings : α
  calories : α

/-- The two subclasses of `Command` with the fields they capture:
`AddFoodCommand` and `DeleteFoodCommand`. -/
inductive Command (α : Type) where
  | addFoodCommand (date foodName : String) (servings calories : α)
  | deleteFoodCommand (date : String) (index : Nat) (deletedEntry : FoodEntry α)

/-- State of `FoodDiary`: the map `dailyLogs` and the stack `undoStack`, top
first. The catalog `dbManager` is a reference to a separate object and is
passed to the operations that read it; `logFile` and `currentDate` play no
part in the operations below. -/
structure FoodDiary (α : Type) where
  dailyLogs : StrMap (List (FoodEntry α))
  undoStack : List (Command α)

/-- A diary with no logs and no history. -/
def FoodDiary.empty : FoodDiary α := ⟨[], []⟩

/-- The vector read through `dailyLogs[date]`: empty for a new key. -/
def entriesAt (logs : StrMap (List (FoodEntry α))) (date : String) : List (FoodEntry α) :=
  (mapFind logs date).getD []

/-- The side effect of `dailyLogs[date]` alone: a missing key is created with
an empty vector. -/
def touch (logs : StrMap (List (FoodEntry α))) (date : String) :
    StrMap (List (FoodEntry α)) :=
  match mapFind logs date with
  | some _ => logs
  | none => mapInsert logs date []

/-- Constructor of `AddFoodCommand`: the calories are those of the food in the
catalog at construction time times the servings, or 0 for an unknown food. -/
def AddFoodCommand.new [Zero α] [Add α] [Mul α] (db : FoodDatabaseManager α)
    (date foodName : String) (servings : α) : Command α :=
  match db.getFood foodName with
  | some food => Command.addFoodCommand date foodName servings (food.getCalories * servings)
  | none => Command.addFoodCommand date foodName servings 0

/-- Constructor of `DeleteFoodCommand`: it reads `dailyLogs[date]` and keeps a
copy of the entry at `index`, or the entry `("", 0, 0)` when there is none. -/
def DeleteFoodCommand.new [Zero α] (logs : StrMap (List (FoodEntry α))) (date : String)
    (index : Nat) : StrMap (List (FoodEntry α)) × Command α :=
  let logs1 := touch logs date
  let deletedEntry :=
    match (entriesAt logs1 date)[index]? with
    | some e => e
    | none => ⟨"", 0, 0⟩
  (logs1, Command.deleteFoodCommand date index deletedEntry)

/-- Test of `AddFoodCommand::undo` on one entry: same food name and servings
within 0.001. -/
def matchesAdd [LinearOrderedField α] (foodName : String) (servings : α)
    (e : FoodEntry α) : Bool :=
  decide (e.foodName = foodName) && decide (|e.servings - servings| < 0.001)

/-- Loop of `AddFoodCommand::undo`: walking from the back, the first entry
that passes the test is erased. -/
def eraseLatest [LinearOrderedField α] (foodName : String) (servings : α)
    (entries : List (FoodEntry α)) : List (FoodEntry α) :=
  (entries.reverse.eraseP (matchesAdd foodName servings)).reverse

/-- Virtual `Command::execute` on the map `dailyLogs`. -/
def Command.execute : Command α → StrMap (List (FoodEntry α)) → StrMap (List (FoodEntry α))
  | .addFoodCommand date foodName servings calories, logs =>
      mapInsert logs date (entriesAt logs date ++ [⟨foodName, servings, calories⟩])
  | .deleteFoodCommand date index _, logs =>
      let entries := entriesAt logs date
      if index < entries.length then
        let entries1 := entries.eraseIdx index
        if entries1.isEmpty then mapErase logs date else mapInsert logs date entries1
      else touch logs date

/-- Virtual `Command::undo` on the map `dailyLogs`. -/
def Command.undo [LinearOrderedField α] :
    Command α → StrMap (List (FoodEntry α)) → StrMap (List (FoodEntry α))
  | .addFoodCommand date foodName servings _, logs =>
      let entries := entriesAt logs date
      let entries1 := if entries.isEmpty then entries else eraseLatest foodName servings entries
      if entries1.isEmpty then mapErase logs date else mapInsert logs date entries1
  | .deleteFoodCommand date _ deletedEntry, logs =>
      mapInsert logs date (entriesAt logs date ++ [deletedEntry])

/-- Member `FoodDiary::executeCommand`: execute, then push. -/
def FoodDiary.executeCommand (d : FoodDiary α) (command : Command α) : FoodDiary α :=
  ⟨command.execute d.dailyLogs, command :: d.undoStack⟩

/-- Member `FoodDiary::undo`: nothing on an empty stack; otherwise the top
command is popped and undone. -/
def FoodDiary.undo [LinearOrderedField α] (d : FoodDiary α) : FoodDiary α :=
  match d.undoStack with
  | [] => d
  | command :: rest => ⟨command.undo d.dailyLogs, rest⟩

/-- Member `FoodDiary::addFood`. -/
def FoodDiary.addFood [Zero α] [Add α] [Mul α] (d : FoodDiary α)
    (db : FoodDatabaseManager α) (date foodName : String) (servings : α) : FoodDiary α :=
  match db.getFood foodName with
  | none => d
  | some _ => d.executeCommand (AddFoodCommand.new db date foodName servings)

/-- Member `FoodDiary::deleteFood`. -/
def FoodDiary.deleteFood [Zero α] (d : FoodDiary α) (date : String) (index : Nat) :
    FoodDiary α :=
  match mapFind d.dailyLogs date with
  | none => d
  | some entries =>
      if index ≥ entries.length then d
      else
        let made := DeleteFoodCommand.new d.dailyLogs date index
        FoodDiary.executeCommand ⟨made.1, d.undoStack⟩ made.2

/-- Member `FoodDiary::getTotalCaloriesForDate`. -/
def FoodDiary.getTotalCaloriesForDate [Zero α] [Add α] (d : FoodDiary α) (date : String) : α :=
  match mapFind d.dailyLogs date with
  | none => 0
  | some entries => entries.foldl (fun totalCalories entry => totalCalories + entry.calories) 0

/-- One element of a persisted array of log entries. -/
structure EntryJson (α : Type) where
  food : String
  servings : α
  calories : α

/-- What `loadLogs` finds at `logFile`. -/
inductive LogFile (α : Type) where
  /-- The file cannot be opened. -/
  | missing
  /-- The file is not a JSON document: `file >> j` throws. -/
  | invalid
  /-- The file parses to an object from dates to arrays of well-formed entries,
  listed in the order of `j.items()`. -/
  | document (j : StrMap (List (EntryJson α)))

/-- Body of the loops of `loadLogs` for one persisted entry. -/
def loadEntry (date : String) (logs : StrMap (List (FoodEntry α))) (entry : EntryJson α) :
    StrMap (List (FoodEntry α)) :=
  mapInsert logs date (entriesAt logs date ++ [⟨entry.food, entry.servings, entry.calories⟩])

/-- Member `FoodDiary::loadLogs`: a missing or unparsable file changes
nothing; otherwise every persisted entry is appended to the log of its date. -/
def FoodDiary.loadLogs (d : FoodDiary α) : LogFile α → FoodDiary α
  | .missing => d
  | .invalid => d
  | .document j =>
      ⟨j.foldl (fun logs item => item.2.foldl (loadEntry item.1) logs) d.dailyLogs, d.undoStack⟩

/-- Serialization of one entry in `saveLogs`. -/
def FoodEntry.toJson (entry : FoodEntry α) : EntryJson α :=
  ⟨entry.foodName, entry.servings, entry.calories⟩

/-- Member `FoodDiary::saveLogs` when the file can be written: the object
assigned date by date, `j[date] = dateEntries`. -/
def FoodDiary.saveLogs (d : FoodDiary α) : StrMap (List (EntryJson α)) :=
  d.dailyLogs.foldl (fun j item => mapInsert j item.1 (item.2.map FoodEntry.toJson)) []

/-- No date of the map has an empty sequence of entries. -/
def NoEmptyDay (logs : StrMap (List (FoodEntry α))) : Prop :=
  ∀ e ∈ logs, e.2 ≠ []

/-- Diary states reachable from a log loaded into a new diary through
`addFood` (whatever the catalog is at the time of the call), `deleteFood` and
`undo`. -/
inductive DiaryReachable [LinearOrderedField α] : FoodDiary α → Prop where
  | loadLogs (file : LogFile α) : DiaryReachable (FoodDiary.empty.loadLogs file)
  | addFood {d : FoodDiary α} (db : FoodDatabaseManager α) (date foodName : String)
      (servings : α) : DiaryReachable d → DiaryReachable (d.addFood db date foodName servings)
  | deleteFood {d : FoodDiary α} (date : String) (index : Nat) :
      DiaryReachable d → DiaryReachable (d.deleteFood date index)
  | undo {d : FoodDiary α} : DiaryReachable d → DiaryReachable d.undo

/-! ## Sequences of diary calls -/

/-- A call of `FoodDiary::addFood` (with the catalog as it is at the time of
the call) or of `FoodDiary::deleteFood`. -/
inductive DiaryCall (α : Type) where
  | addFood (db : FoodDatabaseManager α) (date foodName : String) (servings : α)
  | deleteFood (date : String) (index : Nat)

/-- The diary after one call. -/
def FoodDiary.call [Zero α] [Add α] [Mul α] (d : FoodDiary α) : DiaryCall α → FoodDiary α
  | .addFood db date foodName servings => d.addFood db date foodName servings
  | .deleteFood date index => d.deleteFood date index

/-- The call is successful: the food is in the catalog, or the index is below
the length of the sequence of the date. -/
def DiaryCall.Succeeds (d : FoodDiary α) : DiaryCall α → Prop
  | .addFood db _ foodName _ => (db.getFood foodName).isSome = true
  | .deleteFood date index => index < (entriesAt d.dailyLogs date).length

/-- The entry that an `addFood` call adds cannot be mistaken for another: every
entry of the date that passes the test of its undo (same food name, servings
within 0.001) has the content of the new entry. -/
def DiaryCall.Unambiguous [LinearOrderedField α] (d : FoodDiary α) : DiaryCall α → Prop
  | .addFood db date foodName servings =>
      ∀ food, db.getFood foodName = some food →
        ∀ e ∈ entriesAt d.dailyLogs date, matchesAdd foodName servings e = true →
          e = ⟨foodName, servings, food.getCalories * servings⟩
  | .deleteFood _ _ => True

/-- Every call of the sequence, made in turn from the given diary, is
successful and unambiguous. -/
def Unwindable [LinearOrderedField α] : FoodDiary α → List (DiaryCall α) → Prop
  | _, [] => True
  | d, c :: rest => c.Succeeds d ∧ c.Unambiguous d ∧ Unwindable (d.call c) rest

/-- A diary whose only entry has the food name and servings of the entry added
next, with other calories. -/
def staleDiary : FoodDiary ℚ :=
  ⟨[("2024-01-01", [⟨"Apple", 2, 100⟩])], []⟩

/-- A catalog with one basic food. -/
def appleCatalog : FoodDatabaseManager ℚ :=
  ⟨[("Apple", Food.basic "Apple" ["fruit"] 95)], false⟩

/-! ## Dates -/

/-- The loop of `DateUtil::isValidDate` over the characters from position `i`
on: a `-` is required at positions 4 and 7 and a digit elsewhere. -/
def formatFrom : Nat → List Char → Bool
  | _, [] => true
  | i, c :: rest =>
      if (i == 4 || i == 7) && c != '-' then false
      else if i != 4 && i != 7 && !c.isDigit then false
      else formatFrom (i + 1) rest

/-- Conversion `stoi` of a sequence of decimal digits. -/
def stoi (cs : List Char) : Nat :=
  cs.foldl (fun n c => 10 * n + (c.toNat - '0'.toNat)) 0

/-- The table `daysInMonth` of `DateUtil::isValidDate` after the adjustment
for leap years. -/
def daysInMonth (year month : Nat) : List Nat :=
  if month = 2 ∧ ((year % 4 = 0 ∧ year % 100 ≠ 0) ∨ year % 400 = 0) then
    [0, 31, 29, 31, 30, 31, 30, 31, 31, 30, 31, 30, 31]
  else [0, 31, 28, 31, 30, 31, 30, 31, 31, 30, 31, 30, 31]

/-- Static member `DateUtil::isValidDate`. -/
def isValidDate (dateStr : String) : Bool :=
  let cs := dateStr.data
  if cs.length ≠ 10 then false
  else if !formatFrom 0 cs then false
  else
    let year := stoi (cs.take 4)
    let month := stoi ((cs.drop 5).take 2)
    let day := stoi ((cs.drop 8).take 2)
    if month < 1 ∨ month > 12 then false
    else decide (day ≥ 1 ∧ day ≤ (daysInMonth year month).getD month 0)

/-- Value of a decimal digit. -/
def digitValue (c : Char) : Nat := c.toNat - 48

/-- The year is a leap year: divisible by 4 and not by 100, or divisible by
400. -/
def IsLeapYear (year : Nat) : Prop :=
  (year % 4 = 0 ∧ year % 100 ≠ 0) ∨ year % 400 = 0

instance (year : Nat) : Decidable (IsLeapYear year) := by
  unfold IsLeapYear; infer_instance

/-- Number of days of a month of the calendar. -/
def daysOfMonth (year month : Nat) : Nat :=
  if month = 2 then (if IsLeapYear year then 29 else 28)
  else if month = 4 ∨ month = 6 ∨ month = 9 ∨ month = 11 then 30
  else 31

/-- The string is a valid date written `YYYY-MM-DD`: ten characters, a `-` at
positions 4 and 7, digits elsewhere, a month from 1 to 12 and a day from 1 to
the number of days of the month. -/
def ValidDate (s : String) : Prop :=
  ∃ y1 y2 y3 y4 m1 m2 d1 d2 : Char,
    s.data = [y1, y2, y3, y4, '-', m1, m2, '-', d1, d2] ∧
    y1.isDigit = true ∧ y2.isDigit = true ∧ y3.isDigit = true ∧ y4.isDigit = true ∧
    m1.isDigit = true ∧ m2.isDigit = true ∧ d1.isDigit = true ∧ d2.isDigit = true ∧
    1 ≤ 10 * digitValue m1 + digitValue m2 ∧ 10 * digitValue m1 + digitValue m2 ≤ 12 ∧
    1 ≤ 10 * digitValue d1 + digitValue d2 ∧
    10 * digitValue d1 + digitValue d2 ≤
      daysOfMonth
        (1000 * digitValue y1 + 100 * digitValue y2 + 10 * digitValue y3 + digitValue y4)
        (10 * digitValue m1 + digitValue m2)

/-! ## Daily profiles -/

/-- Enumeration `ActivityLevel`. -/
inductive ActivityLevel where
  | sedentary
  | lightlyActive
  | moderatelyActive
  | veryActive
  | extremelyActive
  deriving DecidableEq, Repr

/-- Class `DailyProfile`: weight and activity level. -/
structure DailyProfile (α : Type) where
  weight : α
  activityLevel : ActivityLevel

/-- Default constructor `DailyProfile()`: 70 kg, moderately active. -/
def DailyProfile.default [OfNat α 70] : DailyProfile α :=
  ⟨70, ActivityLevel.moderatelyActive⟩

/-- Contents of the `unordered_map` field `dailyProfiles` of `UserProfile`, in
its iteration order. -/
abbrev DailyProfiles (α : Type) := List (String × DailyProfile α)

/-- Assignment `dailyProfiles[date] = profile`: the value of an existing key is
replaced, a new key is added. -/
def setProfile : DailyProfiles α → String → DailyProfile α → DailyProfiles α
  | [], date, profile => [(date, profile)]
  | (k, p) :: rest, date, profile =>
      if date = k then (k, profile) :: rest else (k, p) :: setProfile rest date profile

/-- One step of the search loop of `setDailyProfileFromMostRecent`: the date
replaces `mostRecentDate` when it is not after the target and `mostRecentDate`
is empty or before it. -/
def mostRecentStep (targetDate : String) (mostRecentDate date : String) : String :=
  if !keyLt targetDate date && (mostRecentDate.isEmpty || keyLt mostRecentDate date) then date
  else mostRecentDate

/-- Member `UserProfile::setDailyProfileFromMostRecent`. -/
def setDailyProfileFromMostRecent [OfNat α 70] (dailyProfiles : DailyProfiles α)
    (targetDate : String) : DailyProfiles α :=
  if dailyProfiles.isEmpty then setProfile dailyProfiles targetDate DailyProfile.default
  else
    let mostRecentDate :=
      dailyProfiles.foldl (fun mostRecent item => mostRecentStep targetDate mostRecent item.1) ""
    if !mostRecentDate.isEmpty then
      match mapFind dailyProfiles mostRecentDate with
      | some profile => setProfile dailyProfiles targetDate profile
      | none =>
          setProfile (setProfile dailyProfiles mostRecentDate DailyProfile.default) targetDate
            DailyProfile.default
    else setProfile dailyProfiles targetDate DailyProfile.default

/-- Member `UserProfile::getDailyProfile`: the new state of `dailyProfiles` and
the returned profile. -/
def getDailyProfile [OfNat α 70] (dailyProfiles : DailyProfiles α) (date : String) :
    DailyProfiles α × DailyProfile α :=
  let profiles1 :=
    match mapFind dailyProfiles date with
    | some _ => dailyProfiles
    | none => setDailyProfileFromMostRecent dailyProfiles date
  match mapFind profiles1 date with
  | some profile => (profiles1, profile)
  | none => (setProfile profiles1 date DailyProfile.default, DailyProfile.default)

/-- The earliest date of the stored profiles, if any. -/
def earliestDate : DailyProfiles α → Option String
  | [] => none
  | (k, _) :: rest =>
      match earliestDate rest with
      | none => some k
      | some e => if keyLt k e then some k else some e

/-- One profile stored for a date after the target date. -/
def laterProfiles : DailyProfiles ℚ :=
  [("2024-01-10", ⟨80, ActivityLevel.veryActive⟩)]

/-! ## Declared names -/

/-- The record is a basic record of the given name. -/
def FoodJson.isBasicNamed (n : String) : FoodJson α → Bool
  | .basic m _ _ => decide (m = n)
  | _ => false

/-- The record is a composite record of the given name. -/
def FoodJson.isCompositeNamed (n : String) : FoodJson α → Bool
  | .composite m _ _ _ => decide (m = n)
  | _ => false

/-- The type tag of the record is `basic` or `composite`. -/
def FoodJson.isFood : FoodJson α → Bool
  | .basic _ _ _ => true
  | .composite _ _ _ _ => true
  | .other _ => false

/-- Some basic or composite record of the list declares the name. -/
def declaredName (records : List (FoodJson α)) (n : String) : Bool :=
  (lastBasic records n).isSome || (lastComposite records n).isSome

/-- A name declared by two composite records that list themselves. -/
def loopTwiceRecords : List (FoodJson Nat) :=
  [.composite "L" ["old"] none [⟨"L", 1⟩], .composite "L" ["new"] none [⟨"L", 1⟩]]

/-- A name declared by two basic records and by two composite records, and a
name declared by two composite records. -/
def duplicateRecords : List (FoodJson Nat) :=
  [.composite "Milk" ["mix"] none [⟨"Sugar", 1⟩], .basic "Milk" ["old"] 60,
   .composite "Tea" ["first"] none [⟨"Milk", 1⟩], .basic "Milk" ["new"] 64,
   .other "Milk", .composite "Tea" ["second"] none [⟨"Milk", 2⟩, ⟨"Sugar", 1⟩]]

/-! ## Undo with the comparison as a parameter, and doubles that are whole numbers -/

/-- Test of `AddFoodCommand::undo` on one entry, as `matchesAdd`, with the
comparison `abs(a - b) < 0.001` of two doubles as the parameter `close`. -/
def matchesAddWith (close : α → α → Bool) (foodName : String) (servings : α)
    (e : FoodEntry α) : Bool :=
  decide (e.foodName = foodName) && close e.servings servings

/-- Loop of `AddFoodCommand::undo`, as `eraseLatest`, with the comparison as a
parameter. -/
def eraseLatestWith (close : α → α → Bool) (foodName : String) (servings : α)
    (entries : List (FoodEntry α)) : List (FoodEntry α) :=
  (entries.reverse.eraseP (matchesAddWith close foodName servings)).reverse

/-- Virtual `Command::undo` on the map `dailyLogs`, as `Command.undo`, with
the comparison of `AddFoodCommand::undo` as a parameter, so that it can run on
a carrier that is not an ordered field. `DeleteFoodCommand::undo` compares
nothing: it pushes the saved entry at the end of the vector of the date. -/
def Command.undoWith (close : α → α → Bool) :
    Command α → StrMap (List (FoodEntry α)) → StrMap (List (FoodEntry α))
  | .addFoodCommand date foodName servings _, logs =>
      let entries := entriesAt logs date
      let entries1 :=
        if entries.isEmpty then entries else eraseLatestWith close foodName servings entries
      if entries1.isEmpty then mapErase logs date else mapInsert logs date entries1
  | .deleteFoodCommand date _ deletedEntry, logs =>
      mapInsert logs date (entriesAt logs date ++ [deletedEntry])

/-- Member `FoodDiary::undo`, as `FoodDiary.undo`, with the comparison as a
parameter. -/
def FoodDiary.undoWith (close : α → α → Bool) (d : FoodDiary α) : FoodDiary α :=
  match d.undoStack with
  | [] => d
  | command :: rest => ⟨command.undoWith close d.dailyLogs, rest⟩

/-- Rounding of IEEE 754 arithmetic in its default mode, to nearest with ties
to even, of the natural number `n` to a multiple of `2 ^ e`. -/
def roundHalfEven (e n : Nat) : Nat :=
  let q := n / 2 ^ e
  let r := n % 2 ^ e
  if 2 * r < 2 ^ e then q * 2 ^ e
  else if 2 ^ e < 2 * r then (q + 1) * 2 ^ e
  else if q % 2 = 0 then q * 2 ^ e
  else (q + 1) * 2 ^ e

/-- Number of low bits of `n` beyond the 53 bits of the significand of a
`double`; the first argument bounds the count. -/
def excessBits : Nat → Nat → Nat
  | 0, _ => 0
  | fuel + 1, n => if n < 2 ^ 53 then 0 else excessBits fuel (n / 2) + 1

/-- The `double` nearest to the natural number `n`, for `n` below `2 ^ 1024`:
`n` itself when it has at most 53 significant bits, otherwise `n` rounded at
its 53rd bit. -/
def roundDouble (n : Nat) : Nat :=
  roundHalfEven (excessBits 1024 n) n

/-- A value of the C++ type `double` that is a non-negative whole number. -/
structure WholeDouble where
  val : Nat

instance : Zero WholeDouble := ⟨⟨0⟩⟩

/-- Operator `+` of `double` on whole numbers: the exact sum, rounded. -/
instance : Add WholeDouble := ⟨fun a b => ⟨roundDouble (a.val + b.val)⟩⟩

/-- The comparison `abs(a - b) < 0.001` on whole numbers: two different whole
numbers are at least 1 apart. -/
def WholeDouble.close (a b : WholeDouble) : Bool :=
  decide (a.val = b.val)

/-- A day with three entries of 10^16, 1 and 1 calories. -/
def feastDiary : FoodDiary WholeDouble :=
  ⟨[("2024-01-01",
      [⟨"Feast", ⟨1⟩, ⟨10000000000000000⟩⟩, ⟨"Mint", ⟨1⟩, ⟨1⟩⟩, ⟨"Clove", ⟨1⟩, ⟨1⟩⟩])], []⟩

/-! ## Key order and map lemmas -/

theorem char_eq_of_toNat_eq {a b : Char} (h : a.toNat = b.toNat) : a = b := by
  rw [← Char.ofNat_toNat a, ← Char.ofNat_toNat b, h]

theorem ltChars_irrefl (a : List Char) : ltChars a a = false := by
  induction a with
  | nil => rfl
  | cons x xs ih => simp [ltChars, ih]

theorem ltChars_trans : ∀ {a b c : List Char},
    ltChars a b = true → ltChars b c = true → ltChars a c = true
  | [], [], _, h, _ => by simp [ltChars] at h
  | [], _ :: _, [], _, h => by simp [ltChars] at h
  | [], _ :: _, _ :: _, _, _ => by simp [ltChars]
  | _ :: _, [], _, h, _ => by simp [ltChars] at h
  | _ :: _, _ :: _, [], _, h => by simp [ltChars] at h
  | x :: xs, y :: ys, z :: zs, h1, h2 => by
      simp only [ltChars] at h1 h2 ⊢
      by_cases hxy : x.toNat < y.toNat
      · by_cases hyz : y.toNat < z.toNat
        · simp [Nat.lt_trans hxy hyz]
        · by_cases hyz2 : y.toNat = z.toNat
          · simp [← hyz2, hxy]
          · simp [hyz, hyz2] at h2
      · by_cases hxy2 : x.toNat = y.toNat
        · rw [if_neg hxy, if_pos hxy2] at h1
          by_cases hyz : y.toNat < z.toNat
          · simp [hxy2, hyz]
          · by_cases hyz2 : y.toNat = z.toNat
            · rw [if_neg hyz, if_pos hyz2] at h2
              have := ltChars_trans h1 h2
              simp [hxy2, hyz2, this]
            · simp [hyz, hyz2] at h2
        · simp [hxy, hxy2] at h1

theorem ltChars_total : ∀ {a b : List Char}, a ≠ b →
    ltChars a b = true ∨ ltChars b a = true
  | [], [], h => absurd rfl h
  | [], _ :: _, _ => by simp [ltChars]
  | _ :: _, [], _ => by simp [ltChars]
  | x :: xs, y :: ys, h => by
      simp only [ltChars]
      rcases Nat.lt_trichotomy x.toNat y.toNat with hlt | heq | hgt
      · simp [hlt]
      · have hxy : x = y := char_eq_of_toNat_eq heq
        have hne : xs ≠ ys := fun e => h (by rw [hxy, e])
        simpa [heq] using ltChars_total hne
      · simp [hgt]

theorem keyLt_irrefl (a : String) : keyLt a a = false := ltChars_irrefl _

theorem keyLt_trans {a b c : String} (h1 : keyLt a b = true) (h2 : keyLt b c = true) :
    keyLt a c = true := ltChars_trans h1 h2

theorem keyLt_total {a b : String} (h : a ≠ b) : keyLt a b = true ∨ keyLt b a = true :=
  ltChars_total (fun e => h (String.ext e))

theorem keyLt_ne {a b : String} (h : keyLt a b = true) : a ≠ b := by
  intro e; subst e; simp [keyLt_irrefl] at h

theorem keyLt_asymm {a b : String} (h : keyLt a b = true) : keyLt b a = false := by
  by_contra h2
  have := keyLt_trans h (by simpa using h2)
  simp [keyLt_irrefl] at this

theorem mapFind_mapInsert {β : Type} (m : StrMap β) (k : String) (v : β) (key : String) :
    mapFind (mapInsert m k v) key = if key = k then some v else mapFind m key := by
  induction m with
  | nil => simp [mapInsert, mapFind]
  | cons e rest ih =>
    obtain ⟨k', w⟩ := e
    simp only [mapInsert]
    by_cases h1 : keyLt k k' = true
    · simp [h1, mapFind]
    · by_cases h2 : k = k'
      · subst h2
        by_cases h3 : key = k <;> simp [h1, mapFind, h3]
      · simp only [h1, h2, if_false, mapFind, ih]
        by_cases h3 : key = k'
        · have : key ≠ k := fun e => h2 (e ▸ h3)
          simp [h3, Ne.symm h2]
        · simp [h3]

theorem mapFind_mapInsert_self {β : Type} (m : StrMap β) (k : String) (v : β) :
    mapFind (mapInsert m k v) k = some v := by
  simp [mapFind_mapInsert]

theorem mapFind_mapInsert_ne {β : Type} (m : StrMap β) {k key : String} (v : β)
    (h : key ≠ k) : mapFind (mapInsert m k v) key = mapFind m key := by
  simp [mapFind_mapInsert, h]

theorem mem_mapInsert {β : Type} {m : StrMap β} {k : String} {v : β} {e : String × β}
    (h : e ∈ mapInsert m k v) : e = (k, v) ∨ e ∈ m := by
  induction m with
  | nil => simpa [mapInsert] using h
  | cons e' rest ih =>
    obtain ⟨k', w⟩ := e'
    simp only [mapInsert] at h
    split_ifs at h with h1 h2
    · simpa using h
    · rcases List.mem_cons.1 h with h | h
      · exact Or.inl h
      · exact Or.inr (List.mem_cons_of_mem _ h)
    · rcases List.mem_cons.1 h with h | h
      · exact Or.inr (h ▸ List.mem_cons_self _ _)
      · rcases ih h with h | h
        · exact Or.inl h
        · exact Or.inr (List.mem_cons_of_mem _ h)

theorem keysSorted_nil {β : Type} : KeysSorted ([] : StrMap β) := List.Pairwise.nil

theorem keysSorted_tail {β : Type} {e : String × β} {m : StrMap β}
    (h : KeysSorted (e :: m)) : KeysSorted m := (List.pairwise_cons.1 h).2

theorem keysSorted_head_lt {β : Type} {e : String × β} {m : StrMap β}
    (h : KeysSorted (e :: m)) : ∀ x ∈ m, keyLt e.1 x.1 = true := (List.pairwise_cons.1 h).1

theorem keysSorted_mapInsert {β : Type} {m : StrMap β} (h : KeysSorted m) (k : String) (v : β) :
    KeysSorted (mapInsert m k v) := by
  induction m with
  | nil => simp [mapInsert, KeysSorted]
  | cons e rest ih =>
    obtain ⟨k', w⟩ := e
    have hhead := (keysSorted_head_lt h)
    have htail := (keysSorted_tail h)
    simp only [mapInsert]
    split_ifs with h1 h2
    · refine List.pairwise_cons.2 ⟨?_, h⟩
      intro x hx
      rcases List.mem_cons.1 hx with hx | hx
      · subst hx; exact h1
      · exact keyLt_trans h1 (hhead x hx)
    · subst h2
      exact List.pairwise_cons.2 ⟨hhead, htail⟩
    · refine List.pairwise_cons.2 ⟨?_, ih htail⟩
      intro x hx
      rcases mem_mapInsert hx with hx | hx
      · subst hx
        rcases keyLt_total h2 with h3 | h3
        · exact absurd h3 h1
        · exact h3
      · exact hhead x hx

theorem mapFind_eq_none_of_lt {β : Type} {m : StrMap β} {key : String}
    (h : ∀ x ∈ m, keyLt key x.1 = true) : mapFind m key = none := by
  induction m with
  | nil => rfl
  | cons e rest ih =>
    obtain ⟨k', w⟩ := e
    have h1 : key ≠ k' := keyLt_ne (h (k', w) (List.mem_cons_self _ _))
    simp only [mapFind, h1, if_false]
    exact ih (fun x hx => h x (List.mem_cons_of_mem _ hx))

theorem mapFind_of_mem {β : Type} {m : StrMap β} (hs : KeysSorted m) {k : String} {v : β}
    (h : (k, v) ∈ m) : mapFind m k = some v := by
  induction m with
  | nil => simp at h
  | cons e rest ih =>
    obtain ⟨k', w⟩ := e
    rcases List.mem_cons.1 h with h | h
    · cases h; simp [mapFind]
    · have : k ≠ k' := (keyLt_ne ((keysSorted_head_lt hs) _ h)).symm
      simp only [mapFind, this, if_false]
      exact ih (keysSorted_tail hs) h

theorem mem_of_mapFind {β : Type} {m : StrMap β} {k : String} {v : β}
    (h : mapFind m k = some v) : (k, v) ∈ m := by
  induction m with
  | nil => simp [mapFind] at h
  | cons e rest ih =>
    obtain ⟨k', w⟩ := e
    simp only [mapFind] at h
    split_ifs at h with h1
    · cases h; subst h1; exact List.mem_cons_self _ _
    · exact List.mem_cons_of_mem _ (ih h)

theorem mapFind_isSome_iff_mem_keys {β : Type} {m : StrMap β} {k : String} :
    (mapFind m k).isSome = true ↔ k ∈ mapKeys m := by
  induction m with
  | nil => simp [mapFind, mapKeys]
  | cons e rest ih =>
    obtain ⟨k', w⟩ := e
    simp only [mapFind, mapKeys, List.map_cons, List.mem_cons]
    by_cases h1 : k = k'
    · simp [h1]
    · simp only [h1, if_false, false_or]
      exact ih

/-- Two maps in key order with the same lookups are the same list. -/
theorem strMap_ext_of_sorted {β : Type} : ∀ {m1 m2 : StrMap β}, KeysSorted m1 → KeysSorted m2 →
    (∀ k, mapFind m1 k = mapFind m2 k) → m1 = m2
  | [], [], _, _, _ => rfl
  | [], (k, v) :: _, _, _, h => by
      have := h k
      simp [mapFind] at this
  | (k, v) :: _, [], _, _, h => by
      have := h k
      simp [mapFind] at this
  | (k1, v1) :: r1, (k2, v2) :: r2, h1, h2, h => by
      have hk : k1 = k2 := by
        by_contra hne
        rcases keyLt_total hne with hlt | hlt
        · have e1 := h k1
          have : mapFind ((k2, v2) :: r2) k1 = none :=
            mapFind_eq_none_of_lt (by
              intro x hx
              rcases List.mem_cons.1 hx with hx | hx
              · subst hx; exact hlt
              · exact keyLt_trans hlt ((keysSorted_head_lt h2) x hx))
          rw [this] at e1
          simp [mapFind] at e1
        · have e1 := h k2
          have : mapFind ((k1, v1) :: r1) k2 = none :=
            mapFind_eq_none_of_lt (by
              intro x hx
              rcases List.mem_cons.1 hx with hx | hx
              · subst hx; exact hlt
              · exact keyLt_trans hlt ((keysSorted_head_lt h1) x hx))
          rw [this] at e1
          simp [mapFind] at e1
      subst hk
      have hv : v1 = v2 := by
        have := h k1
        simpa [mapFind] using this
      subst hv
      have hrest : r1 = r2 := by
        apply strMap_ext_of_sorted (keysSorted_tail h1) (keysSorted_tail h2)
        intro k
        by_cases hk : k = k1
        · subst hk
          rw [mapFind_eq_none_of_lt (keysSorted_head_lt h1), mapFind_eq_none_of_lt (keysSorted_head_lt h2)]
        · have := h k
          simpa [mapFind, hk] using this
      rw [hrest]


/-! ## Calories of a composite food -/

theorem accumulate_eq_foldl [Zero α] [Add α] [Mul α] (comps : List (FoodComponent α))
    (total : α) :
    CompositeFood.accumulate comps total =
      comps.foldl (fun t c => t + c.food.getCalories * c.servings) total := by
  induction comps generalizing total with
  | nil => simp [CompositeFood.accumulate]
  | cons c rest ih =>
    cases c with
    | mk f s =>
      simp [CompositeFood.accumulate, FoodComponent.calories, FoodComponent.food,
        FoodComponent.servings, ih]

/-- C1: the calories of a composite food are the running sum, over its component
list in order and starting from zero, of the component food's calories (computed
by the same rule when it is a composite) times the component's servings; with
no components the result is zero. -/
theorem getCalories_composite [Zero α] [Add α] [Mul α] (name : String)
    (keywords : List String) (comps : List (FoodComponent α)) :
    (Food.composite name keywords comps).getCalories =
        comps.foldl (fun total c => total + c.food.getCalories * c.servings) 0
      ∧ (Food.composite name keywords ([] : List (FoodComponent α))).getCalories = 0 := by
  constructor
  · simp [Food.getCalories, accumulate_eq_foldl]
  · simp [Food.getCalories, CompositeFood.accumulate]

/-- In exact arithmetic the running sum is the sum of the products. -/
theorem getCalories_composite_sum [Semiring α] (name : String) (keywords : List String)
    (comps : List (FoodComponent α)) :
    (Food.composite name keywords comps).getCalories =
      (comps.map (fun c => c.food.getCalories * c.servings)).sum := by
  have h : ∀ (l : List (FoodComponent α)) (t : α),
      l.foldl (fun t c => t + c.food.getCalories * c.servings) t =
        t + (l.map (fun c => c.food.getCalories * c.servings)).sum := by
    intro l
    induction l with
    | nil => intro t; simp
    | cons c rest ih => intro t; simp [ih, add_assoc]
  simp [Food.getCalories, accumulate_eq_foldl, h]

/-! ## Insertion and lookup -/

/-- C6: adding a food whose name is already present returns false and leaves
the manager, hence the set of names and the entry stored under that name,
exactly as it was. -/
theorem addFood_existing (db : FoodDatabaseManager α) (food : Food α)
    (h : (db.getFood food.getName).isSome = true) :
    db.addFood food = (false, db)
      ∧ (db.addFood food).2.getFood food.getName = db.getFood food.getName
      ∧ mapKeys (db.addFood food).2.foods = mapKeys db.foods := by
  have h1 : db.addFood food = (false, db) := by
    unfold FoodDatabaseManager.getFood at h
    unfold FoodDatabaseManager.addFood
    cases hf : mapFind db.foods food.getName with
    | none => simp [hf] at h
    | some f => rfl
  simp [h1]

theorem addFood_existing_witness :
    ((FoodDatabaseManager.mk [("Apple", Food.basic "Apple" ["fruit"] (95 : Nat))] false).addFood
        (Food.basic "Apple" ["green"] 52)
      = (false, FoodDatabaseManager.mk [("Apple", Food.basic "Apple" ["fruit"] 95)] false))
    ∧ ((FoodDatabaseManager.mk [("Apple", Food.basic "Apple" ["fruit"] (95 : Nat))] false).addFood
        (Food.basic "Apple" ["green"] 52)).2.getFood "Apple"
      = some (Food.basic "Apple" ["fruit"] 95) :=
  ⟨(addFood_existing (FoodDatabaseManager.mk [("Apple", Food.basic "Apple" ["fruit"] (95 : Nat))] false)
      (Food.basic "Apple" ["green"] 52) (by decide)).1,
   (addFood_existing (FoodDatabaseManager.mk [("Apple", Food.basic "Apple" ["fruit"] (95 : Nat))] false)
      (Food.basic "Apple" ["green"] 52) (by decide)).2.1⟩

/-- C7: adding a food whose name is absent returns true; afterwards the lookup
of that name gives the food and the lookup of every other name is unchanged. -/
theorem addFood_fresh (db : FoodDatabaseManager α) (food : Food α)
    (h : db.getFood food.getName = none) :
    (db.addFood food).1 = true
      ∧ (db.addFood food).2.getFood food.getName = some food
      ∧ ∀ n, n ≠ food.getName → (db.addFood food).2.getFood n = db.getFood n := by
  unfold FoodDatabaseManager.getFood at h
  have h1 : db.addFood food = (true, ⟨mapInsert db.foods food.getName food, true⟩) := by
    unfold FoodDatabaseManager.addFood
    rw [h]
  rw [h1]
  refine ⟨rfl, ?_, ?_⟩
  · simp [FoodDatabaseManager.getFood, mapFind_mapInsert]
  · intro n hn
    simp [FoodDatabaseManager.getFood, mapFind_mapInsert, hn]

theorem addFood_fresh_witness :
    ((FoodDatabaseManager.mk [("Apple", Food.basic "Apple" ["fruit"] (95 : Nat))] false).addFood
        (Food.basic "Banana" ["fruit"] 105)).1 = true
    ∧ ((FoodDatabaseManager.mk [("Apple", Food.basic "Apple" ["fruit"] (95 : Nat))] false).addFood
        (Food.basic "Banana" ["fruit"] 105)).2.getFood "Banana"
      = some (Food.basic "Banana" ["fruit"] 105) :=
  ⟨(addFood_fresh (FoodDatabaseManager.mk [("Apple", Food.basic "Apple" ["fruit"] (95 : Nat))] false)
      (Food.basic "Banana" ["fruit"] 105) (by rfl)).1,
   (addFood_fresh (FoodDatabaseManager.mk [("Apple", Food.basic "Apple" ["fruit"] (95 : Nat))] false)
      (Food.basic "Banana" ["fruit"] 105) (by rfl)).2.1⟩

/-! ## Keyword search -/

theorem keywordHit_iff (keyword : String) (foodKeywords : List String) :
    keywordHit keyword foodKeywords = true ↔
      ∃ k ∈ foodKeywords, lowerChars keyword <:+: lowerChars k := by
  induction foodKeywords with
  | nil => simp [keywordHit]
  | cons fk rest ih =>
    simp only [keywordHit, List.mem_cons, exists_eq_or_imp]
    by_cases h : containsLower fk keyword = true
    · have h2 : lowerChars keyword <:+: lowerChars fk := by
        simpa [containsLower] using h
      simp [h, h2]
    · have h2 : ¬ lowerChars keyword <:+: lowerChars fk := by
        simpa [containsLower] using h
      simp [h, h2, ih]

theorem countHits_eq (foodKeywords : List String) (keywords : List String) (cnt : Nat) :
    countHits foodKeywords keywords cnt =
      cnt + (keywords.filter (fun t => keywordHit t foodKeywords)).length := by
  induction keywords generalizing cnt with
  | nil => simp [countHits]
  | cons t rest ih =>
    simp only [countHits, ih, List.filter_cons]
    by_cases h : keywordHit t foodKeywords = true
    · simp [h]; omega
    · simp [h]

theorem countHits_eq_length_iff (food : Food α) (keywords : List String) :
    countHits food.getKeywords keywords 0 = keywords.length ↔ MatchesAllTerms keywords food := by
  rw [countHits_eq, Nat.zero_add, List.filter_length_eq_length]
  simp [MatchesAllTerms, TermMatches, keywordHit_iff]

theorem countHits_pos_iff (food : Food α) (keywords : List String) :
    0 < countHits food.getKeywords keywords 0 ↔ MatchesSomeTerm keywords food := by
  rw [countHits_eq, Nat.zero_add, List.length_pos_iff_exists_mem]
  simp [MatchesSomeTerm, TermMatches, keywordHit_iff, List.mem_filter]

theorem searchLoop_eq (keywords : List String) (matchall : Bool) (m : StrMap (Food α))
    (results : List (Food α)) :
    searchLoop keywords matchall m results =
      results ++ (mapValues m).filter (fun f =>
        if matchall then decide (MatchesAllTerms keywords f)
        else decide (MatchesSomeTerm keywords f)) := by
  induction m generalizing results with
  | nil => simp [searchLoop, mapValues]
  | cons e rest ih =>
    obtain ⟨k, food⟩ := e
    simp only [searchLoop, mapValues, List.map_cons, List.filter_cons] at ih ⊢
    cases matchall with
    | true =>
      by_cases h : MatchesAllTerms keywords food
      · have h2 := (countHits_eq_length_iff food keywords).2 h
        simp [h, h2, ih, mapValues]
      · have h2 := mt (countHits_eq_length_iff food keywords).1 h
        simp [h, h2, ih, mapValues]
    | false =>
      by_cases h : MatchesSomeTerm keywords food
      · have h2 := (countHits_pos_iff food keywords).2 h
        simp [h, h2, ih, mapValues]
      · have h2 := mt (countHits_pos_iff food keywords).1 h
        simp [h, h2, ih, mapValues]

/-- C9: with `matchall = true` the search returns, in catalog order, exactly
the foods of the catalog for which every query term is, case-insensitively, a
substring of at least one keyword of the food; repeated terms change nothing
and with no terms every food is returned. -/
theorem search_matchall (db : FoodDatabaseManager α) (terms : List String) :
    db.searchFoodsByKeywords terms true =
        (mapValues db.foods).filter (fun f => decide (MatchesAllTerms terms f))
      ∧ db.searchFoodsByKeywords ([] : List String) true = mapValues db.foods := by
  constructor
  · simp [FoodDatabaseManager.searchFoodsByKeywords, searchLoop_eq]
  · simp [FoodDatabaseManager.searchFoodsByKeywords, searchLoop_eq, MatchesAllTerms]


theorem keys_nodup_of_sorted {β : Type} {m : StrMap β} (h : KeysSorted m) :
    (mapKeys m).Nodup := by
  unfold mapKeys
  rw [List.Nodup, List.pairwise_map]
  exact h.imp (fun hab => keyLt_ne hab)

theorem names_eq_keys {m : StrMap (Food α)} (h : NamesAreKeys m) :
    (mapValues m).map Food.getName = mapKeys m := by
  unfold mapValues mapKeys
  rw [List.map_map]
  exact List.map_congr_left (fun e he => h e he)

theorem values_nodup {m : StrMap (Food α)} (hs : KeysSorted m) (hn : NamesAreKeys m) :
    (mapValues m).Nodup := by
  apply List.Nodup.of_map Food.getName
  rw [names_eq_keys hn]
  exact keys_nodup_of_sorted hs

/-- C10: with `matchall = false` the search returns, in catalog order, exactly
the foods of the catalog for which at least one query term is,
case-insensitively, a substring of at least one keyword of the food; an entry
is returned once however many terms it matches, so in a catalog that stores
each food under its own name no food is repeated in the result. -/
theorem search_matchany (db : FoodDatabaseManager α) (terms : List String) :
    db.searchFoodsByKeywords terms false =
        (mapValues db.foods).filter (fun f => decide (MatchesSomeTerm terms f))
      ∧ (KeysSorted db.foods → NamesAreKeys db.foods →
          (db.searchFoodsByKeywords terms false).Nodup) := by
  have h : db.searchFoodsByKeywords terms false =
      (mapValues db.foods).filter (fun f => decide (MatchesSomeTerm terms f)) := by
    simp [FoodDatabaseManager.searchFoodsByKeywords, searchLoop_eq]
  refine ⟨h, fun hs hn => ?_⟩
  rw [h]
  exact (values_nodup hs hn).filter _

theorem search_matchany_witness :
    (FoodDatabaseManager.mk
        [("Egg", Food.basic "Egg" ["High Protein", "protein rich"] (78 : Nat)),
         ("Rice", Food.basic "Rice" ["carbs"] 200)] false).searchFoodsByKeywords
      ["PROTEIN", "high"] false
      = [Food.basic "Egg" ["High Protein", "protein rich"] 78]
    ∧ ((FoodDatabaseManager.mk
        [("Egg", Food.basic "Egg" ["High Protein", "protein rich"] (78 : Nat)),
         ("Rice", Food.basic "Rice" ["carbs"] 200)] false).searchFoodsByKeywords
      ["PROTEIN", "high"] false).Nodup :=
  ⟨by rfl,
   (search_matchany (FoodDatabaseManager.mk
        [("Egg", Food.basic "Egg" ["High Protein", "protein rich"] (78 : Nat)),
         ("Rice", Food.basic "Rice" ["carbs"] 200)] false) ["PROTEIN", "high"]).2
      (by unfold KeysSorted; decide) (by unfold NamesAreKeys; decide)⟩

/-! ## Invariants of the loader -/

theorem namesAreKeys_mapInsert {m : StrMap (Food α)} (h : NamesAreKeys m) {k : String}
    {f : Food α} (hf : f.getName = k) : NamesAreKeys (mapInsert m k f) := by
  intro e he
  rcases mem_mapInsert he with he | he
  · subst he; exact hf
  · exact h e he

theorem loadComponents_inv (Q : LoadState α → Prop)
    (load : LoadState α → String → Option (LoadState α × Option (Food α))) (parent : String)
    (hload : ∀ st n st1 r, Q st → load st n = some (st1, r) → Q st1)
    (hwarn : ∀ st w, Q st → Q ⟨st.foods, st.out ++ [w]⟩) :
    ∀ (cs : List (ComponentJson α)) (st : LoadState α) (acc : List (FoodComponent α))
      (st1 : LoadState α) (comps : List (FoodComponent α)),
      Q st → loadComponents load parent cs st acc = some (st1, comps) → Q st1 := by
  intro cs
  induction cs with
  | nil =>
    intro st acc st1 comps hQ h
    simp only [loadComponents, Option.some.injEq, Prod.mk.injEq] at h
    exact h.1 ▸ hQ
  | cons c rest ih =>
    intro st acc st1 comps hQ h
    simp only [loadComponents] at h
    cases hf : mapFind st.foods c.name with
    | some f =>
      simp only [hf] at h
      exact ih _ _ _ _ hQ h
    | none =>
      simp only [hf] at h
      cases hl : load st c.name with
      | none => simp [hl] at h
      | some p =>
        obtain ⟨st2, r⟩ := p
        have hQ2 := hload _ _ _ _ hQ hl
        cases r with
        | some f =>
          simp only [hl] at h
          exact ih _ _ _ _ hQ2 h
        | none =>
          simp only [hl] at h
          exact ih _ _ _ _ (hwarn _ _ hQ2) h

theorem loadCompositeFood_inv (Q : LoadState α → Prop) (pending : StrMap (Pending α))
    (hwarn : ∀ st w, Q st → Q ⟨st.foods, st.out ++ [w]⟩)
    (hins : ∀ st name kw comps, Q st →
      Q ⟨mapInsert st.foods name (Food.composite name kw comps), st.out⟩) :
    ∀ (fuel : Nat) (st : LoadState α) (name : String) (st1 : LoadState α)
      (r : Option (Food α)),
      Q st → loadCompositeFood pending fuel st name = some (st1, r) → Q st1 := by
  intro fuel
  induction fuel with
  | zero => intro st name st1 r _ h; simp [loadCompositeFood] at h
  | succ n ih =>
    intro st name st1 r hQ h
    simp only [loadCompositeFood] at h
    cases hf : mapFind st.foods name with
    | some f =>
      simp only [hf, Option.some.injEq, Prod.mk.injEq] at h
      exact h.1 ▸ hQ
    | none =>
      simp only [hf] at h
      cases hp : mapFind pending name with
      | none =>
        simp only [hp, Option.some.injEq, Prod.mk.injEq] at h
        exact h.1 ▸ hwarn _ _ hQ
      | some pj =>
        simp only [hp] at h
        cases hc : loadComponents (loadCompositeFood pending n) name pj.components st [] with
        | none => simp [hc] at h
        | some p =>
          obtain ⟨st2, comps⟩ := p
          simp only [hc, Option.some.injEq, Prod.mk.injEq] at h
          have hQ2 := loadComponents_inv Q _ name ih hwarn _ _ _ _ _ hQ hc
          exact h.1 ▸ hins _ _ _ _ hQ2

theorem secondPass_inv (Q : LoadState α → Prop) (pending : StrMap (Pending α))
    (hwarn : ∀ st w, Q st → Q ⟨st.foods, st.out ++ [w]⟩)
    (hins : ∀ st name kw comps, Q st →
      Q ⟨mapInsert st.foods name (Food.composite name kw comps), st.out⟩)
    (fuel : Nat) :
    ∀ (names : List String) (st st1 : LoadState α),
      Q st → secondPass pending fuel names st = some st1 → Q st1 := by
  intro names
  induction names with
  | nil =>
    intro st st1 hQ h
    simp only [secondPass, Option.some.injEq] at h
    exact h ▸ hQ
  | cons name rest ih =>
    intro st st1 hQ h
    simp only [secondPass] at h
    cases hl : loadCompositeFood pending fuel st name with
    | none => simp [hl] at h
    | some p =>
      obtain ⟨st2, r⟩ := p
      simp only [hl] at h
      exact ih _ _ (loadCompositeFood_inv Q pending hwarn hins _ _ _ _ _ hQ hl) h


theorem firstPass_foods_inv (records : List (FoodJson α))
    (acc : StrMap (Food α) × StrMap (Pending α))
    (h : KeysSorted acc.1 ∧ NamesAreKeys acc.1) :
    KeysSorted (records.foldl firstPassStep acc).1 ∧
      NamesAreKeys (records.foldl firstPassStep acc).1 := by
  induction records generalizing acc with
  | nil => simpa using h
  | cons r rest ih =>
    simp only [List.foldl_cons]
    apply ih
    cases r with
    | basic n k c =>
      exact ⟨keysSorted_mapInsert h.1 _ _, namesAreKeys_mapInsert h.2 (by simp [BasicFood.fromJson, Food.getName])⟩
    | composite n k cal comps => exact h
    | other n => exact h

theorem firstPass_pending_sorted (records : List (FoodJson α))
    (acc : StrMap (Food α) × StrMap (Pending α)) (h : KeysSorted acc.2) :
    KeysSorted (records.foldl firstPassStep acc).2 := by
  induction records generalizing acc with
  | nil => simpa using h
  | cons r rest ih =>
    simp only [List.foldl_cons]
    apply ih
    cases r with
    | basic n k c => exact h
    | composite n k cal comps => exact keysSorted_mapInsert h _ _
    | other n => exact h

theorem loadRecords_inv {fuel : Nat} {records : List (FoodJson α)} {st : LoadState α}
    (h : loadRecords fuel records = some st) :
    KeysSorted st.foods ∧ NamesAreKeys st.foods := by
  unfold loadRecords at h
  refine secondPass_inv (fun s => KeysSorted s.foods ∧ NamesAreKeys s.foods) _
    (fun _ _ hQ => hQ)
    (fun s name kw comps hQ => ⟨keysSorted_mapInsert hQ.1 _ _, namesAreKeys_mapInsert hQ.2 (by simp [Food.getName])⟩)
    fuel _ _ _ ?_ h
  exact firstPass_foods_inv records ([], []) ⟨keysSorted_nil, by intro e he; simp at he⟩

theorem reachable_inv {db : FoodDatabaseManager α} (h : Reachable db) :
    KeysSorted db.foods ∧ NamesAreKeys db.foods := by
  induction h with
  | empty => exact ⟨keysSorted_nil, by intro e he; simp [FoodDatabaseManager.empty] at he⟩
  | @addFood db food _ ih =>
    unfold FoodDatabaseManager.addFood
    cases hf : mapFind db.foods food.getName with
    | some f => simpa using ih
    | none => exact ⟨keysSorted_mapInsert ih.1 _ _, namesAreKeys_mapInsert ih.2 rfl⟩
  | @loadDatabase db fuel file res _ hres _ =>
    cases file with
    | missing =>
      simp only [FoodDatabaseManager.loadDatabase, Option.some.injEq] at hres
      subst hres
      exact ⟨keysSorted_nil, by intro e he; simp at he⟩
    | invalid =>
      simp only [FoodDatabaseManager.loadDatabase, Option.some.injEq] at hres
      subst hres
      exact ⟨keysSorted_nil, by intro e he; simp at he⟩
    | records rs =>
      simp only [FoodDatabaseManager.loadDatabase] at hres
      cases hl : loadRecords fuel rs with
      | none => simp [hl] at hres
      | some st =>
        simp only [hl, Option.some.injEq] at hres
        subst hres
        exact loadRecords_inv hl

/-- C8: in every reachable catalog state a lookup either reports not-found or
returns a food whose own name is the name looked up (the lookup is a pure
function of the state), and the names of the stored foods are pairwise
distinct. -/
theorem reachable_names_unique (db : FoodDatabaseManager α) (h : Reachable db) :
    (∀ n, db.getFood n = none ∨ ∃ f, db.getFood n = some f ∧ f.getName = n)
      ∧ ((mapValues db.foods).map Food.getName).Nodup := by
  obtain ⟨hs, hn⟩ := reachable_inv h
  constructor
  · intro n
    unfold FoodDatabaseManager.getFood
    cases hf : mapFind db.foods n with
    | none => exact Or.inl rfl
    | some f => exact Or.inr ⟨f, rfl, hn _ (mem_of_mapFind hf)⟩
  · rw [names_eq_keys hn]
    exact keys_nodup_of_sorted hs

theorem reachable_names_unique_witness :
    Reachable pieCatalog
      ∧ ((mapValues pieCatalog.foods).map Food.getName).Nodup
      ∧ (pieCatalog.getFood "Pie").map Food.getName = some "Pie" :=
  have h : Reachable pieCatalog :=
    Reachable.addFood
      (Food.composite "Pie" ["dessert"] [FoodComponent.mk (Food.basic "Apple" ["fruit"] 95) 2])
      (Reachable.addFood (Food.basic "Apple" ["fruit"] 95) Reachable.empty)
  ⟨h, (reachable_names_unique pieCatalog h).2, rfl⟩

/-! ## The loader on acyclic definitions -/

theorem isSome_of_eq_some {β : Type} {o : Option β} {b : β} (h : o = some b) :
    o.isSome = true := by simp [h]

theorem eq_none_of_not_isSome {β : Type} {o : Option β} (h : ¬ o.isSome = true) :
    o = none := by
  cases o with
  | none => rfl
  | some b => simp at h

theorem grows_refl (pending : StrMap (Pending α)) (st : LoadState α) : Grows pending st st where
  mono := fun _ _ h => h
  fresh := fun k h1 h2 => by simp [h1] at h2
  out_mono := fun _ h => h
  built := fun k f h1 h2 => by simp [h1] at h2
  out_sound := fun _ h => Or.inl h

theorem grows_find_none {pending : StrMap (Pending α)} {st st1 : LoadState α}
    (h : Grows pending st st1) {k : String} (h1 : mapFind st.foods k = none)
    (h2 : mapFind pending k = none) : mapFind st1.foods k = none := by
  apply eq_none_of_not_isSome
  intro h3
  have := h.fresh k h1 h3
  simp [h2] at this

theorem resolvedComponents_congr {m1 m2 : StrMap (Food α)} {cs : List (ComponentJson α)}
    (h : ∀ c ∈ cs, mapFind m1 c.name = mapFind m2 c.name) :
    resolvedComponents m1 cs = resolvedComponents m2 cs := by
  induction cs with
  | nil => rfl
  | cons c rest ih =>
    have hc := h c (List.mem_cons_self _ _)
    have hr := ih (fun c hc => h c (List.mem_cons_of_mem _ hc))
    simp only [resolvedComponents, List.filterMap_cons] at hr ⊢
    rw [hc, hr]

theorem grows_trans {pending : StrMap (Pending α)} {st st1 st2 : LoadState α}
    (h1 : Grows pending st st1) (h2 : Grows pending st1 st2) : Grows pending st st2 where
  mono := fun k f h => h2.mono k f (h1.mono k f h)
  fresh := by
    intro k hk hs
    cases hf : mapFind st1.foods k with
    | none => exact h2.fresh k hf hs
    | some f => exact h1.fresh k hk (isSome_of_eq_some hf)
  out_mono := fun w h => h2.out_mono w (h1.out_mono w h)
  built := by
    intro k f hk hf
    cases hf1 : mapFind st1.foods k with
    | none => exact h2.built k f hf1 hf
    | some g =>
      have hg : g = f := by
        have := h2.mono k g hf1
        rw [hf] at this
        exact (Option.some.inj this).symm
      subst hg
      obtain ⟨pj, hp, hc, hw⟩ := h1.built k g hk hf1
      have hsame : ∀ c ∈ pj.components, mapFind st1.foods c.name = mapFind st2.foods c.name := by
        intro c hcm
        cases hfc : mapFind st1.foods c.name with
        | some x => exact (h2.mono _ _ hfc).symm
        | none => exact (grows_find_none h2 hfc (hw c hcm hfc).1).symm
      refine ⟨pj, hp, ?_, ?_⟩
      · rw [hc, resolvedComponents_congr hsame]
      · intro c hcm hnone
        have h1c : mapFind st1.foods c.name = none := by rw [hsame c hcm]; exact hnone
        exact ⟨(hw c hcm h1c).1, h2.out_mono _ (hw c hcm h1c).2⟩
  out_sound := by
    intro w hw
    rcases h2.out_sound w hw with hw1 | hnew
    · rcases h1.out_sound w hw1 with hw0 | ⟨n, hn, hp, hf, hc⟩
      · exact Or.inl hw0
      · exact Or.inr ⟨n, hn, hp, grows_find_none h2 hf hp, hc⟩
    · exact Or.inr hnew

theorem grows_warn {pending : StrMap (Pending α)} (st : LoadState α) (w : Warning) (n : String)
    (hn : w.Names n) (hp : mapFind pending n = none) (hf : mapFind st.foods n = none)
    (hc : IsComponentName pending n) :
    Grows pending st ⟨st.foods, st.out ++ [w]⟩ where
  mono := fun _ _ h => h
  fresh := fun k h1 h2 => by simp [h1] at h2
  out_mono := fun _ h => List.mem_append_left _ h
  built := fun k f h1 h2 => by simp [h1] at h2
  out_sound := by
    intro w1 hw1
    rcases List.mem_append.1 hw1 with h | h
    · exact Or.inl h
    · have : w1 = w := by simpa using h
      subst this
      exact Or.inr ⟨n, hn, hp, hf, hc⟩

theorem grows_insert {pending : StrMap (Pending α)} (st : LoadState α) (name : String)
    (pj : Pending α) (hf : mapFind st.foods name = none) (hp : mapFind pending name = some pj)
    (hne : ∀ c ∈ pj.components, c.name ≠ name)
    (hw : ∀ c ∈ pj.components, mapFind st.foods c.name = none →
      mapFind pending c.name = none ∧ Warning.componentNotFound c.name name ∈ st.out) :
    Grows pending st
      ⟨mapInsert st.foods name
        (Food.composite name pj.keywords (resolvedComponents st.foods pj.components)), st.out⟩ where
  mono := by
    intro k f h
    have : k ≠ name := by
      intro e; subst e; rw [hf] at h; cases h
    simpa [mapFind_mapInsert, this] using h
  fresh := by
    intro k hk hs
    by_cases e : k = name
    · subst e; simp [hp]
    · simp [mapFind_mapInsert, e, hk] at hs
  out_mono := fun _ h => h
  built := by
    intro k f hk hkf
    have e : k = name := by
      by_contra e
      simp [mapFind_mapInsert, e, hk] at hkf
    subst e
    simp only [mapFind_mapInsert, if_true, Option.some.injEq] at hkf
    have hsame : ∀ c ∈ pj.components,
        mapFind st.foods c.name = mapFind (mapInsert st.foods k
          (Food.composite k pj.keywords (resolvedComponents st.foods pj.components))) c.name := by
      intro c hc
      simp [mapFind_mapInsert, hne c hc]
    refine ⟨pj, hp, ?_, ?_⟩
    · rw [← hkf, ← resolvedComponents_congr hsame]
    · intro c hc hnone
      have : mapFind st.foods c.name = none := by rw [hsame c hc]; exact hnone
      exact hw c hc this
  out_sound := fun _ h => Or.inl h

/-- What the component loop achieves, given what the recursive call achieves
on the names of components of `name`. -/
theorem loadComponents_spec (pending : StrMap (Pending α)) (rank : String → Nat)
    (load : LoadState α → String → Option (LoadState α × Option (Food α)))
    (name : String) (pj : Pending α) (hpj : mapFind pending name = some pj)
    (hrank : Acyclic pending rank)
    (hload : ∀ st n st1 r, IsComponentName pending n → load st n = some (st1, r) →
      Grows pending st st1 ∧
      (∀ k, mapFind st.foods k = none → (mapFind st1.foods k).isSome = true →
        (mapFind pending n).isSome = true ∧ rank k ≤ rank n) ∧
      (∀ f, r = some f → mapFind st1.foods n = some f) ∧
      (r = none → mapFind pending n = none ∧ mapFind st1.foods n = none)) :
    ∀ (cs : List (ComponentJson α)) (st : LoadState α) (acc : List (FoodComponent α))
      (st1 : LoadState α) (comps : List (FoodComponent α)),
      (∀ c ∈ cs, c ∈ pj.components) →
      loadComponents load name cs st acc = some (st1, comps) →
      Grows pending st st1 ∧
      (∀ k, mapFind st.foods k = none → (mapFind st1.foods k).isSome = true →
        rank k < rank name) ∧
      comps = acc ++ resolvedComponents st1.foods cs ∧
      (∀ c ∈ cs, mapFind st1.foods c.name = none →
        mapFind pending c.name = none ∧ Warning.componentNotFound c.name name ∈ st1.out) := by
  intro cs
  induction cs with
  | nil =>
    intro st acc st1 comps _ h
    simp only [loadComponents, Option.some.injEq, Prod.mk.injEq] at h
    obtain ⟨h1, h2⟩ := h
    subst h1 h2
    refine ⟨grows_refl _ _, ?_, by simp [resolvedComponents], by simp⟩
    intro k h1 h2
    simp [h1] at h2
  | cons c rest ih =>
    intro st acc st1 comps hsub h
    have hcmem : c ∈ pj.components := hsub c (List.mem_cons_self _ _)
    have hsub' : ∀ c ∈ rest, c ∈ pj.components := fun c hc => hsub c (List.mem_cons_of_mem _ hc)
    have hcn : IsComponentName pending c.name := ⟨name, pj, hpj, c, hcmem, rfl⟩
    simp only [loadComponents] at h
    cases hf : mapFind st.foods c.name with
    | some f =>
      simp only [hf] at h
      obtain ⟨hg, hfr, hcomps, hwarn⟩ := ih _ _ _ _ hsub' h
      have hf1 := hg.mono _ _ hf
      refine ⟨hg, hfr, ?_, ?_⟩
      · rw [hcomps]
        simp [resolvedComponents, hf1]
      · intro c' hc' hnone
        rcases List.mem_cons.1 hc' with e | hc'
        · subst e; rw [hf1] at hnone; cases hnone
        · exact hwarn c' hc' hnone
    | none =>
      simp only [hf] at h
      cases hl : load st c.name with
      | none => simp [hl] at h
      | some p =>
        obtain ⟨st2, r⟩ := p
        obtain ⟨hg2, hfr2, hsome, hnone2⟩ := hload _ _ _ _ hcn hl
        cases r with
        | some f =>
          simp only [hl] at h
          obtain ⟨hg, hfr, hcomps, hwarn⟩ := ih _ _ _ _ hsub' h
          have hf1 := hg.mono _ _ (hsome f rfl)
          refine ⟨grows_trans hg2 hg, ?_, ?_, ?_⟩
          · intro k hk hs
            cases hk2 : mapFind st2.foods k with
            | none => exact hfr k hk2 hs
            | some g =>
              obtain ⟨hpend, hle⟩ := hfr2 k hk (isSome_of_eq_some hk2)
              exact Nat.lt_of_le_of_lt hle (hrank name pj hpj c hcmem hpend)
          · rw [hcomps]
            simp [resolvedComponents, hf1]
          · intro c' hc' hnone
            rcases List.mem_cons.1 hc' with e | hc'
            · subst e; rw [hf1] at hnone; cases hnone
            · exact hwarn c' hc' hnone
        | none =>
          simp only [hl] at h
          obtain ⟨hpn, hfn⟩ := hnone2 rfl
          have hgw : Grows pending st2
              ⟨st2.foods, st2.out ++ [Warning.componentNotFound c.name name]⟩ :=
            grows_warn st2 _ c.name (Or.inr ⟨name, rfl⟩) hpn hfn hcn
          obtain ⟨hg, hfr, hcomps, hwarn⟩ := ih _ _ _ _ hsub' h
          have hf1 : mapFind st1.foods c.name = none := grows_find_none hg hfn hpn
          refine ⟨grows_trans (grows_trans hg2 hgw) hg, ?_, ?_, ?_⟩
          · intro k hk hs
            cases hk2 : mapFind st2.foods k with
            | none => exact hfr k hk2 hs
            | some g =>
              obtain ⟨hpend, hle⟩ := hfr2 k hk (isSome_of_eq_some hk2)
              exact Nat.lt_of_le_of_lt hle (hrank name pj hpj c hcmem hpend)
          · rw [hcomps]
            simp [resolvedComponents, hf1]
          · intro c' hc' hnone
            rcases List.mem_cons.1 hc' with e | hc'
            · subst e
              exact ⟨hpn, hg.out_mono _ (by simp)⟩
            · exact hwarn c' hc' hnone

/-- What a call of `loadCompositeFood` that returns achieves on acyclic
definitions. -/
theorem loadCompositeFood_spec (pending : StrMap (Pending α)) (rank : String → Nat)
    (hrank : Acyclic pending rank) :
    ∀ (fuel : Nat) (st : LoadState α) (name : String) (st1 : LoadState α)
      (r : Option (Food α)),
      ((mapFind pending name).isSome = true ∨ IsComponentName pending name) →
      loadCompositeFood pending fuel st name = some (st1, r) →
      Grows pending st st1 ∧
      (∀ k, mapFind st.foods k = none → (mapFind st1.foods k).isSome = true →
        (mapFind pending name).isSome = true ∧ rank k ≤ rank name) ∧
      (∀ f, r = some f → mapFind st1.foods name = some f) ∧
      (r = none → mapFind pending name = none ∧ mapFind st1.foods name = none) := by
  intro fuel
  induction fuel with
  | zero => intro st name st1 r _ h; simp [loadCompositeFood] at h
  | succ n ih =>
    intro st name st1 r hname h
    simp only [loadCompositeFood] at h
    cases hf : mapFind st.foods name with
    | some f =>
      simp only [hf, Option.some.injEq, Prod.mk.injEq] at h
      obtain ⟨h1, h2⟩ := h
      subst h1 h2
      refine ⟨grows_refl _ _, ?_, ?_, by simp⟩
      · intro k h1 h2; simp [h1] at h2
      · intro g hg; cases hg; exact hf
    | none =>
      simp only [hf] at h
      cases hp : mapFind pending name with
      | none =>
        simp only [hp, Option.some.injEq, Prod.mk.injEq] at h
        obtain ⟨h1, h2⟩ := h
        subst h1 h2
        have hcn : IsComponentName pending name := by
          rcases hname with h | h
          · simp [hp] at h
          · exact h
        refine ⟨grows_warn st _ name (Or.inl rfl) hp hf hcn, ?_, by simp, fun _ => ⟨rfl, hf⟩⟩
        intro k h1 h2; simp [h1] at h2
      | some pj =>
        simp only [hp] at h
        cases hc : loadComponents (loadCompositeFood pending n) name pj.components st [] with
        | none => simp [hc] at h
        | some p =>
          obtain ⟨st2, comps⟩ := p
          simp only [hc, Option.some.injEq, Prod.mk.injEq] at h
          obtain ⟨h1, h2⟩ := h
          obtain ⟨hg, hfr, hcomps, hwarn⟩ :=
            loadComponents_spec pending rank (loadCompositeFood pending n) name pj hp hrank
              (fun st n st1 r hn hl => ih st n st1 r (Or.inr hn) hl)
              pj.components st [] st2 comps (fun _ hc => hc) hc
          have hnot : mapFind st2.foods name = none := by
            apply eq_none_of_not_isSome
            intro hs
            exact Nat.lt_irrefl _ (hfr name hf hs)
          have hne : ∀ c ∈ pj.components, c.name ≠ name := by
            intro c hcm e
            have := hrank name pj hp c hcm (by rw [e, hp]; rfl)
            rw [e] at this
            exact Nat.lt_irrefl _ this
          have hins := grows_insert st2 name pj hnot hp hne hwarn
          simp only [List.nil_append] at hcomps
          subst hcomps
          subst h1 h2
          refine ⟨grows_trans hg hins, ?_, ?_, by simp⟩
          · intro k hk hs
            refine ⟨rfl, ?_⟩
            by_cases e : k = name
            · rw [e]
            · simp only [mapFind_mapInsert, e, if_false] at hs
              exact Nat.le_of_lt (hfr k hk hs)
          · intro g hg
            cases hg
            simp [mapFind_mapInsert]

theorem secondPass_spec (pending : StrMap (Pending α)) (rank : String → Nat)
    (hrank : Acyclic pending rank) (fuel : Nat) :
    ∀ (names : List String) (st st1 : LoadState α),
      (∀ n ∈ names, (mapFind pending n).isSome = true) →
      secondPass pending fuel names st = some st1 →
      Grows pending st st1 ∧ ∀ n ∈ names, (mapFind st1.foods n).isSome = true := by
  intro names
  induction names with
  | nil =>
    intro st st1 _ h
    simp only [secondPass, Option.some.injEq] at h
    subst h
    exact ⟨grows_refl _ _, by simp⟩
  | cons name rest ih =>
    intro st st1 hn h
    simp only [secondPass] at h
    cases hl : loadCompositeFood pending fuel st name with
    | none => simp [hl] at h
    | some p =>
      obtain ⟨st2, r⟩ := p
      simp only [hl] at h
      have hpn := hn name (List.mem_cons_self _ _)
      obtain ⟨hg2, _, hsome, hnone⟩ :=
        loadCompositeFood_spec pending rank hrank fuel st name st2 r (Or.inl hpn) hl
      obtain ⟨hg, hall⟩ := ih st2 st1 (fun n h => hn n (List.mem_cons_of_mem _ h)) h
      refine ⟨grows_trans hg2 hg, ?_⟩
      intro m hm
      rcases List.mem_cons.1 hm with e | hm
      · subst e
        cases r with
        | none => simp [(hnone rfl).1] at hpn
        | some f => exact isSome_of_eq_some (hg.mono _ _ (hsome f rfl))
      · exact hall m hm

theorem loadComponents_terminates
    (load : LoadState α → String → Option (LoadState α × Option (Food α))) (parent : String) :
    ∀ (cs : List (ComponentJson α)) (st : LoadState α) (acc : List (FoodComponent α)),
      (∀ c ∈ cs, ∀ s, ∃ s1 r, load s c.name = some (s1, r)) →
      ∃ st1 comps, loadComponents load parent cs st acc = some (st1, comps) := by
  intro cs
  induction cs with
  | nil => intro st acc _; exact ⟨st, acc, rfl⟩
  | cons c rest ih =>
    intro st acc h
    have hrest : ∀ c ∈ rest, ∀ s, ∃ s1 r, load s c.name = some (s1, r) :=
      fun c hc => h c (List.mem_cons_of_mem _ hc)
    simp only [loadComponents]
    cases hf : mapFind st.foods c.name with
    | some f => exact ih _ _ hrest
    | none =>
      obtain ⟨s1, r, hl⟩ := h c (List.mem_cons_self _ _) st
      cases r with
      | some f => simp only [hl]; exact ih _ _ hrest
      | none => simp only [hl]; exact ih _ _ hrest

/-- On acyclic definitions a call of `loadCompositeFood` returns as soon as the
depth bound exceeds the rank of the name by two. -/
theorem loadCompositeFood_terminates (pending : StrMap (Pending α)) (rank : String → Nat)
    (hrank : Acyclic pending rank) :
    ∀ (fuel : Nat) (st : LoadState α) (name : String), 1 ≤ fuel →
      ((mapFind pending name).isSome = true → rank name + 2 ≤ fuel) →
      ∃ st1 r, loadCompositeFood pending fuel st name = some (st1, r) := by
  intro fuel
  induction fuel with
  | zero => intro st name h; omega
  | succ n ih =>
    intro st name _ hfuel
    simp only [loadCompositeFood]
    cases hf : mapFind st.foods name with
    | some f => exact ⟨_, _, rfl⟩
    | none =>
      cases hp : mapFind pending name with
      | none => exact ⟨_, _, rfl⟩
      | some pj =>
        have hn : rank name + 2 ≤ n + 1 := hfuel (by simp [hp])
        obtain ⟨st1, comps, hc⟩ :=
          loadComponents_terminates (loadCompositeFood pending n) name pj.components st []
            (fun c hc s => ih s c.name (by omega) (fun hs => by
              have := hrank name pj hp c hc hs
              omega))
        simp only [hc]
        exact ⟨_, _, rfl⟩

theorem secondPass_terminates (pending : StrMap (Pending α)) (rank : String → Nat)
    (hrank : Acyclic pending rank) (fuel : Nat) (hfuel : 1 ≤ fuel)
    (hbound : ∀ n, (mapFind pending n).isSome = true → rank n + 2 ≤ fuel) :
    ∀ (names : List String) (st : LoadState α),
      ∃ st1, secondPass pending fuel names st = some st1 := by
  intro names
  induction names with
  | nil => intro st; exact ⟨st, rfl⟩
  | cons name rest ih =>
    intro st
    obtain ⟨st1, r, hl⟩ :=
      loadCompositeFood_terminates pending rank hrank fuel st name hfuel (hbound name)
    simp only [secondPass, hl]
    exact ih st1

/-! ## The first pass -/

theorem firstPass_fold_foods (records : List (FoodJson α))
    (acc : StrMap (Food α) × StrMap (Pending α)) (n : String) :
    mapFind (records.foldl firstPassStep acc).1 n =
      match lastBasic records n with
      | some f => some f
      | none => mapFind acc.1 n := by
  induction records generalizing acc with
  | nil => simp [lastBasic]
  | cons r rest ih =>
    simp only [List.foldl_cons, lastBasic]
    rw [ih]
    cases hl : lastBasic rest n with
    | some f => rfl
    | none =>
      cases r with
      | basic m k c =>
        by_cases e : n = m <;> simp [firstPassStep, mapFind_mapInsert, e]
      | composite m k cal cs => simp [firstPassStep]
      | other m => simp [firstPassStep]

theorem firstPass_fold_pending (records : List (FoodJson α))
    (acc : StrMap (Food α) × StrMap (Pending α)) (n : String) :
    mapFind (records.foldl firstPassStep acc).2 n =
      match lastComposite records n with
      | some pj => some pj
      | none => mapFind acc.2 n := by
  induction records generalizing acc with
  | nil => simp [lastComposite]
  | cons r rest ih =>
    simp only [List.foldl_cons, lastComposite]
    rw [ih]
    cases hl : lastComposite rest n with
    | some f => rfl
    | none =>
      cases r with
      | basic m k c => simp [firstPassStep]
      | composite m k cal cs =>
        by_cases e : n = m <;> simp [firstPassStep, mapFind_mapInsert, e]
      | other m => simp [firstPassStep]

/-- After the first pass `foods` holds, under each name, the last basic record
of that name. -/
theorem firstPass_foods (records : List (FoodJson α)) (n : String) :
    mapFind (firstPass records).1 n = lastBasic records n := by
  unfold firstPass
  rw [firstPass_fold_foods]
  cases lastBasic records n <;> simp [mapFind]

/-- After the first pass `pendingFoods` holds, under each name, the last
composite record of that name. -/
theorem firstPass_pending (records : List (FoodJson α)) (n : String) :
    mapFind (firstPass records).2 n = lastComposite records n := by
  unfold firstPass
  rw [firstPass_fold_pending]
  cases lastComposite records n <;> simp [mapFind]

theorem firstPass_sorted (records : List (FoodJson α)) :
    KeysSorted (firstPass records).1 ∧ KeysSorted (firstPass records).2 :=
  ⟨(firstPass_foods_inv records ([], []) ⟨keysSorted_nil, by intro e he; simp at he⟩).1,
   firstPass_pending_sorted records ([], []) keysSorted_nil⟩

/-! ## Resolution of acyclic definitions -/

/-- The last composite records of a definition list contain no reference
cycle: the rank decreases along every reference to a declared composite. -/
theorem acyclic_firstPass {records : List (FoodJson α)} {rank : String → Nat}
    (h : ∀ n pj, lastComposite records n = some pj →
      ∀ c ∈ pj.components, (lastComposite records c.name).isSome = true → rank c.name < rank n) :
    Acyclic (firstPass records).2 rank := by
  intro n pj hp c hc hs
  rw [firstPass_pending] at hp hs
  exact h n pj hp c hc hs

/-- On acyclic definitions `loadDatabase` returns once the depth bound exceeds
every rank by two. -/
theorem loadRecords_terminates (records : List (FoodJson α)) (rank : String → Nat)
    (hrank : Acyclic (firstPass records).2 rank) (fuel : Nat) (hfuel : 1 ≤ fuel)
    (hbound : ∀ n, (lastComposite records n).isSome = true → rank n + 2 ≤ fuel) :
    ∃ st, loadRecords fuel records = some st := by
  unfold loadRecords
  exact secondPass_terminates _ rank hrank fuel hfuel
    (fun n hn => hbound n (by rw [← firstPass_pending]; exact hn)) _ _

/-- The catalog produced from acyclic definitions: basic records are kept,
every declared composite without a basic namesake is built from its resolvable
components, nothing else is stored, every skipped component is reported and
nothing else is printed. -/
theorem loadRecords_spec (records : List (FoodJson α)) (rank : String → Nat)
    (hrank : Acyclic (firstPass records).2 rank) (fuel : Nat) (st : LoadState α)
    (h : loadRecords fuel records = some st) :
    (∀ n f, lastBasic records n = some f → mapFind st.foods n = some f) ∧
    (∀ n pj, lastBasic records n = none → lastComposite records n = some pj →
      mapFind st.foods n =
        some (Food.composite n pj.keywords (resolvedComponents st.foods pj.components)) ∧
      ∀ c ∈ pj.components, mapFind st.foods c.name = none →
        Warning.componentNotFound c.name n ∈ st.out) ∧
    (∀ n, lastBasic records n = none → lastComposite records n = none →
      mapFind st.foods n = none) ∧
    (∀ w ∈ st.out, ∃ n, w.Names n ∧ mapFind st.foods n = none ∧
      lastComposite records n = none ∧
      ∃ p pj, lastComposite records p = some pj ∧ ∃ c ∈ pj.components, c.name = n) := by
  unfold loadRecords at h
  obtain ⟨hg, hall⟩ := secondPass_spec _ rank hrank fuel _ _ _
    (fun n hn => mapFind_isSome_iff_mem_keys.2 hn) h
  refine ⟨?_, ?_, ?_, ?_⟩
  · intro n f hb
    exact hg.mono n f (by rw [← hb]; exact firstPass_foods records n)
  · intro n pj hb hc
    have h0 : mapFind (firstPass records).1 n = none := by rw [firstPass_foods, hb]
    have hp : mapFind (firstPass records).2 n = some pj := by rw [firstPass_pending, hc]
    have hs := hall n (mapFind_isSome_iff_mem_keys.1 (isSome_of_eq_some hp))
    cases hf : mapFind st.foods n with
    | none => simp [hf] at hs
    | some f =>
      obtain ⟨pj', hp', hfe, hw⟩ := hg.built n f h0 hf
      have : pj' = pj := by rw [hp] at hp'; exact (Option.some.inj hp').symm
      subst this
      exact ⟨by rw [hfe], fun c hc hnone => (hw c hc hnone).2⟩
  · intro n hb hc
    exact grows_find_none hg (by rw [firstPass_foods, hb]) (by rw [firstPass_pending, hc])
  · intro w hw
    rcases hg.out_sound w hw with h0 | ⟨n, hn, hp, hf, p, pj, hpp, hcn⟩
    · simp at h0
    · rw [firstPass_pending] at hp hpp
      exact ⟨n, hn, hf, hp, p, pj, hpp, hcn⟩

/-! ## Cyclic definitions -/

theorem loadComponents_cycle (S : String → Prop)
    (load : LoadState α → String → Option (LoadState α × Option (Food α))) (parent : String)
    (hload : ∀ st n st1 r, (∀ m, S m → mapFind st.foods m = none) →
      load st n = some (st1, r) → (∀ m, S m → mapFind st1.foods m = none) ∧ ¬ S n) :
    ∀ (cs : List (ComponentJson α)) (st : LoadState α) (acc : List (FoodComponent α))
      (st1 : LoadState α) (comps : List (FoodComponent α)),
      (∀ m, S m → mapFind st.foods m = none) →
      loadComponents load parent cs st acc = some (st1, comps) →
      (∀ m, S m → mapFind st1.foods m = none) ∧ ∀ c ∈ cs, ¬ S c.name := by
  intro cs
  induction cs with
  | nil =>
    intro st acc st1 comps hQ h
    simp only [loadComponents, Option.some.injEq, Prod.mk.injEq] at h
    obtain ⟨h1, _⟩ := h
    subst h1
    exact ⟨hQ, by simp⟩
  | cons c rest ih =>
    intro st acc st1 comps hQ h
    simp only [loadComponents] at h
    cases hf : mapFind st.foods c.name with
    | some f =>
      simp only [hf] at h
      obtain ⟨hQ1, hrest⟩ := ih _ _ _ _ hQ h
      refine ⟨hQ1, ?_⟩
      intro c' hc'
      rcases List.mem_cons.1 hc' with e | hc'
      · subst e
        intro hS
        rw [hQ _ hS] at hf
        cases hf
      · exact hrest c' hc'
    | none =>
      simp only [hf] at h
      cases hl : load st c.name with
      | none => simp [hl] at h
      | some p =>
        obtain ⟨st2, r⟩ := p
        obtain ⟨hQ2, hnS⟩ := hload _ _ _ _ hQ hl
        have fin : ∀ s2 : LoadState α, s2.foods = st2.foods → ∀ acc2,
            loadComponents load parent rest s2 acc2 = some (st1, comps) →
            (∀ m, S m → mapFind st1.foods m = none) ∧ ∀ c' ∈ c :: rest, ¬ S c'.name := by
          intro s2 hs2 acc2 h2
          obtain ⟨hQ1, hrest⟩ := ih _ _ _ _ (by rw [hs2]; exact hQ2) h2
          refine ⟨hQ1, ?_⟩
          intro c' hc'
          rcases List.mem_cons.1 hc' with e | hc'
          · subst e; exact hnS
          · exact hrest c' hc'
        cases r with
        | some f =>
          simp only [hl] at h
          exact fin st2 rfl _ h
        | none =>
          simp only [hl] at h
          exact fin ⟨st2.foods, st2.out ++ [Warning.componentNotFound c.name parent]⟩ rfl _ h

/-- A call of `loadCompositeFood` that returns never adds, and is never asked
for, a name of a set of staged names that are absent from `foods` and each
have a component in the set. -/
theorem loadCompositeFood_cycle (pending : StrMap (Pending α)) (S : String → Prop)
    (hS : ∀ n, S n → ∃ pj, mapFind pending n = some pj ∧ ∃ c ∈ pj.components, S c.name) :
    ∀ (fuel : Nat) (st : LoadState α) (name : String) (st1 : LoadState α)
      (r : Option (Food α)),
      (∀ m, S m → mapFind st.foods m = none) →
      loadCompositeFood pending fuel st name = some (st1, r) →
      (∀ m, S m → mapFind st1.foods m = none) ∧ ¬ S name := by
  intro fuel
  induction fuel with
  | zero => intro st name st1 r _ h; simp [loadCompositeFood] at h
  | succ n ih =>
    intro st name st1 r hQ h
    simp only [loadCompositeFood] at h
    cases hf : mapFind st.foods name with
    | some f =>
      simp only [hf, Option.some.injEq, Prod.mk.injEq] at h
      obtain ⟨h1, _⟩ := h
      subst h1
      refine ⟨hQ, fun hSn => ?_⟩
      rw [hQ _ hSn] at hf
      cases hf
    | none =>
      simp only [hf] at h
      cases hp : mapFind pending name with
      | none =>
        simp only [hp, Option.some.injEq, Prod.mk.injEq] at h
        obtain ⟨h1, _⟩ := h
        subst h1
        refine ⟨hQ, fun hSn => ?_⟩
        obtain ⟨pj, hpj, _⟩ := hS _ hSn
        rw [hp] at hpj
        cases hpj
      | some pj =>
        simp only [hp] at h
        cases hc : loadComponents (loadCompositeFood pending n) name pj.components st [] with
        | none => simp [hc] at h
        | some p =>
          obtain ⟨st2, comps⟩ := p
          simp only [hc, Option.some.injEq, Prod.mk.injEq] at h
          obtain ⟨h1, _⟩ := h
          subst h1
          obtain ⟨hQ2, hcomp⟩ := loadComponents_cycle S _ name ih _ _ _ _ _ hQ hc
          have hnS : ¬ S name := by
            intro hSn
            obtain ⟨pj', hpj', c, hcm, hSc⟩ := hS _ hSn
            rw [hp] at hpj'
            cases hpj'
            exact hcomp c hcm hSc
          refine ⟨?_, hnS⟩
          intro m hm
          have : m ≠ name := fun e => hnS (e ▸ hm)
          simp [mapFind_mapInsert, this, hQ2 m hm]

theorem secondPass_cycle (pending : StrMap (Pending α)) (S : String → Prop)
    (hS : ∀ n, S n → ∃ pj, mapFind pending n = some pj ∧ ∃ c ∈ pj.components, S c.name)
    (fuel : Nat) :
    ∀ (names : List String) (st st1 : LoadState α),
      (∀ m, S m → mapFind st.foods m = none) →
      secondPass pending fuel names st = some st1 → ∀ n ∈ names, ¬ S n := by
  intro names
  induction names with
  | nil => intro st st1 _ _ n hn; simp at hn
  | cons name rest ih =>
    intro st st1 hQ h
    simp only [secondPass] at h
    cases hl : loadCompositeFood pending fuel st name with
    | none => simp [hl] at h
    | some p =>
      obtain ⟨st2, r⟩ := p
      simp only [hl] at h
      obtain ⟨hQ2, hnS⟩ := loadCompositeFood_cycle pending S hS fuel _ _ _ _ hQ hl
      intro n hn
      rcases List.mem_cons.1 hn with e | hn
      · subst e; exact hnS
      · exact ih _ _ hQ2 h n hn

/-- Records whose composite references contain a cycle that no basic record
cuts: whatever the depth bound, the resolution exceeds it. -/
theorem loadRecords_cycle (records : List (FoodJson α)) (S : String → Prop) (n0 : String)
    (h0 : S n0)
    (hS : ∀ n, S n → lastBasic records n = none ∧
      ∃ pj, lastComposite records n = some pj ∧ ∃ c ∈ pj.components, S c.name)
    (fuel : Nat) : loadRecords fuel records = none := by
  cases h : loadRecords fuel records with
  | none => rfl
  | some st =>
    exfalso
    unfold loadRecords at h
    have hS' : ∀ n, S n → ∃ pj, mapFind (firstPass records).2 n = some pj ∧
        ∃ c ∈ pj.components, S c.name := by
      intro n hn
      obtain ⟨_, pj, hp, hc⟩ := hS n hn
      exact ⟨pj, by rw [firstPass_pending, hp], hc⟩
    have hQ : ∀ m, S m → mapFind (firstPass records).1 m = none := by
      intro m hm
      rw [firstPass_foods]
      exact (hS m hm).1
    obtain ⟨pj, hp, _⟩ := hS' n0 h0
    exact secondPass_cycle _ S hS' fuel _ _ _ hQ h n0
      (mapFind_isSome_iff_mem_keys.1 (isSome_of_eq_some hp)) h0

/-- C2 (as the code behaves): when the composite references of a definition
list contain a cycle that no basic record cuts (a non-empty set of names, none
declared basic, each declared composite with a component in the set), the
resolution of `loadDatabase` exceeds every bound on its recursion depth: it
never returns, and so reports nothing. -/
theorem loadDatabase_cycle_never_returns (db : FoodDatabaseManager α)
    (records : List (FoodJson α)) (S : String → Prop) (n0 : String) (h0 : S n0)
    (hS : ∀ n, S n → lastBasic records n = none ∧
      ∃ pj, lastComposite records n = some pj ∧ ∃ c ∈ pj.components, S c.name)
    (fuel : Nat) : db.loadDatabase fuel (DatabaseFile.records records) = none := by
  have hnone : loadRecords fuel records = none := loadRecords_cycle records S n0 h0 hS fuel
  simp only [FoodDatabaseManager.loadDatabase]
  rw [hnone]

theorem loadDatabase_cycle_never_returns_witness :
    lastBasic selfRecords "Z" = none
      ∧ (FoodDatabaseManager.empty : FoodDatabaseManager Nat).loadDatabase 1000
          (DatabaseFile.records selfRecords) = none :=
  ⟨rfl, loadDatabase_cycle_never_returns FoodDatabaseManager.empty selfRecords
    (fun n => n = "Z") "Z" rfl
    (by
      intro n hn
      subst hn
      exact ⟨rfl, ⟨[], [⟨"Z", 2⟩]⟩, rfl, ⟨"Z", 2⟩, by simp, rfl⟩)
    1000⟩

/-- C2 fails on the code: for two composites that list each other no depth
bound lets `loadDatabase` return, so nothing is reported. -/
theorem mutual_reference_never_returns :
    ¬ ∃ (fuel : Nat) (res : LoadResult Nat),
        (FoodDatabaseManager.empty : FoodDatabaseManager Nat).loadDatabase fuel
          (DatabaseFile.records mutualRecords) = some res := by
  rintro ⟨fuel, res, h⟩
  have hnone : loadRecords fuel mutualRecords = none :=
    loadRecords_cycle mutualRecords (fun n => n = "X" ∨ n = "Y") "X" (Or.inl rfl)
      (by
        intro n hn
        rcases hn with hn | hn
        · subst hn
          exact ⟨rfl, ⟨["x"], [⟨"Y", 1⟩]⟩, rfl, ⟨"Y", 1⟩, by simp, Or.inr rfl⟩
        · subst hn
          exact ⟨rfl, ⟨["y"], [⟨"X", 1⟩]⟩, rfl, ⟨"X", 1⟩, by simp, Or.inl rfl⟩)
      fuel
  simp [FoodDatabaseManager.loadDatabase, hnone] at h

/-! ## Missing components -/

/-- The name is declared by a basic or by a composite record. -/
theorem loadRecords_isSome_iff (records : List (FoodJson α)) (rank : String → Nat)
    (hrank : Acyclic (firstPass records).2 rank) (fuel : Nat) (st : LoadState α)
    (h : loadRecords fuel records = some st) (n : String) :
    (mapFind st.foods n).isSome = true ↔
      ((lastBasic records n).isSome = true ∨ (lastComposite records n).isSome = true) := by
  obtain ⟨ha, hb, hc, _⟩ := loadRecords_spec records rank hrank fuel st h
  cases hlb : lastBasic records n with
  | some f => simp [ha n f hlb]
  | none =>
    cases hlc : lastComposite records n with
    | some pj => simp [(hb n pj hlb hlc).1]
    | none => simp [hc n hlb hlc]

theorem resolvedComponents_toJson {m : StrMap (Food α)} (hn : NamesAreKeys m)
    (cs : List (ComponentJson α)) :
    (resolvedComponents m cs).map FoodComponent.toJson =
      cs.filter (fun c => (mapFind m c.name).isSome) := by
  induction cs with
  | nil => rfl
  | cons c rest ih =>
    simp only [resolvedComponents, List.filterMap_cons, List.filter_cons] at ih ⊢
    cases hf : mapFind m c.name with
    | none => simpa using ih
    | some f =>
      have hname : f.getName = c.name := hn _ (mem_of_mapFind hf)
      simp only [Option.map_some', List.map_cons, Option.isSome_some, if_true, ih]
      simp [FoodComponent.toJson, FoodComponent.food, FoodComponent.servings, hname]

theorem mem_resolvedComponents {m : StrMap (Food α)} (hn : NamesAreKeys m)
    {cs : List (ComponentJson α)} {c : FoodComponent α} (h : c ∈ resolvedComponents m cs) :
    mapFind m c.food.getName = some c.food := by
  simp only [resolvedComponents, List.mem_filterMap] at h
  obtain ⟨cj, _, hcj⟩ := h
  cases hf : mapFind m cj.name with
  | none => simp [hf] at hcj
  | some f =>
    simp only [hf, Option.map_some', Option.some.injEq] at hcj
    subst hcj
    have hname : f.getName = cj.name := hn _ (mem_of_mapFind hf)
    simp [FoodComponent.food, hname, hf]

/-- C4 (as the code behaves): for a definition list whose composite references
contain no cycle, `loadDatabase` returns true once the depth bound is large
enough, and every composite record that is the last composite record of its
name, and whose name no basic record declares, is materialized with exactly
those of its declared components whose name is declared by a basic or a
composite record, in declared order and with their declared servings, each
being the catalog entry of that name; every other declared component is
reported by a warning that names it and the composite. -/
theorem missing_component_skipped (db : FoodDatabaseManager α)
    (records : List (FoodJson α)) (rank : String → Nat)
    (hrank : ∀ n pj, lastComposite records n = some pj →
      ∀ c ∈ pj.components, (lastComposite records c.name).isSome = true → rank c.name < rank n)
    (fuel : Nat) (hfuel : 1 ≤ fuel)
    (hbound : ∀ n, (lastComposite records n).isSome = true → rank n + 2 ≤ fuel) :
    ∃ res, db.loadDatabase fuel (DatabaseFile.records records) = some res ∧
      res.success = true ∧
      ∀ name pj, lastBasic records name = none → lastComposite records name = some pj →
        ∃ comps, res.db.getFood name = some (Food.composite name pj.keywords comps) ∧
          comps.map FoodComponent.toJson =
            pj.components.filter (fun c =>
              (lastBasic records c.name).isSome || (lastComposite records c.name).isSome) ∧
          (∀ c ∈ comps, res.db.getFood c.food.getName = some c.food) ∧
          ∀ c ∈ pj.components,
            lastBasic records c.name = none → lastComposite records c.name = none →
              Warning.componentNotFound c.name name ∈ res.out := by
  have hacy := acyclic_firstPass hrank
  obtain ⟨st, hst⟩ := loadRecords_terminates records rank hacy fuel hfuel hbound
  obtain ⟨_, hb, hc, _⟩ := loadRecords_spec records rank hacy fuel st hst
  have hinv := loadRecords_inv hst
  refine ⟨⟨true, ⟨st.foods, db.modified⟩, st.out⟩, ?_, rfl, ?_⟩
  · simp [FoodDatabaseManager.loadDatabase, hst]
  · intro name pj hlb hlc
    obtain ⟨hfood, hwarn⟩ := hb name pj hlb hlc
    refine ⟨resolvedComponents st.foods pj.components, hfood, ?_, ?_, ?_⟩
    · rw [resolvedComponents_toJson hinv.2]
      apply List.filter_congr
      intro c _
      have := loadRecords_isSome_iff records rank hacy fuel st hst c.name
      rw [Bool.eq_iff_iff]
      simpa using this
    · intro c hcm
      exact mem_resolvedComponents hinv.2 hcm
    · intro c hcm h1 h2
      exact hwarn c hcm (hc c.name h1 h2)

theorem missing_component_skipped_witness :
    ∃ res, (FoodDatabaseManager.empty : FoodDatabaseManager Nat).loadDatabase 2
        (DatabaseFile.records ghostRecords) = some res ∧
      res.db.getFood "Meal" =
        some (Food.composite "Meal" ["lunch"]
          [FoodComponent.mk (Food.basic "Rice" ["carbs"] 200) 2]) ∧
      Warning.componentNotFound "Ghost" "Meal" ∈ res.out := by
  obtain ⟨res, hres, _, h⟩ :=
    missing_component_skipped (FoodDatabaseManager.empty : FoodDatabaseManager Nat)
      ghostRecords (fun _ => 0)
      (by
        intro n pj hp c hc hs
        have hn : n = "Meal" := by
          by_contra hne
          simp [ghostRecords, lastComposite, hne] at hp
        subst hn
        simp only [ghostRecords, lastComposite, if_true, Option.some.injEq] at hp
        subst hp
        simp at hc
        rcases hc with hc | hc <;> subst hc <;> simp [ghostRecords, lastComposite] at hs)
      2 (by decide)
      (by
        intro n hn
        simp)
  refine ⟨res, hres, ?_, ?_⟩
  · have e : res = ⟨true, ⟨[("Meal", Food.composite "Meal" ["lunch"]
        [FoodComponent.mk (Food.basic "Rice" ["carbs"] 200) 2]),
        ("Rice", Food.basic "Rice" ["carbs"] 200)], false⟩,
        [Warning.foodNotFound "Ghost", Warning.componentNotFound "Ghost" "Meal"]⟩ := by
      have h2 : (FoodDatabaseManager.empty : FoodDatabaseManager Nat).loadDatabase 2
          (DatabaseFile.records ghostRecords) = some ⟨true, ⟨[("Meal", Food.composite "Meal" ["lunch"]
        [FoodComponent.mk (Food.basic "Rice" ["carbs"] 200) 2]),
        ("Rice", Food.basic "Rice" ["carbs"] 200)], false⟩,
        [Warning.foodNotFound "Ghost", Warning.componentNotFound "Ghost" "Meal"]⟩ := by rfl
      rw [h2] at hres
      exact (Option.some.inj hres).symm
    rw [e]
    rfl
  · obtain ⟨comps, _, _, _, hw⟩ := h "Meal" ⟨["lunch"], [⟨"Ghost", 1⟩, ⟨"Rice", 2⟩]⟩ rfl rfl
    exact hw ⟨"Ghost", 1⟩ (by simp) rfl rfl

/-- C4 fails on the code as stated: next to a composite that lists itself the
composite with the undefined component is never materialized because the load
never returns; and a composite whose name a basic record also declares is
dropped without any warning, the basic food being stored in its place. -/
theorem missing_component_not_always_reported :
    (¬ ∃ (fuel : Nat) (res : LoadResult Nat),
        (FoodDatabaseManager.empty : FoodDatabaseManager Nat).loadDatabase fuel
          (DatabaseFile.records ghostLoopRecords) = some res)
    ∧ (FoodDatabaseManager.empty : FoodDatabaseManager Nat).loadDatabase 5
          (DatabaseFile.records shadowedRecords) =
        some ⟨true, ⟨[("Meal", Food.basic "Meal" ["m"] 100)], false⟩, []⟩ := by
  constructor
  · rintro ⟨fuel, res, h⟩
    have hnone : loadRecords fuel ghostLoopRecords = none :=
      loadRecords_cycle ghostLoopRecords (fun n => n = "Loop") "Loop" rfl
        (by
          intro n hn
          subst hn
          exact ⟨rfl, ⟨[], [⟨"Loop", 1⟩]⟩, rfl, ⟨"Loop", 1⟩, by simp, rfl⟩)
        fuel
    simp [FoodDatabaseManager.loadDatabase, hnone] at h
  · rfl

/-! ## A chain of definitions in any order -/

theorem perm_three {β : Type} {a b c : β} {l : List β} (h : l.Perm [a, b, c]) :
    l = [a, b, c] ∨ l = [b, a, c] ∨ l = [b, c, a] ∨ l = [a, c, b] ∨ l = [c, a, b] ∨
      l = [c, b, a] := by
  have := List.mem_permutations'.2 h
  simpa [List.permutations', List.permutations'Aux] using this

theorem chain_lastBasic (nA nB nC : String) (kA kB kC : List String) (calA calB : Option α)
    (c sA sB : α) (records : List (FoodJson α))
    (hperm : records.Perm (chainRecords nA nB nC kA kB kC calA calB c sA sB)) (n : String) :
    lastBasic records n = if n = nC then some (chainC nC kC c) else none := by
  unfold chainRecords at hperm
  rcases perm_three hperm with h | h | h | h | h | h <;> subst h <;>
    by_cases e : n = nC <;> simp [lastBasic, BasicFood.fromJson, chainC, e]

theorem chain_lastComposite (nA nB nC : String) (kA kB kC : List String)
    (calA calB : Option α) (c sA sB : α) (hAB : nA ≠ nB) (records : List (FoodJson α))
    (hperm : records.Perm (chainRecords nA nB nC kA kB kC calA calB c sA sB)) (n : String) :
    lastComposite records n =
      if n = nA then some ⟨kA, [⟨nB, sA⟩]⟩
      else if n = nB then some ⟨kB, [⟨nC, sB⟩]⟩ else none := by
  unfold chainRecords at hperm
  have hBA : nB ≠ nA := Ne.symm hAB
  rcases perm_three hperm with h | h | h | h | h | h <;> subst h
  all_goals
    by_cases e1 : n = nA
    · subst e1; simp [lastComposite, hAB]
    · by_cases e2 : n = nB
      · subst e2; simp [lastComposite, hBA]
      · simp [lastComposite, e1, e2]

theorem chainCatalog_find (nA nB nC : String) (kA kB kC : List String) (c sA sB : α)
    (n : String) :
    mapFind (chainCatalog nA nB nC kA kB kC c sA sB) n =
      if n = nA then some (chainA nA nB nC kA kB kC c sA sB)
      else if n = nB then some (chainB nB nC kB kC c sB)
      else if n = nC then some (chainC nC kC c) else none := by
  simp [chainCatalog, mapFind_mapInsert, mapFind]

theorem chain_loadRecords (nA nB nC : String) (kA kB kC : List String)
    (calA calB : Option α) (c sA sB : α) (hAB : nA ≠ nB) (hAC : nA ≠ nC) (hBC : nB ≠ nC)
    (records : List (FoodJson α))
    (hperm : records.Perm (chainRecords nA nB nC kA kB kC calA calB c sA sB))
    (fuel : Nat) (hfuel : 3 ≤ fuel) :
    loadRecords fuel records = some ⟨chainCatalog nA nB nC kA kB kC c sA sB, []⟩ := by
  have hlb := chain_lastBasic nA nB nC kA kB kC calA calB c sA sB records hperm
  have hlc := chain_lastComposite nA nB nC kA kB kC calA calB c sA sB hAB records hperm
  have hBA : nB ≠ nA := Ne.symm hAB
  have hCA : nC ≠ nA := Ne.symm hAC
  have hCB : nC ≠ nB := Ne.symm hBC
  let rank : String → Nat := fun n => if n = nA then 1 else 0
  have hacy : Acyclic (firstPass records).2 rank := by
    apply acyclic_firstPass
    intro n pj hp cj hc hs
    rw [hlc] at hp
    by_cases e1 : n = nA
    · subst e1
      simp only [if_true, Option.some.injEq] at hp
      subst hp
      have : cj.name = nB := by
        have e : cj = ⟨nB, sA⟩ := by simpa using hc
        rw [e]
      simp [rank, this, hBA]
    · by_cases e2 : n = nB
      · subst e2
        simp only [e1, if_false, if_true, Option.some.injEq] at hp
        subst hp
        have : cj.name = nC := by
          have e : cj = ⟨nC, sB⟩ := by simpa using hc
          rw [e]
        rw [hlc, this] at hs
        simp [hCA, hCB] at hs
      · simp [e1, e2] at hp
  obtain ⟨st, hst⟩ := loadRecords_terminates records rank hacy fuel (by omega)
    (by
      intro n _
      have : rank n ≤ 1 := by
        simp only [rank]
        split <;> omega
      omega)
  obtain ⟨ha, hb, hc, hd⟩ := loadRecords_spec records rank hacy fuel st hst
  have hfC : mapFind st.foods nC = some (chainC nC kC c) := ha nC _ (by simp [hlb])
  have hfB : mapFind st.foods nB = some (chainB nB nC kB kC c sB) := by
    have := (hb nB ⟨kB, [⟨nC, sB⟩]⟩ (by simp [hlb, hBC]) (by simp [hlc, hBA])).1
    rw [this]
    simp [resolvedComponents, hfC, chainB]
  have hfA : mapFind st.foods nA = some (chainA nA nB nC kA kB kC c sA sB) := by
    have := (hb nA ⟨kA, [⟨nB, sA⟩]⟩ (by simp [hlb, hAC]) (by simp [hlc])).1
    rw [this]
    simp [resolvedComponents, hfB, chainA]
  have hfoods : st.foods = chainCatalog nA nB nC kA kB kC c sA sB := by
    apply strMap_ext_of_sorted (loadRecords_inv hst).1
    · exact keysSorted_mapInsert (keysSorted_mapInsert (keysSorted_mapInsert keysSorted_nil _ _) _ _) _ _
    · intro n
      rw [chainCatalog_find]
      by_cases e1 : n = nA
      · subst e1; simp [hfA]
      · by_cases e2 : n = nB
        · subst e2; simp [e1, hfB]
        · by_cases e3 : n = nC
          · subst e3; simp [e1, e2, hfC]
          · simp only [e1, e2, e3, if_false]
            exact hc n (by simp [hlb, e3]) (by simp [hlc, e1, e2])
  have hout : st.out = [] := by
    apply List.eq_nil_iff_forall_not_mem.2
    intro w hw
    obtain ⟨n, _, hnone, _, p, pj, hp, cj, hcj, hname⟩ := hd w hw
    rw [hlc] at hp
    by_cases e1 : p = nA
    · rw [if_pos e1, Option.some.injEq] at hp
      subst hp
      have : cj.name = nB := by
        have e : cj = ⟨nB, sA⟩ := by simpa using hcj
        rw [e]
      rw [← hname, this, hfB] at hnone
      cases hnone
    · by_cases e2 : p = nB
      · rw [if_neg e1, if_pos e2, Option.some.injEq] at hp
        subst hp
        have : cj.name = nC := by
          have e : cj = ⟨nC, sB⟩ := by simpa using hcj
          rw [e]
        rw [← hname, this, hfC] at hnone
        cases hnone
      · simp [e1, e2] at hp
  rw [hst]
  cases st with
  | mk foods out =>
    simp only at hfoods hout
    rw [hfoods, hout]

/-- C3: for a basic food C, a composite B whose only component is C and a
composite A whose only component is B, under pairwise distinct names,
`loadDatabase` returns true for every ordering of the three records as soon as
the depth bound is at least three, prints no warning (no component is skipped)
and yields one and the same catalog: the three names are present, B has the
single component C, A has the single component B, and in exact arithmetic
calories(B) = sB x calories(C) and calories(A) = sA x sB x calories(C). -/
theorem chain_loads_in_any_order [CommSemiring α] (db : FoodDatabaseManager α)
    (nA nB nC : String) (kA kB kC : List String) (calA calB : Option α) (c sA sB : α)
    (hAB : nA ≠ nB) (hAC : nA ≠ nC) (hBC : nB ≠ nC) (records : List (FoodJson α))
    (hperm : records.Perm (chainRecords nA nB nC kA kB kC calA calB c sA sB))
    (fuel : Nat) (hfuel : 3 ≤ fuel) :
    db.loadDatabase fuel (DatabaseFile.records records) =
        some ⟨true, ⟨chainCatalog nA nB nC kA kB kC c sA sB, db.modified⟩, []⟩
      ∧ mapFind (chainCatalog nA nB nC kA kB kC c sA sB) nC = some (chainC nC kC c)
      ∧ mapFind (chainCatalog nA nB nC kA kB kC c sA sB) nB = some (chainB nB nC kB kC c sB)
      ∧ mapFind (chainCatalog nA nB nC kA kB kC c sA sB) nA =
          some (chainA nA nB nC kA kB kC c sA sB)
      ∧ (chainC nC kC c).getCalories = c
      ∧ (chainB nB nC kB kC c sB).getCalories = sB * c
      ∧ (chainA nA nB nC kA kB kC c sA sB).getCalories = sA * sB * c := by
  have hBA : nB ≠ nA := Ne.symm hAB
  have hCA : nC ≠ nA := Ne.symm hAC
  have hCB : nC ≠ nB := Ne.symm hBC
  refine ⟨?_, ?_, ?_, ?_, ?_, ?_, ?_⟩
  · simp [FoodDatabaseManager.loadDatabase,
      chain_loadRecords nA nB nC kA kB kC calA calB c sA sB hAB hAC hBC records hperm fuel hfuel]
  · simp [chainCatalog_find, hCA, hCB]
  · simp [chainCatalog_find, hBA]
  · simp [chainCatalog_find]
  · simp [chainC, Food.getCalories]
  · simp [chainB, chainC, Food.getCalories, CompositeFood.accumulate, FoodComponent.calories,
      mul_comm]
  · simp [chainA, chainB, chainC, Food.getCalories, CompositeFood.accumulate,
      FoodComponent.calories]
    ring

theorem chain_loads_in_any_order_witness :
    (FoodDatabaseManager.empty : FoodDatabaseManager Nat).loadDatabase 3
        (DatabaseFile.records
          [FoodJson.composite "Lunch" ["meal"] none [⟨"Sandwich", 2⟩],
           FoodJson.basic "Bread" ["wheat"] 80,
           FoodJson.composite "Sandwich" [] none [⟨"Bread", 3⟩]]) =
      some ⟨true, ⟨chainCatalog "Lunch" "Sandwich" "Bread" ["meal"] [] ["wheat"] 80 2 3, false⟩, []⟩
    ∧ (chainA "Lunch" "Sandwich" "Bread" ["meal"] [] ["wheat"] (80 : Nat) 2 3).getCalories = 480 :=
  ⟨(chain_loads_in_any_order (FoodDatabaseManager.empty : FoodDatabaseManager Nat)
      "Lunch" "Sandwich" "Bread" ["meal"] [] ["wheat"] none none 80 2 3
      (by decide) (by decide) (by decide) _
      (by
        unfold chainRecords
        exact (List.Perm.swap _ _ _).trans (List.Perm.cons _ (List.Perm.swap _ _ _)))
      3 (by decide)).1,
   (chain_loads_in_any_order (FoodDatabaseManager.empty : FoodDatabaseManager Nat)
      "Lunch" "Sandwich" "Bread" ["meal"] [] ["wheat"] none none 80 2 3
      (by decide) (by decide) (by decide) _
      (List.Perm.refl _) 3 (by decide)).2.2.2.2.2.2⟩

/-! ## Saving and loading again -/

theorem height_le_maxHeight {c : FoodComponent α} {comps : List (FoodComponent α)}
    (h : c ∈ comps) : c.food.height ≤ FoodComponent.maxHeight comps := by
  induction comps with
  | nil => simp at h
  | cons d rest ih =>
    simp only [FoodComponent.maxHeight]
    rcases List.mem_cons.1 h with e | h
    · subst e
      cases c with
      | mk f s => simp [FoodComponent.height, FoodComponent.food]
    · exact le_trans (ih h) (le_max_right _ _)

theorem height_le_of_mapFind {m : StrMap (Food α)} {n : String} {f : Food α}
    (h : mapFind m n = some f) : f.height ≤ maxHeight m := by
  induction m with
  | nil => simp [mapFind] at h
  | cons e rest ih =>
    obtain ⟨k, g⟩ := e
    simp only [mapFind] at h
    simp only [maxHeight]
    split_ifs at h with hk
    · cases h; exact le_max_left _ _
    · exact le_trans (ih h) (le_max_right _ _)

theorem saved_lastBasic [Zero α] [Add α] [Mul α] {m : StrMap (Food α)} (hs : KeysSorted m)
    (hn : NamesAreKeys m) (n : String) :
    lastBasic ((mapValues m).map Food.toJson) n = (mapFind m n).bind Food.asBasic := by
  induction m with
  | nil => rfl
  | cons e rest ih =>
    obtain ⟨k, f⟩ := e
    have hname : f.getName = k := hn (k, f) (List.mem_cons_self _ _)
    have ih' := ih (keysSorted_tail hs) (fun e he => hn e (List.mem_cons_of_mem _ he))
    simp only [mapValues, List.map_cons] at ih' ⊢
    simp only [lastBasic, ih', mapFind]
    by_cases e : n = k
    · subst e
      rw [mapFind_eq_none_of_lt (keysSorted_head_lt hs)]
      cases f with
      | basic m' k' c => simp [Food.getName] at hname; simp [Food.toJson, Food.asBasic, hname]
      | composite m' k' cs => simp [Food.toJson, Food.asBasic]
    · simp only [e, if_false]
      cases hr : (mapFind rest n).bind Food.asBasic with
      | some g => rfl
      | none =>
        cases f with
        | basic m' k' c =>
          simp [Food.getName] at hname
          simp [Food.toJson, hname, e]
        | composite m' k' cs => simp [Food.toJson]

theorem saved_lastComposite [Zero α] [Add α] [Mul α] {m : StrMap (Food α)}
    (hs : KeysSorted m) (hn : NamesAreKeys m) (n : String) :
    lastComposite ((mapValues m).map Food.toJson) n = (mapFind m n).bind Food.asPending := by
  induction m with
  | nil => rfl
  | cons e rest ih =>
    obtain ⟨k, f⟩ := e
    have hname : f.getName = k := hn (k, f) (List.mem_cons_self _ _)
    have ih' := ih (keysSorted_tail hs) (fun e he => hn e (List.mem_cons_of_mem _ he))
    simp only [mapValues, List.map_cons] at ih' ⊢
    simp only [lastComposite, ih', mapFind]
    by_cases e : n = k
    · subst e
      rw [mapFind_eq_none_of_lt (keysSorted_head_lt hs)]
      cases f with
      | basic m' k' c => simp [Food.toJson, Food.asPending]
      | composite m' k' cs =>
        simp [Food.getName] at hname; simp [Food.toJson, Food.asPending, hname]
    · simp only [e, if_false]
      cases hr : (mapFind rest n).bind Food.asPending with
      | some g => rfl
      | none =>
        cases f with
        | basic m' k' c => simp [Food.toJson]
        | composite m' k' cs =>
          simp [Food.getName] at hname
          simp [Food.toJson, hname, e]

theorem resolvedComponents_saved {m : StrMap (Food α)} (comps : List (FoodComponent α))
    (h : ∀ c ∈ comps, mapFind m c.food.getName = some c.food) :
    resolvedComponents m (comps.map FoodComponent.toJson) = comps := by
  induction comps with
  | nil => rfl
  | cons c rest ih =>
    have hc := h c (List.mem_cons_self _ _)
    have hr := ih (fun c hc => h c (List.mem_cons_of_mem _ hc))
    simp only [resolvedComponents, List.map_cons, List.filterMap_cons] at hr ⊢
    cases c with
    | mk f s =>
      simp only [FoodComponent.food] at hc
      simp [FoodComponent.toJson, FoodComponent.food, FoodComponent.servings, hc, hr]

/-- Loading the records written for a closed catalog rebuilds the catalog. -/
theorem loadRecords_saved [Zero α] [Add α] [Mul α] (m : StrMap (Food α))
    (hclosed : CatalogClosed m) (fuel : Nat) (hfuel : maxHeight m + 2 ≤ fuel) :
    loadRecords fuel ((mapValues m).map Food.toJson) = some ⟨m, []⟩ := by
  obtain ⟨hs, hn, hcl⟩ := hclosed
  have hlb := saved_lastBasic hs hn
  have hlc := saved_lastComposite hs hn
  let rank : String → Nat := fun n =>
    match mapFind m n with
    | some f => f.height
    | none => 0
  have hrank_le : ∀ n, rank n ≤ maxHeight m := by
    intro n
    simp only [rank]
    cases hf : mapFind m n with
    | none => simp
    | some f => exact height_le_of_mapFind hf
  have hacy : Acyclic (firstPass ((mapValues m).map Food.toJson)).2 rank := by
    apply acyclic_firstPass
    intro n pj hp cj hcj _
    rw [hlc] at hp
    cases hf : mapFind m n with
    | none => simp [hf] at hp
    | some f =>
      cases f with
      | basic m' k' c => simp [hf, Food.asPending] at hp
      | composite m' k' comps =>
        simp only [hf, Option.some_bind, Food.asPending, Option.some.injEq] at hp
        subst hp
        simp only [List.mem_map] at hcj
        obtain ⟨g, hg, hgc⟩ := hcj
        subst hgc
        have hfind := hcl (n, Food.composite m' k' comps) (mem_of_mapFind hf) g hg
        have h1 : rank (FoodComponent.toJson g).name = g.food.height := by
          simp [rank, FoodComponent.toJson, hfind]
        have h2 : rank n = FoodComponent.maxHeight comps + 1 := by
          simp [rank, hf, Food.height]
        rw [h1, h2]
        exact Nat.lt_succ_of_le (height_le_maxHeight hg)
  obtain ⟨st, hst⟩ := loadRecords_terminates _ rank hacy fuel (by omega)
    (fun n _ => by have := hrank_le n; omega)
  obtain ⟨ha, hb, hc, hd⟩ := loadRecords_spec _ rank hacy fuel st hst
  have hsome : ∀ (h : Nat) (n : String) (f : Food α), mapFind m n = some f → f.height ≤ h →
      mapFind st.foods n = some f := by
    intro h
    induction h with
    | zero =>
      intro n f hf hh
      cases f with
      | basic m' k' c =>
        exact ha n _ (by rw [hlb, hf]; rfl)
      | composite m' k' comps => simp [Food.height] at hh
    | succ h ih =>
      intro n f hf hh
      cases f with
      | basic m' k' c =>
        exact ha n _ (by rw [hlb, hf]; rfl)
      | composite m' k' comps =>
        have hname : m' = n := hn _ (mem_of_mapFind hf)
        subst hname
        have := (hb m' ⟨k', comps.map FoodComponent.toJson⟩ (by rw [hlb, hf]; rfl)
          (by rw [hlc, hf]; rfl)).1
        rw [this]
        have hres : resolvedComponents st.foods (comps.map FoodComponent.toJson) = comps := by
          apply resolvedComponents_saved
          intro g hg
          have hfind := hcl (m', Food.composite m' k' comps) (mem_of_mapFind hf) g hg
          apply ih _ _ hfind
          have := height_le_maxHeight hg
          simp only [Food.height] at hh
          omega
        simp only [hres]
  have hfoods : st.foods = m := by
    apply strMap_ext_of_sorted (loadRecords_inv hst).1 hs
    intro n
    cases hf : mapFind m n with
    | some f => exact hsome f.height n f hf (le_refl _)
    | none => exact hc n (by rw [hlb, hf]; rfl) (by rw [hlc, hf]; rfl)
  have hout : st.out = [] := by
    apply List.eq_nil_iff_forall_not_mem.2
    intro w hw
    obtain ⟨n, _, hnone, _, p, pj, hp, cj, hcj, hname⟩ := hd w hw
    rw [hlc] at hp
    cases hf : mapFind m p with
    | none => simp [hf] at hp
    | some f =>
      cases f with
      | basic m' k' c => simp [hf, Food.asPending] at hp
      | composite m' k' comps =>
        simp only [hf, Option.some_bind, Food.asPending, Option.some.injEq] at hp
        subst hp
        simp only [List.mem_map] at hcj
        obtain ⟨g, hg, hgc⟩ := hcj
        subst hgc
        have hfind := hcl (p, Food.composite m' k' comps) (mem_of_mapFind hf) g hg
        rw [hfoods, ← hname] at hnone
        simp only [FoodComponent.toJson] at hnone
        rw [hfind] at hnone
        cases hnone
  rw [hst]
  cases st with
  | mk foods out =>
    simp only at hfoods hout
    rw [hfoods, hout]

/-- C5 (as the code behaves): for a catalog closed under component references
(keys in order, each food under its own name, every component of every
composite being the catalog entry of that name), loading what `saveDatabase`
wrote returns true, prints no warning and yields the same catalog: the same
names, and under each name a food with the calories of the original. -/
theorem load_save_closed [Zero α] [Add α] [Mul α] (db loader : FoodDatabaseManager α)
    (hclosed : CatalogClosed db.foods) (fuel : Nat) (hfuel : maxHeight db.foods + 2 ≤ fuel) :
    ∃ res, loader.loadDatabase fuel (DatabaseFile.records db.saveDatabase.2) = some res ∧
      res.success = true ∧ res.out = [] ∧ res.db.foods = db.foods ∧
      mapKeys res.db.foods = mapKeys db.foods ∧
      ∀ n, (res.db.getFood n).map Food.getCalories = (db.getFood n).map Food.getCalories := by
  refine ⟨⟨true, ⟨db.foods, loader.modified⟩, []⟩, ?_, rfl, rfl, rfl, rfl, fun _ => rfl⟩
  simp [FoodDatabaseManager.loadDatabase, FoodDatabaseManager.saveDatabase,
    loadRecords_saved db.foods hclosed fuel hfuel]

theorem load_save_closed_witness :
    ∃ res, (FoodDatabaseManager.empty : FoodDatabaseManager Nat).loadDatabase 3
        (DatabaseFile.records pieCatalog.saveDatabase.2) = some res ∧
      res.db.foods = pieCatalog.foods ∧
      (res.db.getFood "Pie").map Food.getCalories = some 190 := by
  have hclosed : CatalogClosed pieCatalog.foods := by
    refine ⟨by unfold KeysSorted; decide, by unfold NamesAreKeys; decide, ?_⟩
    intro e he c hc
    simp only [pieCatalog, List.mem_cons, List.mem_singleton, List.not_mem_nil, or_false] at he
    rcases he with he | he
    · subst he; simp [Food.components] at hc
    · subst he
      simp only [Food.components, List.mem_singleton] at hc
      subst hc
      rfl
  obtain ⟨res, hres, _, _, hfoods, _, hcal⟩ :=
    load_save_closed pieCatalog (FoodDatabaseManager.empty : FoodDatabaseManager Nat)
      hclosed 3 (by decide)
  exact ⟨res, hres, hfoods, by rw [hcal]; rfl⟩

/-- C5 fails on the code as stated: the catalog reached from the empty one by
adding a composite whose component is not a catalog entry stores 95 calories
under the name of the composite; after saving and loading, whatever the
depth bound that lets the load return, the component is skipped with a warning
and the food stored under that name has 0 calories. -/
theorem orphan_component_lost :
    Reachable orphanCatalog
      ∧ (orphanCatalog.getFood "Meal").map Food.getCalories = some 95
      ∧ ∀ fuel, 2 ≤ fuel →
          ∃ res, (FoodDatabaseManager.empty : FoodDatabaseManager Nat).loadDatabase fuel
              (DatabaseFile.records orphanCatalog.saveDatabase.2) = some res ∧
            (res.db.getFood "Meal").map Food.getCalories = some 0 ∧
            res.out = [Warning.foodNotFound "Apple", Warning.componentNotFound "Apple" "Meal"] := by
  refine ⟨Reachable.addFood orphanMeal Reachable.empty, by rfl, ?_⟩
  intro fuel hfuel
  obtain ⟨k, rfl⟩ : ∃ k, fuel = k + 2 := ⟨fuel - 2, by omega⟩
  exact ⟨_, rfl, rfl, rfl⟩

/-! ## Closed catalogs -/

theorem catalogClosed_nil : CatalogClosed ([] : StrMap (Food α)) :=
  ⟨keysSorted_nil, by intro e he; simp at he, by intro e he; simp at he⟩

/-- Adding a food whose components are catalog entries keeps a catalog closed. -/
theorem catalogClosed_addFood {db : FoodDatabaseManager α} (h : CatalogClosed db.foods)
    (food : Food α)
    (hcomp : ∀ c ∈ food.components, mapFind db.foods c.food.getName = some c.food) :
    CatalogClosed (db.addFood food).2.foods := by
  obtain ⟨hs, hn, hcl⟩ := h
  unfold FoodDatabaseManager.addFood
  cases hf : mapFind db.foods food.getName with
  | some f => exact ⟨hs, hn, hcl⟩
  | none =>
    refine ⟨keysSorted_mapInsert hs _ _, namesAreKeys_mapInsert hn rfl, ?_⟩
    intro e he c hc
    have hold : mapFind db.foods c.food.getName = some c.food := by
      rcases mem_mapInsert he with he | he
      · subst he; exact hcomp c hc
      · exact hcl e he c hc
    have hne : c.food.getName ≠ food.getName := by
      intro e
      rw [e, hf] at hold
      cases hold
    simpa [mapFind_mapInsert, hne] using hold

/-- The catalog that `loadDatabase` builds from acyclic definitions is closed. -/
theorem loadRecords_closed (records : List (FoodJson α)) (rank : String → Nat)
    (hrank : Acyclic (firstPass records).2 rank) (fuel : Nat) (st : LoadState α)
    (h : loadRecords fuel records = some st) : CatalogClosed st.foods := by
  obtain ⟨ha, hb, hc, _⟩ := loadRecords_spec records rank hrank fuel st h
  obtain ⟨hs, hn⟩ := loadRecords_inv h
  refine ⟨hs, hn, ?_⟩
  intro e he c hcm
  obtain ⟨n, f⟩ := e
  have hf := mapFind_of_mem hs he
  cases hlb : lastBasic records n with
  | some g =>
    have hg := ha n g hlb
    rw [hf] at hg
    cases hg
    have hbasic : ∀ (rs : List (FoodJson α)), lastBasic rs n = some f → f.components = [] := by
      intro rs
      induction rs with
      | nil => intro h; simp [lastBasic] at h
      | cons r rest ih =>
        intro h
        simp only [lastBasic] at h
        cases hr : lastBasic rest n with
        | some g' => rw [hr] at h; cases h; exact ih hr
        | none =>
          rw [hr] at h
          cases r with
          | basic m k cal =>
            simp only at h
            split_ifs at h
            cases h
            rfl
          | composite m k cal cs => simp at h
          | other m => simp at h
    simp only [hbasic records hlb] at hcm
    simp at hcm
  | none =>
    cases hlc : lastComposite records n with
    | none =>
      rw [hc n hlb hlc] at hf
      cases hf
    | some pj =>
      have hg := (hb n pj hlb hlc).1
      rw [hf] at hg
      cases hg
      exact mem_resolvedComponents hn hcm

/-! ## Maps of daily logs -/

theorem mapFind_mapErase {β : Type} (m : StrMap β) (k key : String) :
    mapFind (mapErase m k) key = if key = k then none else mapFind m key := by
  induction m with
  | nil => simp [mapErase, mapFind]
  | cons e rest ih =>
    obtain ⟨k', v⟩ := e
    simp only [mapErase]
    by_cases h1 : k = k'
    · subst h1
      simp only [if_true, ih, mapFind]
      by_cases h2 : key = k <;> simp [h2]
    · simp only [h1, if_false, mapFind, ih]
      by_cases h2 : key = k'
      · have : key ≠ k := fun e => h1 (e ▸ h2)
        simp [h2, Ne.symm h1]
      · simp [h2]

theorem mem_mapErase {β : Type} {m : StrMap β} {k : String} {e : String × β}
    (h : e ∈ mapErase m k) : e ∈ m := by
  induction m with
  | nil => simp [mapErase] at h
  | cons e' rest ih =>
    obtain ⟨k', v⟩ := e'
    simp only [mapErase] at h
    split_ifs at h with h1
    · exact List.mem_cons_of_mem _ (ih h)
    · rcases List.mem_cons.1 h with h | h
      · exact h ▸ List.mem_cons_self _ _
      · exact List.mem_cons_of_mem _ (ih h)

theorem keysSorted_mapErase {β : Type} {m : StrMap β} (h : KeysSorted m) (k : String) :
    KeysSorted (mapErase m k) := by
  induction m with
  | nil => simpa [mapErase] using h
  | cons e rest ih =>
    obtain ⟨k', v⟩ := e
    simp only [mapErase]
    split_ifs with h1
    · exact ih (keysSorted_tail h)
    · refine List.pairwise_cons.2 ⟨?_, ih (keysSorted_tail h)⟩
      intro x hx
      exact keysSorted_head_lt h x (mem_mapErase hx)

theorem mapFind_touch (logs : StrMap (List (FoodEntry α))) (date key : String) :
    mapFind (touch logs date) key =
      if key = date then some (entriesAt logs date) else mapFind logs key := by
  unfold touch entriesAt
  cases h : mapFind logs date with
  | some v =>
    by_cases e : key = date
    · subst e; simp [h]
    · simp [e]
  | none =>
    by_cases e : key = date <;> simp [mapFind_mapInsert, e]

theorem touch_of_find {logs : StrMap (List (FoodEntry α))} {date : String}
    {entries : List (FoodEntry α)} (h : mapFind logs date = some entries) :
    touch logs date = logs := by
  simp [touch, h]

theorem entriesAt_of_find {logs : StrMap (List (FoodEntry α))} {date : String}
    {entries : List (FoodEntry α)} (h : mapFind logs date = some entries) :
    entriesAt logs date = entries := by
  simp [entriesAt, h]

/-- In a map kept in key order, writing back the value stored under a key
changes nothing. -/
theorem mapInsert_of_find {β : Type} {m : StrMap β} (hs : KeysSorted m) {k : String} {v : β}
    (h : mapFind m k = some v) : mapInsert m k v = m := by
  apply strMap_ext_of_sorted (keysSorted_mapInsert hs _ _) hs
  intro key
  rw [mapFind_mapInsert]
  by_cases e : key = k
  · subst e; simp [h]
  · simp [e]

/-- In a map kept in key order, erasing an absent key changes nothing. -/
theorem mapErase_of_find_none {β : Type} {m : StrMap β} (hs : KeysSorted m) {k : String}
    (h : mapFind m k = none) : mapErase m k = m := by
  apply strMap_ext_of_sorted (keysSorted_mapErase hs _) hs
  intro key
  rw [mapFind_mapErase]
  by_cases e : key = k
  · subst e; simp [h]
  · simp [e]

/-! ## Adding and deleting diary entries -/

/-- C11: when the food name is in the catalog, `FoodDiary::addFood` leaves
under the date the earlier entries of that date followed by the one new entry
(the food name, the servings, and the calories of the catalog food at the time
of the call times the servings), leaves every other date as it was, and puts
exactly one command, the add command of that entry, on top of the undo
history. -/
theorem addFood_appends [Zero α] [Add α] [Mul α] (d : FoodDiary α)
    (db : FoodDatabaseManager α) (date foodName : String) (servings : α) (food : Food α)
    (h : db.getFood foodName = some food) :
    mapFind (d.addFood db date foodName servings).dailyLogs date =
        some (entriesAt d.dailyLogs date ++ [⟨foodName, servings, food.getCalories * servings⟩])
      ∧ (∀ other, other ≠ date →
          mapFind (d.addFood db date foodName servings).dailyLogs other =
            mapFind d.dailyLogs other)
      ∧ (d.addFood db date foodName servings).undoStack =
          Command.addFoodCommand date foodName servings (food.getCalories * servings)
            :: d.undoStack := by
  have e : d.addFood db date foodName servings =
      ⟨mapInsert d.dailyLogs date
          (entriesAt d.dailyLogs date ++ [⟨foodName, servings, food.getCalories * servings⟩]),
        Command.addFoodCommand date foodName servings (food.getCalories * servings)
          :: d.undoStack⟩ := by
    simp [FoodDiary.addFood, h, AddFoodCommand.new, FoodDiary.executeCommand, Command.execute]
  rw [e]
  refine ⟨by simp [mapFind_mapInsert], ?_, rfl⟩
  intro other hne
  simp [mapFind_mapInsert, hne]

theorem addFood_appends_witness :
    mapFind ((FoodDiary.mk [("2024-01-01", [⟨"Rice", (1 : Nat), 200⟩])] []).addFood
        ⟨[("Apple", Food.basic "Apple" ["fruit"] 95)], false⟩ "2024-01-01" "Apple" 2).dailyLogs
        "2024-01-01"
      = some [⟨"Rice", 1, 200⟩, ⟨"Apple", 2, 190⟩] :=
  (addFood_appends (FoodDiary.mk [("2024-01-01", [⟨"Rice", (1 : Nat), 200⟩])] [])
    ⟨[("Apple", Food.basic "Apple" ["fruit"] 95)], false⟩ "2024-01-01" "Apple" 2
    (Food.basic "Apple" ["fruit"] 95) rfl).1

/-- C12: when the food name is not in the catalog, `FoodDiary::addFood` returns
the diary as it was: the same logs and the same undo history. -/
theorem addFood_unknown_food [Zero α] [Add α] [Mul α] (d : FoodDiary α)
    (db : FoodDatabaseManager α) (date foodName : String) (servings : α)
    (h : db.getFood foodName = none) :
    d.addFood db date foodName servings = d := by
  unfold FoodDiary.addFood
  rw [h]

theorem addFood_unknown_food_witness :
    (FoodDiary.mk [("2024-01-01", [⟨"Rice", (1 : Nat), 200⟩])] []).addFood
        ⟨[("Apple", Food.basic "Apple" ["fruit"] 95)], false⟩ "2024-01-01" "Pear" 2
      = FoodDiary.mk [("2024-01-01", [⟨"Rice", 1, 200⟩])] [] :=
  addFood_unknown_food _ _ _ _ _ rfl

theorem deleteFood_eq [Zero α] (d : FoodDiary α) (date : String) (index : Nat)
    (entries : List (FoodEntry α)) (h : mapFind d.dailyLogs date = some entries)
    (hi : index < entries.length) :
    d.deleteFood date index =
      ⟨if (entries.eraseIdx index).isEmpty then mapErase d.dailyLogs date
        else mapInsert d.dailyLogs date (entries.eraseIdx index),
       Command.deleteFoodCommand date index (entries.get ⟨index, hi⟩) :: d.undoStack⟩ := by
  have hge : ¬ index ≥ entries.length := Nat.not_le.2 hi
  simp only [FoodDiary.deleteFood, h, hge, if_false, DeleteFoodCommand.new, touch_of_find h,
    entriesAt_of_find h, FoodDiary.executeCommand, Command.execute, hi, if_true]
  simp [List.getElem?_eq_getElem hi]

/-- C13: for a date of the diary and an index below the length of its
sequence, `FoodDiary::deleteFood` leaves under the date the sequence without
the entry at that position (the others in their order), removes the date key
when nothing is left, and leaves every other date as it was; one command, the
delete command holding a copy of the removed entry, is put on top of the undo
history. -/
theorem deleteFood_removes [Zero α] (d : FoodDiary α) (date : String) (index : Nat)
    (entries : List (FoodEntry α)) (h : mapFind d.dailyLogs date = some entries)
    (hi : index < entries.length) :
    mapFind (d.deleteFood date index).dailyLogs date =
        (if (entries.eraseIdx index).isEmpty then none else some (entries.eraseIdx index))
      ∧ entriesAt (d.deleteFood date index).dailyLogs date = entries.eraseIdx index
      ∧ (∀ other, other ≠ date →
          mapFind (d.deleteFood date index).dailyLogs other = mapFind d.dailyLogs other)
      ∧ (d.deleteFood date index).undoStack =
          Command.deleteFoodCommand date index (entries.get ⟨index, hi⟩) :: d.undoStack := by
  rw [deleteFood_eq d date index entries h hi]
  cases he : (entries.eraseIdx index).isEmpty with
  | true =>
    have hnil : entries.eraseIdx index = [] := List.isEmpty_iff.1 he
    refine ⟨by simp [mapFind_mapErase], by simp [entriesAt, mapFind_mapErase, hnil], ?_,
      by simp⟩
    intro other hne
    simp [mapFind_mapErase, hne]
  | false =>
    refine ⟨by simp [mapFind_mapInsert], by simp [entriesAt, mapFind_mapInsert], ?_,
      by simp⟩
    intro other hne
    simp [mapFind_mapInsert, hne]

theorem deleteFood_removes_witness :
    mapFind ((FoodDiary.mk [("2024-01-01", [⟨"Rice", (1 : Nat), 200⟩, ⟨"Egg", 2, 156⟩])] []
        ).deleteFood "2024-01-01" 0).dailyLogs "2024-01-01" = some [⟨"Egg", 2, 156⟩]
    ∧ mapFind ((FoodDiary.mk [("2024-01-01", [⟨"Rice", (1 : Nat), 200⟩])] []
        ).deleteFood "2024-01-01" 0).dailyLogs "2024-01-01" = none :=
  ⟨(deleteFood_removes (FoodDiary.mk [("2024-01-01", [⟨"Rice", (1 : Nat), 200⟩, ⟨"Egg", 2, 156⟩])] [])
      "2024-01-01" 0 [⟨"Rice", 1, 200⟩, ⟨"Egg", 2, 156⟩] rfl (by decide)).1,
   (deleteFood_removes (FoodDiary.mk [("2024-01-01", [⟨"Rice", (1 : Nat), 200⟩])] [])
      "2024-01-01" 0 [⟨"Rice", 1, 200⟩] rfl (by decide)).1⟩

/-- C14: `FoodDiary::deleteFood` with a date that has no key, or with an index
that is not below the length of the sequence of the date (as for a date with
no entries), returns the diary as it was: the same logs, with the same date
keys, and the same undo history. -/
theorem deleteFood_invalid [Zero α] (d : FoodDiary α) (date : String) (index : Nat)
    (h : ∀ entries, mapFind d.dailyLogs date = some entries → entries.length ≤ index) :
    d.deleteFood date index = d := by
  unfold FoodDiary.deleteFood
  cases hf : mapFind d.dailyLogs date with
  | none => rfl
  | some entries =>
    have := h entries hf
    simp [this]

theorem deleteFood_invalid_witness :
    (FoodDiary.mk [("2024-01-01", [⟨"Rice", (1 : Nat), 200⟩])] []).deleteFood "2024-01-01" 1
        = FoodDiary.mk [("2024-01-01", [⟨"Rice", 1, 200⟩])] []
    ∧ (FoodDiary.mk [("2024-01-01", [⟨"Rice", (1 : Nat), 200⟩])] []).deleteFood "2024-01-02" 0
        = FoodDiary.mk [("2024-01-01", [⟨"Rice", 1, 200⟩])] [] :=
  ⟨deleteFood_invalid _ _ _ (by
      intro entries he
      have : entries = [⟨"Rice", 1, 200⟩] := by
        have h2 : mapFind [("2024-01-01", [(⟨"Rice", (1 : Nat), 200⟩ : FoodEntry Nat)])]
            "2024-01-01" = some [⟨"Rice", 1, 200⟩] := rfl
        exact Option.some.inj (he.symm.trans h2)
      subst this
      decide),
   deleteFood_invalid _ _ _ (by
      intro entries he
      have h2 : mapFind [("2024-01-01", [(⟨"Rice", (1 : Nat), 200⟩ : FoodEntry Nat)])]
          "2024-01-02" = none := rfl
      rw [h2] at he
      cases he)⟩

/-! ## Calories of a day -/

theorem foldl_calories_eq_sum [AddCommMonoid α] (entries : List (FoodEntry α)) (t : α) :
    entries.foldl (fun totalCalories entry => totalCalories + entry.calories) t =
      t + (entries.map FoodEntry.calories).sum := by
  induction entries generalizing t with
  | nil => simp
  | cons e rest ih => simp [ih, add_assoc]

/-- The total of a day through `dailyLogs[date]`: a missing key counts as an
empty sequence. -/
theorem getTotalCaloriesForDate_entriesAt [Zero α] [Add α] (d : FoodDiary α) (date : String) :
    d.getTotalCaloriesForDate date =
      (entriesAt d.dailyLogs date).foldl
        (fun totalCalories entry => totalCalories + entry.calories) 0 := by
  unfold FoodDiary.getTotalCaloriesForDate entriesAt
  cases mapFind d.dailyLogs date <;> rfl

/-- C15: `getTotalCaloriesForDate` is the running sum, from 0 and in the order
of the sequence, of the calories stored in the entries of the date, and it is
0 for a date without a key; the function only reads the diary (its result is
a number, there is no new state). -/
theorem getTotalCaloriesForDate_is_sum [Zero α] [Add α] (d : FoodDiary α) (date : String) :
    d.getTotalCaloriesForDate date =
        (entriesAt d.dailyLogs date).foldl
          (fun totalCalories entry => totalCalories + entry.calories) 0
      ∧ (mapFind d.dailyLogs date = none → d.getTotalCaloriesForDate date = 0) := by
  refine ⟨getTotalCaloriesForDate_entriesAt d date, ?_⟩
  intro h
  simp [FoodDiary.getTotalCaloriesForDate, h]

theorem getTotalCaloriesForDate_is_sum_witness :
    (FoodDiary.mk [("2024-01-01", [⟨"Rice", (1 : Nat), 200⟩, ⟨"Egg", 2, 156⟩])] []
        ).getTotalCaloriesForDate "2024-01-01" = 356
    ∧ (FoodDiary.mk [("2024-01-01", [⟨"Rice", (1 : Nat), 200⟩, ⟨"Egg", 2, 156⟩])] []
        ).getTotalCaloriesForDate "2024-01-02" = 0 :=
  ⟨((getTotalCaloriesForDate_is_sum
      (FoodDiary.mk [("2024-01-01", [⟨"Rice", (1 : Nat), 200⟩, ⟨"Egg", 2, 156⟩])] [])
      "2024-01-01").1).trans rfl,
   (getTotalCaloriesForDate_is_sum
      (FoodDiary.mk [("2024-01-01", [⟨"Rice", (1 : Nat), 200⟩, ⟨"Egg", 2, 156⟩])] [])
      "2024-01-02").2 rfl⟩

/-- In exact arithmetic the total of a day is the sum of the stored calories. -/
theorem getTotalCaloriesForDate_sum [AddCommMonoid α] (d : FoodDiary α) (date : String) :
    d.getTotalCaloriesForDate date =
      ((entriesAt d.dailyLogs date).map FoodEntry.calories).sum := by
  rw [getTotalCaloriesForDate_entriesAt, foldl_calories_eq_sum, zero_add]

/-! ## Undo -/

theorem matchesAdd_self [LinearOrderedField α] (foodName : String) (servings calories : α) :
    matchesAdd foodName servings ⟨foodName, servings, calories⟩ = true := by
  simp [matchesAdd]
  norm_num

theorem eraseLatest_append_match [LinearOrderedField α] (foodName : String) (servings : α)
    (entries : List (FoodEntry α)) (e : FoodEntry α)
    (h : matchesAdd foodName servings e = true) :
    eraseLatest foodName servings (entries ++ [e]) = entries := by
  simp [eraseLatest, List.eraseP_cons, h]

theorem entriesAt_eq_nil_of_find {logs : StrMap (List (FoodEntry α))} {date : String}
    (hne : mapFind logs date ≠ some []) (h : entriesAt logs date = []) :
    mapFind logs date = none := by
  unfold entriesAt at h
  cases hf : mapFind logs date with
  | none => rfl
  | some v =>
    rw [hf] at h hne
    simp only [Option.getD_some] at h
    exact absurd (by rw [h]) hne

theorem find_of_entriesAt_ne_nil {logs : StrMap (List (FoodEntry α))} {date : String}
    (h : entriesAt logs date ≠ []) : mapFind logs date = some (entriesAt logs date) := by
  unfold entriesAt at h ⊢
  cases hf : mapFind logs date with
  | none => rw [hf] at h; simp at h
  | some v => simp

theorem undo_after_addFood_logs [LinearOrderedField α] (logs : StrMap (List (FoodEntry α)))
    (date foodName : String) (servings calories : α)
    (hne : mapFind logs date ≠ some []) (key : String) :
    mapFind ((Command.addFoodCommand date foodName servings calories).undo
        ((Command.addFoodCommand date foodName servings calories).execute logs)) key =
      mapFind logs key := by
  have hE : entriesAt (mapInsert logs date
      (entriesAt logs date ++ [⟨foodName, servings, calories⟩])) date =
      entriesAt logs date ++ [⟨foodName, servings, calories⟩] := by
    simp [entriesAt, mapFind_mapInsert]
  simp only [Command.execute, Command.undo, hE]
  have hnotempty : (entriesAt logs date ++ [(⟨foodName, servings, calories⟩ : FoodEntry α)]).isEmpty
      = false := by
    cases entriesAt logs date <;> rfl
  simp only [hnotempty, Bool.false_eq_true, if_false,
    eraseLatest_append_match foodName servings _ _ (matchesAdd_self foodName servings calories)]
  cases hemp : (entriesAt logs date).isEmpty with
  | true =>
    have hnil : entriesAt logs date = [] := List.isEmpty_iff.1 hemp
    simp only [if_true, mapFind_mapErase, mapFind_mapInsert]
    by_cases e : key = date
    · subst e
      simp [entriesAt_eq_nil_of_find hne hnil]
    · simp [e]
  | false =>
    have hnn : entriesAt logs date ≠ [] := by
      intro h
      rw [h] at hemp
      cases hemp
    simp only [Bool.false_eq_true, if_false, mapFind_mapInsert]
    by_cases e : key = date
    · subst e
      simp [find_of_entriesAt_ne_nil hnn]
    · simp [e]

theorem keysSorted_execute {logs : StrMap (List (FoodEntry α))} (hs : KeysSorted logs)
    (c : Command α) : KeysSorted (c.execute logs) := by
  cases c with
  | addFoodCommand date foodName servings calories =>
    exact keysSorted_mapInsert hs _ _
  | deleteFoodCommand date index deleted =>
    simp only [Command.execute]
    split_ifs
    · exact keysSorted_mapErase hs _
    · exact keysSorted_mapInsert hs _ _
    · unfold touch
      cases mapFind logs date with
      | none => exact keysSorted_mapInsert hs _ _
      | some v => exact hs

theorem keysSorted_undo [LinearOrderedField α] {logs : StrMap (List (FoodEntry α))}
    (hs : KeysSorted logs) (c : Command α) : KeysSorted (c.undo logs) := by
  cases c with
  | addFoodCommand date foodName servings calories =>
    simp only [Command.undo]
    split_ifs
    all_goals first | exact keysSorted_mapErase hs _ | exact keysSorted_mapInsert hs _ _
  | deleteFoodCommand date index deleted =>
    exact keysSorted_mapInsert hs _ _

/-- C16: when the food name is in the catalog, `FoodDiary::addFood` followed at
once by `FoodDiary::undo` gives back the diary from before the add: under every
date the same sequence of entries (no key again for a date that had none) and
the same undo history; with the keys of the map in order the two diary states
are equal. A date mapped to an empty sequence, which no reachable state has,
is excluded. -/
theorem addFood_then_undo [LinearOrderedField α] (d : FoodDiary α)
    (db : FoodDatabaseManager α) (date foodName : String) (servings : α) (food : Food α)
    (h : db.getFood foodName = some food) (hne : mapFind d.dailyLogs date ≠ some []) :
    (∀ key, mapFind (d.addFood db date foodName servings).undo.dailyLogs key =
        mapFind d.dailyLogs key)
      ∧ (d.addFood db date foodName servings).undo.undoStack = d.undoStack
      ∧ (KeysSorted d.dailyLogs → (d.addFood db date foodName servings).undo = d) := by
  have e : (d.addFood db date foodName servings).undo =
      ⟨(Command.addFoodCommand date foodName servings (food.getCalories * servings)).undo
        ((Command.addFoodCommand date foodName servings (food.getCalories * servings)).execute
          d.dailyLogs), d.undoStack⟩ := by
    simp [FoodDiary.addFood, h, AddFoodCommand.new, FoodDiary.executeCommand, FoodDiary.undo]
  have hfind := undo_after_addFood_logs d.dailyLogs date foodName servings
    (food.getCalories * servings) hne
  rw [e]
  refine ⟨hfind, rfl, ?_⟩
  intro hs
  have hlogs := strMap_ext_of_sorted (keysSorted_undo (keysSorted_execute hs _) _) hs hfind
  cases d with
  | mk logs stack =>
    simp only at hlogs ⊢
    rw [hlogs]

theorem addFood_then_undo_witness :
    ((FoodDiary.mk [("2024-01-01", [⟨"Rice", (1 : ℚ), 200⟩])] []).addFood
        ⟨[("Apple", Food.basic "Apple" ["fruit"] 95)], false⟩ "2024-01-02" "Apple" 2).undo
      = FoodDiary.mk [("2024-01-01", [⟨"Rice", 1, 200⟩])] [] :=
  (addFood_then_undo (FoodDiary.mk [("2024-01-01", [⟨"Rice", (1 : ℚ), 200⟩])] [])
    ⟨[("Apple", Food.basic "Apple" ["fruit"] 95)], false⟩ "2024-01-02" "Apple" 2
    (Food.basic "Apple" ["fruit"] 95) rfl (by simp [mapFind])).2.2
    (by unfold KeysSorted; simp)

theorem sum_eraseIdx_append {β : Type} [AddCommMonoid β] {γ : Type} (f : γ → β) :
    ∀ (l : List γ) (i : Nat) (hi : i < l.length),
      ((l.eraseIdx i ++ [l.get ⟨i, hi⟩]).map f).sum = (l.map f).sum
  | [], i, hi => by simp at hi
  | x :: xs, 0, _ => by
      simp [add_comm]
  | x :: xs, i + 1, hi => by
      have ih := sum_eraseIdx_append f xs i (Nat.lt_of_succ_lt_succ hi)
      simp only [List.eraseIdx_cons_succ, List.cons_append, List.map_cons, List.sum_cons,
        List.get_cons_succ]
      rw [← ih]

theorem deleteFood_entriesAt [Zero α] (d : FoodDiary α) (date : String) (index : Nat)
    (entries : List (FoodEntry α)) (h : mapFind d.dailyLogs date = some entries)
    (hi : index < entries.length) :
    entriesAt (d.deleteFood date index).dailyLogs date = entries.eraseIdx index := by
  rw [deleteFood_eq d date index entries h hi]
  cases he : (entries.eraseIdx index).isEmpty with
  | true => simp [entriesAt, mapFind_mapErase, List.isEmpty_iff.1 he]
  | false => simp [entriesAt, mapFind_mapInsert]

theorem deleteFood_find_other [Zero α] (d : FoodDiary α) (date : String) (index : Nat)
    (entries : List (FoodEntry α)) (h : mapFind d.dailyLogs date = some entries)
    (hi : index < entries.length) (other : String) (hne : other ≠ date) :
    mapFind (d.deleteFood date index).dailyLogs other = mapFind d.dailyLogs other := by
  rw [deleteFood_eq d date index entries h hi]
  cases he : (entries.eraseIdx index).isEmpty with
  | true => simp [mapFind_mapErase, hne]
  | false => simp [mapFind_mapInsert, hne]

theorem undo_after_deleteFood_eq [LinearOrderedField α] (d : FoodDiary α) (date : String)
    (index : Nat) (entries : List (FoodEntry α)) (h : mapFind d.dailyLogs date = some entries)
    (hi : index < entries.length) :
    (d.deleteFood date index).undo =
      ⟨mapInsert (d.deleteFood date index).dailyLogs date
          (entries.eraseIdx index ++ [entries.get ⟨index, hi⟩]), d.undoStack⟩ := by
  have hE := deleteFood_entriesAt d date index entries h hi
  have hst : (d.deleteFood date index).undoStack =
      Command.deleteFoodCommand date index (entries.get ⟨index, hi⟩) :: d.undoStack := by
    rw [deleteFood_eq d date index entries h hi]
  unfold FoodDiary.undo
  rw [hst]
  simp only [Command.undo, hE]

/-- C17 (as the code behaves): for a date of the diary and a valid index,
`FoodDiary::deleteFood` followed at once by `FoodDiary::undo` leaves under the
date the original sequence with the entry of that index taken out of its place
and put back, the same entry, at the end; every other date and the undo
history are as before the delete, and in exact arithmetic the total of the
date is what it was. -/
theorem deleteFood_then_undo [LinearOrderedField α] (d : FoodDiary α) (date : String)
    (index : Nat) (entries : List (FoodEntry α)) (h : mapFind d.dailyLogs date = some entries)
    (hi : index < entries.length) :
    mapFind (d.deleteFood date index).undo.dailyLogs date =
        some (entries.eraseIdx index ++ [entries.get ⟨index, hi⟩])
      ∧ (∀ other, other ≠ date →
          mapFind (d.deleteFood date index).undo.dailyLogs other = mapFind d.dailyLogs other)
      ∧ (d.deleteFood date index).undo.undoStack = d.undoStack
      ∧ (d.deleteFood date index).undo.getTotalCaloriesForDate date =
          d.getTotalCaloriesForDate date := by
  have e := undo_after_deleteFood_eq d date index entries h hi
  have hfind : mapFind (d.deleteFood date index).undo.dailyLogs date =
      some (entries.eraseIdx index ++ [entries.get ⟨index, hi⟩]) := by
    rw [e]
    simp [mapFind_mapInsert]
  refine ⟨hfind, ?_, by rw [e], ?_⟩
  · intro other hne
    rw [e]
    simp only [mapFind_mapInsert, hne, if_false]
    exact deleteFood_find_other d date index entries h hi other hne
  · rw [getTotalCaloriesForDate_sum, getTotalCaloriesForDate_sum, entriesAt_of_find hfind,
      entriesAt_of_find h]
    exact sum_eraseIdx_append FoodEntry.calories entries index hi

theorem deleteFood_then_undo_witness :
    mapFind ((FoodDiary.mk
        [("2024-01-01", [⟨"Rice", (1 : ℚ), 200⟩, ⟨"Egg", 2, 156⟩, ⟨"Tea", 1, 2⟩])] []
        ).deleteFood "2024-01-01" 0).undo.dailyLogs "2024-01-01"
      = some [⟨"Egg", 2, 156⟩, ⟨"Tea", 1, 2⟩, ⟨"Rice", 1, 200⟩] :=
  (deleteFood_then_undo (FoodDiary.mk
      [("2024-01-01", [⟨"Rice", (1 : ℚ), 200⟩, ⟨"Egg", 2, 156⟩, ⟨"Tea", 1, 2⟩])] [])
    "2024-01-01" 0 [⟨"Rice", 1, 200⟩, ⟨"Egg", 2, 156⟩, ⟨"Tea", 1, 2⟩] rfl (by decide)).1

/-- On an ordered field `FoodDiary.undoWith`, given the comparison
`|a - b| < 0.001`, is `FoodDiary.undo`. -/
theorem undoWith_eq_undo [LinearOrderedField α] (d : FoodDiary α) :
    d.undoWith (fun a b => decide (|a - b| < 0.001)) = d.undo := by
  cases d with
  | mk logs stack =>
    cases stack with
    | nil => rfl
    | cons c rest =>
      cases c with
      | addFoodCommand date foodName servings calories => rfl
      | deleteFoodCommand date index deletedEntry => rfl

/-- Whatever the carrier and its arithmetic, `deleteFood` followed by the undo
leaves under the date the sequence without the entry of the index followed by
that entry, and the other dates and the history as they were. -/
theorem deleteFood_then_undoWith [Zero α] (close : α → α → Bool) (d : FoodDiary α)
    (date : String) (index : Nat) (entries : List (FoodEntry α))
    (h : mapFind d.dailyLogs date = some entries) (hi : index < entries.length) :
    mapFind ((d.deleteFood date index).undoWith close).dailyLogs date =
        some (entries.eraseIdx index ++ [entries.get ⟨index, hi⟩])
      ∧ (∀ other, other ≠ date →
          mapFind ((d.deleteFood date index).undoWith close).dailyLogs other =
            mapFind d.dailyLogs other)
      ∧ ((d.deleteFood date index).undoWith close).undoStack = d.undoStack := by
  have e : (d.deleteFood date index).undoWith close =
      ⟨mapInsert (d.deleteFood date index).dailyLogs date
          (entriesAt (d.deleteFood date index).dailyLogs date ++ [entries.get ⟨index, hi⟩]),
        d.undoStack⟩ := by
    have hst : (d.deleteFood date index).undoStack =
        Command.deleteFoodCommand date index (entries.get ⟨index, hi⟩) :: d.undoStack := by
      rw [deleteFood_eq d date index entries h hi]
    unfold FoodDiary.undoWith
    rw [hst]
    rfl
  rw [e, deleteFood_entriesAt d date index entries h hi]
  refine ⟨by simp [mapFind_mapInsert], ?_, rfl⟩
  intro other hne
  simp only [mapFind_mapInsert, hne, if_false]
  exact deleteFood_find_other d date index entries h hi other hne

/-- The rounding on numbers with at most 53 bits, on both sides of a tie and
off a tie. -/
theorem roundDouble_examples :
    roundDouble 12345 = 12345
      ∧ roundDouble 9007199254740992 = 9007199254740992
      ∧ roundDouble 9007199254740993 = 9007199254740992
      ∧ roundDouble 9007199254740995 = 9007199254740996
      ∧ roundDouble 10000000000000001 = 10000000000000000
      ∧ roundDouble 10000000000000002 = 10000000000000002
      ∧ roundDouble 10000000000000003 = 10000000000000004
      ∧ roundDouble 36028797018963975 = 36028797018963976 := by
  refine ⟨?_, ?_, ?_, ?_, ?_, ?_, ?_, ?_⟩ <;> rfl

/-- C17 fails on the code for the total: a day holds entries of 10^16, 1 and 1
calories, in this order. The loop of `getTotalCaloriesForDate` adds them from
the left in `double` arithmetic: 10^16 + 1 rounds to 10^16, twice, so the
total is 10^16. `deleteFood` of index 0 followed by `undo` leaves the entries
of 1, 1 and 10^16 calories, the deleted entry at the end, as the claim says;
the loop now computes 1 + 1 = 2 and 2 + 10^16, which is a `double`, so the
total is 10^16 + 2 and not its prior value. -/
theorem delete_undo_changes_total :
    (feastDiary.getTotalCaloriesForDate "2024-01-01").val = 10000000000000000
      ∧ (feastDiary.deleteFood "2024-01-01" 0).undoStack =
          [Command.deleteFoodCommand "2024-01-01" 0 ⟨"Feast", ⟨1⟩, ⟨10000000000000000⟩⟩]
      ∧ ((feastDiary.deleteFood "2024-01-01" 0).undoWith WholeDouble.close).dailyLogs =
          [("2024-01-01",
            [⟨"Mint", ⟨1⟩, ⟨1⟩⟩, ⟨"Clove", ⟨1⟩, ⟨1⟩⟩, ⟨"Feast", ⟨1⟩, ⟨10000000000000000⟩⟩])]
      ∧ (((feastDiary.deleteFood "2024-01-01" 0).undoWith
          WholeDouble.close).getTotalCaloriesForDate "2024-01-01").val = 10000000000000002 := by
  refine ⟨?_, ?_, ?_, ?_⟩ <;> rfl

theorem executeCommand_foldl (cs : List (Command α)) (logs : StrMap (List (FoodEntry α)))
    (history : List (Command α)) :
    cs.foldl FoodDiary.executeCommand ⟨logs, history⟩ =
      ⟨cs.foldl (fun l c => c.execute l) logs, cs.reverse ++ history⟩ := by
  induction cs generalizing logs history with
  | nil => rfl
  | cons c rest ih =>
    simp only [List.foldl_cons, FoodDiary.executeCommand, ih, List.reverse_cons,
      List.append_assoc, List.singleton_append]

theorem undo_iterate [LinearOrderedField α] (cs : List (Command α))
    (logs : StrMap (List (FoodEntry α))) (history : List (Command α)) :
    FoodDiary.undo^[cs.length] ⟨logs, cs ++ history⟩ =
      ⟨cs.foldl (fun l c => c.undo l) logs, history⟩ := by
  induction cs generalizing logs with
  | nil => rfl
  | cons c rest ih =>
    simp only [List.length_cons, Function.iterate_succ, Function.comp_apply, List.foldl_cons]
    exact ih (c.undo logs)

/-- C18: the undo history is a stack without redo. Executing a command puts it
on top of the history; `FoodDiary::undo` on a history with top command `c`
applies the inverse of `c` to the logs and leaves the history below `c`; on an
empty history it changes neither the logs nor the history; and after any
commands executed in a row, as many undos apply their inverses latest first
and leave the history from before the first of them. -/
theorem undo_is_lifo [LinearOrderedField α] (logs : StrMap (List (FoodEntry α)))
    (history : List (Command α)) (c : Command α) (cs : List (Command α)) :
    (FoodDiary.mk logs history).executeCommand c = ⟨c.execute logs, c :: history⟩
      ∧ (FoodDiary.mk logs (c :: history)).undo = ⟨c.undo logs, history⟩
      ∧ (FoodDiary.mk logs ([] : List (Command α))).undo = ⟨logs, []⟩
      ∧ (cs.foldl FoodDiary.executeCommand ⟨logs, history⟩).undoStack = cs.reverse ++ history
      ∧ FoodDiary.undo^[cs.length] (cs.foldl FoodDiary.executeCommand ⟨logs, history⟩) =
          ⟨cs.reverse.foldl (fun l k => k.undo l) (cs.foldl (fun l k => k.execute l) logs),
            history⟩ := by
  refine ⟨rfl, rfl, rfl, by rw [executeCommand_foldl], ?_⟩
  rw [executeCommand_foldl]
  have := undo_iterate cs.reverse (cs.foldl (fun l k => k.execute l) logs) history
  rwa [List.length_reverse] at this

/-! ## Invariant of the daily logs -/

theorem noEmptyDay_mapInsert {logs : StrMap (List (FoodEntry α))} (h : NoEmptyDay logs)
    (date : String) {entries : List (FoodEntry α)} (hne : entries ≠ []) :
    NoEmptyDay (mapInsert logs date entries) := by
  intro e he
  rcases mem_mapInsert he with he | he
  · subst he; exact hne
  · exact h e he

theorem noEmptyDay_mapErase {logs : StrMap (List (FoodEntry α))} (h : NoEmptyDay logs)
    (date : String) : NoEmptyDay (mapErase logs date) :=
  fun e he => h e (mem_mapErase he)

theorem ne_nil_of_isEmpty_false {β : Type} {l : List β} (h : l.isEmpty = false) : l ≠ [] := by
  intro e
  rw [e] at h
  cases h

theorem noEmptyDay_undo [LinearOrderedField α] {logs : StrMap (List (FoodEntry α))}
    (h : NoEmptyDay logs) (c : Command α) : NoEmptyDay (c.undo logs) := by
  cases c with
  | addFoodCommand date foodName servings calories =>
    simp only [Command.undo]
    generalize (if (entriesAt logs date).isEmpty = true then entriesAt logs date
      else eraseLatest foodName servings (entriesAt logs date)) = entries1
    cases he : entries1.isEmpty with
    | true => exact noEmptyDay_mapErase h _
    | false => exact noEmptyDay_mapInsert h _ (ne_nil_of_isEmpty_false he)
  | deleteFoodCommand date index deleted =>
    exact noEmptyDay_mapInsert h _ (by simp)

theorem noEmptyDay_addFood [Zero α] [Add α] [Mul α] {d : FoodDiary α}
    (h : NoEmptyDay d.dailyLogs) (db : FoodDatabaseManager α) (date foodName : String)
    (servings : α) : NoEmptyDay (d.addFood db date foodName servings).dailyLogs := by
  unfold FoodDiary.addFood
  cases hf : db.getFood foodName with
  | none => exact h
  | some food =>
    simp only [FoodDiary.executeCommand, AddFoodCommand.new, hf, Command.execute]
    exact noEmptyDay_mapInsert h _ (by simp)

theorem noEmptyDay_deleteFood [Zero α] {d : FoodDiary α} (h : NoEmptyDay d.dailyLogs)
    (date : String) (index : Nat) : NoEmptyDay (d.deleteFood date index).dailyLogs := by
  cases hf : mapFind d.dailyLogs date with
  | none => simpa [FoodDiary.deleteFood, hf] using h
  | some entries =>
    by_cases hi : index < entries.length
    · rw [deleteFood_eq d date index entries hf hi]
      cases he : (entries.eraseIdx index).isEmpty with
      | true => exact noEmptyDay_mapErase h _
      | false => exact noEmptyDay_mapInsert h _ (ne_nil_of_isEmpty_false he)
    · have : index ≥ entries.length := Nat.le_of_not_lt hi
      simpa [FoodDiary.deleteFood, hf, this] using h

theorem noEmptyDay_loadEntries (date : String) (es : List (EntryJson α))
    (logs : StrMap (List (FoodEntry α))) (h : NoEmptyDay logs) :
    NoEmptyDay (es.foldl (loadEntry date) logs) := by
  induction es generalizing logs with
  | nil => exact h
  | cons e rest ih =>
    simp only [List.foldl_cons]
    exact ih _ (noEmptyDay_mapInsert h _ (by simp))

theorem noEmptyDay_loadLogs {d : FoodDiary α} (h : NoEmptyDay d.dailyLogs) (file : LogFile α) :
    NoEmptyDay (d.loadLogs file).dailyLogs := by
  cases file with
  | missing => exact h
  | invalid => exact h
  | document j =>
    simp only [FoodDiary.loadLogs]
    generalize d.dailyLogs = logs at h
    induction j generalizing logs with
    | nil => exact h
    | cons item rest ih =>
      simp only [List.foldl_cons]
      exact ih _ (noEmptyDay_loadEntries _ _ _ h)

theorem keysSorted_loadEntries (date : String) (es : List (EntryJson α))
    (logs : StrMap (List (FoodEntry α))) (h : KeysSorted logs) :
    KeysSorted (es.foldl (loadEntry date) logs) := by
  induction es generalizing logs with
  | nil => exact h
  | cons e rest ih =>
    simp only [List.foldl_cons]
    exact ih _ (keysSorted_mapInsert h _ _)

theorem keysSorted_loadLogs {d : FoodDiary α} (h : KeysSorted d.dailyLogs) (file : LogFile α) :
    KeysSorted (d.loadLogs file).dailyLogs := by
  cases file with
  | missing => exact h
  | invalid => exact h
  | document j =>
    simp only [FoodDiary.loadLogs]
    generalize d.dailyLogs = logs at h
    induction j generalizing logs with
    | nil => exact h
    | cons item rest ih =>
      simp only [List.foldl_cons]
      exact ih _ (keysSorted_loadEntries _ _ _ h)

theorem diaryReachable_inv [LinearOrderedField α] {d : FoodDiary α} (h : DiaryReachable d) :
    KeysSorted d.dailyLogs ∧ NoEmptyDay d.dailyLogs := by
  induction h with
  | loadLogs file =>
    exact ⟨keysSorted_loadLogs keysSorted_nil file,
      noEmptyDay_loadLogs (by intro e he; simp [FoodDiary.empty] at he) file⟩
  | @addFood d db date foodName servings _ ih =>
    refine ⟨?_, noEmptyDay_addFood ih.2 db date foodName servings⟩
    unfold FoodDiary.addFood
    cases hf : db.getFood foodName with
    | none => exact ih.1
    | some food => exact keysSorted_execute ih.1 _
  | @deleteFood d date index _ ih =>
    refine ⟨?_, noEmptyDay_deleteFood ih.2 date index⟩
    cases hf : mapFind d.dailyLogs date with
    | none => simpa [FoodDiary.deleteFood, hf] using ih.1
    | some entries =>
      by_cases hi : index < entries.length
      · rw [deleteFood_eq d date index entries hf hi]
        cases he : (entries.eraseIdx index).isEmpty with
        | true => exact keysSorted_mapErase ih.1 _
        | false => exact keysSorted_mapInsert ih.1 _ _
      · have : index ≥ entries.length := Nat.le_of_not_lt hi
        simpa [FoodDiary.deleteFood, hf, this] using ih.1
  | @undo d _ ih =>
    unfold FoodDiary.undo
    cases hst : d.undoStack with
    | nil => exact ih
    | cons c rest => exact ⟨keysSorted_undo ih.1 c, noEmptyDay_undo ih.2 c⟩

/-- C19: in every diary state reached from a loaded log through `addFood`,
`deleteFood` and `undo`, no entry of the map of daily logs holds an empty
sequence: looking up a date never yields an empty sequence. -/
theorem reachable_no_empty_day [LinearOrderedField α] (d : FoodDiary α)
    (h : DiaryReachable d) :
    NoEmptyDay d.dailyLogs ∧ ∀ date, mapFind d.dailyLogs date ≠ some [] := by
  obtain ⟨_, hn⟩ := diaryReachable_inv h
  refine ⟨hn, ?_⟩
  intro date hf
  exact hn _ (mem_of_mapFind hf) rfl

theorem reachable_no_empty_day_witness :
    DiaryReachable ((FoodDiary.empty.loadLogs
        (LogFile.document [("2024-01-01", [(⟨"Rice", (1 : ℚ), 200⟩ : EntryJson ℚ)])])).deleteFood
        "2024-01-01" 0)
    ∧ mapFind ((FoodDiary.empty.loadLogs
        (LogFile.document [("2024-01-01", [(⟨"Rice", (1 : ℚ), 200⟩ : EntryJson ℚ)])])).deleteFood
        "2024-01-01" 0).dailyLogs "2024-01-01" ≠ some [] :=
  have h : DiaryReachable ((FoodDiary.empty.loadLogs
      (LogFile.document [("2024-01-01", [(⟨"Rice", (1 : ℚ), 200⟩ : EntryJson ℚ)])])).deleteFood
      "2024-01-01" 0) :=
    DiaryReachable.deleteFood "2024-01-01" 0 (DiaryReachable.loadLogs _)
  ⟨h, (reachable_no_empty_day _ h).2 "2024-01-01"⟩

/-! ## Saving and loading the logs -/

theorem entriesAt_mapInsert (logs : StrMap (List (FoodEntry α))) (date key : String)
    (entries : List (FoodEntry α)) :
    entriesAt (mapInsert logs date entries) key =
      if key = date then entries else entriesAt logs key := by
  unfold entriesAt
  rw [mapFind_mapInsert]
  by_cases e : key = date <;> simp [e]

theorem entriesAt_loadEntries (date key : String) (es : List (EntryJson α))
    (logs : StrMap (List (FoodEntry α))) :
    entriesAt (es.foldl (loadEntry date) logs) key =
      if key = date then
        entriesAt logs date ++ es.map (fun e => (⟨e.food, e.servings, e.calories⟩ : FoodEntry α))
      else entriesAt logs key := by
  induction es generalizing logs with
  | nil => by_cases e : key = date <;> simp [e]
  | cons x rest ih =>
    simp only [List.foldl_cons, ih, loadEntry, entriesAt_mapInsert]
    by_cases e : key = date <;> simp [e]

theorem entriesAt_loadDocument (j : StrMap (List (EntryJson α))) (hs : KeysSorted j)
    (logs : StrMap (List (FoodEntry α))) (key : String) :
    entriesAt (j.foldl (fun logs item => item.2.foldl (loadEntry item.1) logs) logs) key =
      entriesAt logs key ++
        ((mapFind j key).getD []).map
          (fun e => (⟨e.food, e.servings, e.calories⟩ : FoodEntry α)) := by
  induction j generalizing logs with
  | nil => simp [mapFind]
  | cons item rest ih =>
    obtain ⟨k, es⟩ := item
    simp only [List.foldl_cons, ih (keysSorted_tail hs), entriesAt_loadEntries, mapFind]
    by_cases e : key = k
    · subst e
      rw [mapFind_eq_none_of_lt (keysSorted_head_lt hs)]
      simp
    · simp [e]

theorem mapFind_saveFold (items : StrMap (List (FoodEntry α))) (hs : KeysSorted items)
    (acc : StrMap (List (EntryJson α))) (key : String) :
    mapFind (items.foldl (fun j item => mapInsert j item.1 (item.2.map FoodEntry.toJson)) acc)
        key =
      match mapFind items key with
      | some entries => some (entries.map FoodEntry.toJson)
      | none => mapFind acc key := by
  induction items generalizing acc with
  | nil => simp [mapFind]
  | cons item rest ih =>
    obtain ⟨k, es⟩ := item
    simp only [List.foldl_cons, ih (keysSorted_tail hs), mapFind, mapFind_mapInsert]
    by_cases e : key = k
    · subst e
      rw [mapFind_eq_none_of_lt (keysSorted_head_lt hs)]
      simp
    · simp only [e, if_false]

theorem keysSorted_saveFold (items : StrMap (List (FoodEntry α)))
    (acc : StrMap (List (EntryJson α))) (h : KeysSorted acc) :
    KeysSorted
      (items.foldl (fun j item => mapInsert j item.1 (item.2.map FoodEntry.toJson)) acc) := by
  induction items generalizing acc with
  | nil => exact h
  | cons item rest ih =>
    simp only [List.foldl_cons]
    exact ih _ (keysSorted_mapInsert h _ _)

theorem entriesAt_load_save (d : FoodDiary α) (hs : KeysSorted d.dailyLogs) (date : String) :
    entriesAt (FoodDiary.empty.loadLogs (LogFile.document d.saveLogs)).dailyLogs date =
      entriesAt d.dailyLogs date := by
  have hsaved : KeysSorted d.saveLogs := keysSorted_saveFold _ _ keysSorted_nil
  simp only [FoodDiary.loadLogs, FoodDiary.empty]
  rw [entriesAt_loadDocument _ hsaved]
  simp only [FoodDiary.saveLogs]
  rw [mapFind_saveFold _ hs]
  unfold entriesAt
  cases mapFind d.dailyLogs date with
  | none => simp [mapFind]
  | some entries =>
    simp only [mapFind, Option.getD_some, List.nil_append, List.map_map]
    conv_rhs => rw [← List.map_id entries]
    rfl

theorem mapFind_eq_of_entriesAt_eq {m1 m2 : StrMap (List (FoodEntry α))}
    (h1 : NoEmptyDay m1) (h2 : NoEmptyDay m2) {key : String}
    (h : entriesAt m1 key = entriesAt m2 key) : mapFind m1 key = mapFind m2 key := by
  unfold entriesAt at h
  cases hf1 : mapFind m1 key with
  | none =>
    cases hf2 : mapFind m2 key with
    | none => rfl
    | some b =>
      rw [hf1, hf2] at h
      simp only [Option.getD_none, Option.getD_some] at h
      exact absurd h.symm (h2 _ (mem_of_mapFind hf2))
  | some a =>
    cases hf2 : mapFind m2 key with
    | none =>
      rw [hf1, hf2] at h
      simp only [Option.getD_none, Option.getD_some] at h
      exact absurd h (h1 _ (mem_of_mapFind hf1))
    | some b =>
      rw [hf1, hf2] at h
      simp only [Option.getD_some] at h
      rw [h]

/-- C20: for every diary (its map in key order), loading into a new diary what
`saveLogs` wrote gives, under every date, the same sequence of entries (food
name, servings and calories) in the same order, hence the same
`getTotalCaloriesForDate`; when no date of the diary holds an empty sequence
the loaded map of daily logs is the saved one. -/
theorem loadLogs_saveLogs [Zero α] [Add α] (d : FoodDiary α) (hs : KeysSorted d.dailyLogs) :
    (∀ date, entriesAt (FoodDiary.empty.loadLogs (LogFile.document d.saveLogs)).dailyLogs date =
        entriesAt d.dailyLogs date)
      ∧ (∀ date,
          (FoodDiary.empty.loadLogs (LogFile.document d.saveLogs)).getTotalCaloriesForDate date =
            d.getTotalCaloriesForDate date)
      ∧ (NoEmptyDay d.dailyLogs →
          (FoodDiary.empty.loadLogs (LogFile.document d.saveLogs)).dailyLogs = d.dailyLogs) := by
  refine ⟨entriesAt_load_save d hs, ?_, ?_⟩
  · intro date
    rw [getTotalCaloriesForDate_entriesAt, getTotalCaloriesForDate_entriesAt,
      entriesAt_load_save d hs]
  · intro hn
    apply strMap_ext_of_sorted (keysSorted_loadLogs keysSorted_nil _) hs
    intro key
    exact mapFind_eq_of_entriesAt_eq
      (noEmptyDay_loadLogs (by intro e he; simp [FoodDiary.empty] at he) _) hn
      (entriesAt_load_save d hs key)

theorem loadLogs_saveLogs_witness :
    (FoodDiary.empty.loadLogs (LogFile.document
        (FoodDiary.mk [("2024-01-01", [⟨"Rice", (1 : Nat), 200⟩, ⟨"Egg", 2, 156⟩]),
          ("2024-01-02", [⟨"Tea", 1, 2⟩])] []).saveLogs)).dailyLogs
      = [("2024-01-01", [⟨"Rice", 1, 200⟩, ⟨"Egg", 2, 156⟩]), ("2024-01-02", [⟨"Tea", 1, 2⟩])] :=
  (loadLogs_saveLogs
    (FoodDiary.mk [("2024-01-01", [⟨"Rice", (1 : Nat), 200⟩, ⟨"Egg", 2, 156⟩]),
      ("2024-01-02", [⟨"Tea", 1, 2⟩])] [])
    (by unfold KeysSorted; decide)).2.2
    (by unfold NoEmptyDay; simp)

/-! ## A load that fails -/

/-- C21 (as the code behaves): `loadDatabase` clears `foods` before it opens
the file, so when it fails because the file is missing or is not a JSON
document it returns false with an empty catalog, whatever the catalog held
before; the flag `modified` is not touched. -/
theorem loadDatabase_failure_clears (db : FoodDatabaseManager α) (fuel : Nat)
    (file : DatabaseFile α)
    (hfile : file = DatabaseFile.missing ∨ file = DatabaseFile.invalid) :
    ∃ res, db.loadDatabase fuel file = some res ∧ res.success = false ∧
      res.db.foods = [] ∧ res.db.modified = db.modified := by
  rcases hfile with h | h <;> subst h <;>
    exact ⟨⟨false, ⟨[], db.modified⟩, []⟩, rfl, rfl, rfl, rfl⟩

theorem loadDatabase_failure_clears_witness :
    ∃ res, pieCatalog.loadDatabase 5 DatabaseFile.invalid = some res ∧
      res.success = false ∧ res.db.foods = [] ∧ res.db.modified = pieCatalog.modified :=
  loadDatabase_failure_clears pieCatalog 5 DatabaseFile.invalid (Or.inr rfl)

/-- C21 fails on the code: a catalog holding two foods is empty after a load
that fails because the file is missing. -/
theorem failed_load_loses_catalog :
    (mapKeys pieCatalog.foods = ["Apple", "Pie"])
      ∧ ∃ res, pieCatalog.loadDatabase 5 DatabaseFile.missing = some res ∧
          res.success = false ∧ mapKeys res.db.foods = [] :=
  ⟨rfl, ⟨false, ⟨[], true⟩, []⟩, rfl, rfl, rfl⟩

/-! ## Undo of an add command -/

theorem eraseLatest_of_no_match [LinearOrderedField α] (foodName : String) (servings : α)
    (entries : List (FoodEntry α))
    (h : ∀ x ∈ entries, matchesAdd foodName servings x = false) :
    eraseLatest foodName servings entries = entries := by
  unfold eraseLatest
  rw [List.eraseP_of_forall_not, List.reverse_reverse]
  intro a ha
  rw [h a (List.mem_reverse.1 ha)]
  exact Bool.false_ne_true

theorem eraseLatest_of_latest [LinearOrderedField α] (foodName : String) (servings : α)
    (pre post : List (FoodEntry α)) (e : FoodEntry α)
    (he : matchesAdd foodName servings e = true)
    (hpost : ∀ x ∈ post, matchesAdd foodName servings x = false) :
    eraseLatest foodName servings (pre ++ e :: post) = pre ++ post := by
  unfold eraseLatest
  have hrev : (pre ++ e :: post).reverse = post.reverse ++ e :: pre.reverse := by simp
  rw [hrev, List.eraseP_append_right, List.eraseP_cons_of_pos he]
  · simp
  · intro b hb
    rw [hpost b (List.mem_reverse.1 hb)]
    exact Bool.false_ne_true

theorem exists_latest_match [LinearOrderedField α] (foodName : String) (servings : α) :
    ∀ (entries : List (FoodEntry α)),
      (∃ x ∈ entries, matchesAdd foodName servings x = true) →
      ∃ pre e post, entries = pre ++ e :: post ∧ matchesAdd foodName servings e = true ∧
        ∀ x ∈ post, matchesAdd foodName servings x = false
  | [], h => by simp at h
  | a :: rest, h => by
      by_cases hr : ∃ x ∈ rest, matchesAdd foodName servings x = true
      · obtain ⟨pre, e, post, h1, h2, h3⟩ := exists_latest_match foodName servings rest hr
        exact ⟨a :: pre, e, post, by rw [h1]; rfl, h2, h3⟩
      · have ha : matchesAdd foodName servings a = true := by
          obtain ⟨x, hx, hm⟩ := h
          rcases List.mem_cons.1 hx with e | hx
          · exact e ▸ hm
          · exact absurd ⟨x, hx, hm⟩ hr
        refine ⟨[], a, rest, rfl, ha, ?_⟩
        intro x hx
        cases hm : matchesAdd foodName servings x with
        | false => rfl
        | true => exact absurd ⟨x, hx, hm⟩ hr

theorem eraseLatest_nil [LinearOrderedField α] (foodName : String) (servings : α) :
    eraseLatest foodName servings ([] : List (FoodEntry α)) = [] := rfl

theorem undo_add_eq [LinearOrderedField α] (logs : StrMap (List (FoodEntry α)))
    (date foodName : String) (servings calories : α) :
    (Command.addFoodCommand date foodName servings calories).undo logs =
      if (eraseLatest foodName servings (entriesAt logs date)).isEmpty then mapErase logs date
      else mapInsert logs date (eraseLatest foodName servings (entriesAt logs date)) := by
  simp only [Command.undo]
  cases he : (entriesAt logs date).isEmpty with
  | true =>
    have hnil : entriesAt logs date = [] := List.isEmpty_iff.1 he
    simp [hnil, eraseLatest_nil]
  | false => simp

theorem entriesAt_mapErase (logs : StrMap (List (FoodEntry α))) (date key : String) :
    entriesAt (mapErase logs date) key = if key = date then [] else entriesAt logs key := by
  unfold entriesAt
  rw [mapFind_mapErase]
  by_cases e : key = date <;> simp [e]

theorem undo_add_entriesAt [LinearOrderedField α] (logs : StrMap (List (FoodEntry α)))
    (date foodName : String) (servings calories : α) (key : String) :
    entriesAt ((Command.addFoodCommand date foodName servings calories).undo logs) key =
      if key = date then eraseLatest foodName servings (entriesAt logs date)
      else entriesAt logs key := by
  rw [undo_add_eq]
  cases he : (eraseLatest foodName servings (entriesAt logs date)).isEmpty with
  | true =>
    have hnil := List.isEmpty_iff.1 he
    simp only [if_true, entriesAt_mapErase]
    by_cases e : key = date
    · simp only [e, if_true, hnil]
    · simp only [e, if_false]
  | false =>
    simp only [Bool.false_eq_true, if_false, entriesAt_mapInsert]

theorem undo_add_find [LinearOrderedField α] (logs : StrMap (List (FoodEntry α)))
    (date foodName : String) (servings calories : α) (key : String) :
    mapFind ((Command.addFoodCommand date foodName servings calories).undo logs) key =
      if key = date then
        (if (eraseLatest foodName servings (entriesAt logs date)).isEmpty then none
          else some (eraseLatest foodName servings (entriesAt logs date)))
      else mapFind logs key := by
  rw [undo_add_eq]
  cases he : (eraseLatest foodName servings (entriesAt logs date)).isEmpty with
  | true => by_cases e : key = date <;> simp [mapFind_mapErase, e]
  | false => by_cases e : key = date <;> simp [mapFind_mapInsert, e]

/-- C22: the undo of an add command for a date, a food name and a number of
servings removes from the sequence of the date the entry closest to the end
whose food name is that name and whose servings differ from that number by
less than 0.001, and only that entry, the others keeping their order; such an
entry exists as soon as any entry matches; when no entry matches the sequence
is left as it is; afterwards the date has no key exactly when its sequence is
empty; the other dates are unchanged and the command is gone from the
history. -/
theorem undo_add_removes_latest [LinearOrderedField α] (logs : StrMap (List (FoodEntry α)))
    (history : List (Command α)) (date foodName : String) (servings calories : α) :
    (∀ pre e post, entriesAt logs date = pre ++ e :: post →
        matchesAdd foodName servings e = true →
        (∀ x ∈ post, matchesAdd foodName servings x = false) →
        entriesAt (FoodDiary.mk logs
          (Command.addFoodCommand date foodName servings calories :: history)).undo.dailyLogs
          date = pre ++ post)
      ∧ ((∃ x ∈ entriesAt logs date, matchesAdd foodName servings x = true) →
          ∃ pre e post, entriesAt logs date = pre ++ e :: post ∧
            matchesAdd foodName servings e = true ∧
            ∀ x ∈ post, matchesAdd foodName servings x = false)
      ∧ ((∀ x ∈ entriesAt logs date, matchesAdd foodName servings x = false) →
          entriesAt (FoodDiary.mk logs
            (Command.addFoodCommand date foodName servings calories :: history)).undo.dailyLogs
            date = entriesAt logs date)
      ∧ mapFind (FoodDiary.mk logs
          (Command.addFoodCommand date foodName servings calories :: history)).undo.dailyLogs
          date =
          (if (entriesAt (FoodDiary.mk logs
              (Command.addFoodCommand date foodName servings calories :: history)
              ).undo.dailyLogs date).isEmpty then none
            else some (entriesAt (FoodDiary.mk logs
              (Command.addFoodCommand date foodName servings calories :: history)
              ).undo.dailyLogs date))
      ∧ (∀ other, other ≠ date →
          mapFind (FoodDiary.mk logs
            (Command.addFoodCommand date foodName servings calories :: history)).undo.dailyLogs
            other = mapFind logs other)
      ∧ (FoodDiary.mk logs
          (Command.addFoodCommand date foodName servings calories :: history)).undo.undoStack
          = history := by
  have e : (FoodDiary.mk logs
      (Command.addFoodCommand date foodName servings calories :: history)).undo =
      ⟨(Command.addFoodCommand date foodName servings calories).undo logs, history⟩ := rfl
  rw [e]
  refine ⟨?_, exists_latest_match foodName servings _, ?_, ?_, ?_, rfl⟩
  · intro pre x post hdec hx hpost
    simp only [undo_add_entriesAt, if_true, hdec]
    exact eraseLatest_of_latest foodName servings pre post x hx hpost
  · intro hno
    simp only [undo_add_entriesAt, if_true]
    exact eraseLatest_of_no_match foodName servings _ hno
  · simp only [undo_add_entriesAt, undo_add_find, if_true]
  · intro other hne
    simp only [undo_add_find, hne, if_false]

theorem undo_add_removes_latest_witness :
    entriesAt (FoodDiary.mk
        [("2024-01-01", [⟨"Apple", (2 : ℚ), 100⟩, ⟨"Rice", 1, 200⟩, ⟨"Apple", 2, 190⟩,
          ⟨"Egg", 1, 78⟩])]
        [Command.addFoodCommand "2024-01-01" "Apple" 2 190]).undo.dailyLogs "2024-01-01"
      = [⟨"Apple", 2, 100⟩, ⟨"Rice", 1, 200⟩] ++ [⟨"Egg", 1, 78⟩] :=
  (undo_add_removes_latest
      [("2024-01-01", [⟨"Apple", (2 : ℚ), 100⟩, ⟨"Rice", 1, 200⟩, ⟨"Apple", 2, 190⟩,
        ⟨"Egg", 1, 78⟩])] [] "2024-01-01" "Apple" 2 190).1
    [⟨"Apple", 2, 100⟩, ⟨"Rice", 1, 200⟩] ⟨"Apple", 2, 190⟩ [⟨"Egg", 1, 78⟩] rfl
    (by simp [matchesAdd]; norm_num)
    (by simp [matchesAdd])

/-! ## Acyclic definitions in any order -/

theorem lastBasic_is_basic {records : List (FoodJson α)} {n : String} {f : Food α}
    (h : lastBasic records n = some f) : ∃ k c, f = Food.basic n k c := by
  induction records with
  | nil => simp [lastBasic] at h
  | cons r rest ih =>
    simp only [lastBasic] at h
    cases hr : lastBasic rest n with
    | some g => rw [hr] at h; cases h; exact ih hr
    | none =>
      rw [hr] at h
      cases r with
      | basic m k c =>
        simp only at h
        split_ifs at h with e
        cases h
        exact ⟨k, c, by rw [e]; rfl⟩
      | composite m k cal cs => simp at h
      | other m => simp at h

theorem declaredName_of_mem {records : List (FoodJson α)} {r : FoodJson α}
    (hr : r ∈ records) (hf : r.isFood = true) : declaredName records r.name = true := by
  induction records with
  | nil => simp at hr
  | cons a rest ih =>
    simp only [declaredName, lastBasic, lastComposite, Bool.or_eq_true] at ih ⊢
    rcases List.mem_cons.1 hr with e | hr
    · subst e
      cases r with
      | basic m k c =>
        left
        simp only [FoodJson.name]
        cases hb : lastBasic rest m <;> simp
      | composite m k cal cs =>
        right
        simp only [FoodJson.name]
        cases hc : lastComposite rest m <;> simp
      | other m => simp [FoodJson.isFood] at hf
    · rcases ih hr with h | h
      · left
        cases hb : lastBasic rest r.name with
        | none => rw [hb] at h; simp at h
        | some f => simp
      · right
        cases hc : lastComposite rest r.name with
        | none => rw [hc] at h; simp at h
        | some f => simp

theorem foldl_resolvedComponents [Zero α] [Add α] [Mul α] (m : StrMap (Food α))
    (cs : List (ComponentJson α)) (t : α) :
    (resolvedComponents m cs).foldl (fun total c => total + c.food.getCalories * c.servings) t =
      (cs.filter (fun c => (mapFind m c.name).isSome)).foldl
        (fun total c => total + ((mapFind m c.name).map Food.getCalories).getD 0 * c.servings)
        t := by
  induction cs generalizing t with
  | nil => rfl
  | cons c rest ih =>
    simp only [resolvedComponents, List.filterMap_cons, List.filter_cons] at ih ⊢
    cases hf : mapFind m c.name with
    | none => simpa using ih t
    | some f =>
      simp only [Option.map_some', Option.isSome_some, if_true, List.foldl_cons]
      rw [hf]
      simp only [Option.map_some', Option.getD_some]
      exact ih _

theorem lastBasic_perm {l1 l2 : List (FoodJson α)} (h : l1.Perm l2)
    (hn : (l1.map FoodJson.name).Nodup) (n : String) : lastBasic l1 n = lastBasic l2 n := by
  induction h with
  | nil => rfl
  | cons x _ ih =>
    simp only [lastBasic]
    rw [ih (List.Nodup.of_cons (by simpa using hn))]
  | swap x y l =>
    have hne : y.name ≠ x.name := by
      simp only [List.map_cons, List.nodup_cons, List.mem_cons, not_or] at hn
      exact hn.1.1
    simp only [lastBasic]
    cases lastBasic l n with
    | some f => rfl
    | none =>
      cases x with
      | basic m1 k1 c1 =>
        cases y with
        | basic m2 k2 c2 =>
          simp only [FoodJson.name] at hne
          by_cases e1 : n = m1
          · by_cases e2 : n = m2
            · exact absurd (e2.symm.trans e1) hne
            · subst e1
              simp [hne, Ne.symm hne]
          · by_cases e2 : n = m2
            · subst e2
              simp [hne, Ne.symm hne]
            · simp [e1, e2]
        | composite m2 k2 cal2 c2 => simp <;> split_ifs <;> rfl
        | other m2 => simp <;> split_ifs <;> rfl
      | composite m1 k1 cal1 c1 => cases y <;> simp <;> split_ifs <;> rfl
      | other m1 => cases y <;> simp <;> split_ifs <;> rfl
  | trans h1 _ ih1 ih2 =>
    rw [ih1 hn, ih2 ((h1.map FoodJson.name).nodup_iff.1 hn)]

theorem lastComposite_perm {l1 l2 : List (FoodJson α)} (h : l1.Perm l2)
    (hn : (l1.map FoodJson.name).Nodup) (n : String) :
    lastComposite l1 n = lastComposite l2 n := by
  induction h with
  | nil => rfl
  | cons x _ ih =>
    simp only [lastComposite]
    rw [ih (List.Nodup.of_cons (by simpa using hn))]
  | swap x y l =>
    have hne : y.name ≠ x.name := by
      simp only [List.map_cons, List.nodup_cons, List.mem_cons, not_or] at hn
      exact hn.1.1
    simp only [lastComposite]
    cases lastComposite l n with
    | some f => rfl
    | none =>
      cases x with
      | composite m1 k1 cal1 c1 =>
        cases y with
        | composite m2 k2 cal2 c2 =>
          simp only [FoodJson.name] at hne
          by_cases e1 : n = m1
          · by_cases e2 : n = m2
            · exact absurd (e2.symm.trans e1) hne
            · subst e1
              simp [hne, Ne.symm hne]
          · by_cases e2 : n = m2
            · subst e2
              simp [hne, Ne.symm hne]
            · simp [e1, e2]
        | basic m2 k2 c2 => simp <;> split_ifs <;> rfl
        | other m2 => simp <;> split_ifs <;> rfl
      | basic m1 k1 c1 => cases y <;> simp <;> split_ifs <;> rfl
      | other m1 => cases y <;> simp <;> split_ifs <;> rfl
  | trans h1 _ ih1 ih2 =>
    rw [ih1 hn, ih2 ((h1.map FoodJson.name).nodup_iff.1 hn)]

/-- With pairwise distinct record names the first pass gives the same two maps
for every order of the records. -/
theorem firstPass_perm {l1 l2 : List (FoodJson α)} (h : l1.Perm l2)
    (hn : (l1.map FoodJson.name).Nodup) : firstPass l1 = firstPass l2 := by
  have h1 : (firstPass l1).1 = (firstPass l2).1 := by
    apply strMap_ext_of_sorted (firstPass_sorted l1).1 (firstPass_sorted l2).1
    intro k
    rw [firstPass_foods, firstPass_foods, lastBasic_perm h hn]
  have h2 : (firstPass l1).2 = (firstPass l2).2 := by
    apply strMap_ext_of_sorted (firstPass_sorted l1).2 (firstPass_sorted l2).2
    intro k
    rw [firstPass_pending, firstPass_pending, lastComposite_perm h hn]
  exact Prod.ext h1 h2

theorem loadRecords_perm {l1 l2 : List (FoodJson α)} (h : l1.Perm l2)
    (hn : (l1.map FoodJson.name).Nodup) (fuel : Nat) :
    loadRecords fuel l1 = loadRecords fuel l2 := by
  unfold loadRecords
  rw [firstPass_perm h hn]

/-- C23: for a definition list whose composite references contain no cycle,
`loadDatabase` returns true once the depth bound is large enough; every name
declared by a basic or a composite record is in the catalog afterwards; the
calories of every composite of the catalog are the running sum, over those
declared components of its record whose name is declared in the list, of the
calories of the catalog entry of that name times the declared servings; and
every other order of a list of pairwise distinct names gives the same
result. -/
theorem acyclic_load_materializes [Zero α] [Add α] [Mul α] (db : FoodDatabaseManager α)
    (records : List (FoodJson α)) (rank : String → Nat)
    (hrank : ∀ n pj, lastComposite records n = some pj →
      ∀ c ∈ pj.components, (lastComposite records c.name).isSome = true → rank c.name < rank n)
    (fuel : Nat) (hfuel : 1 ≤ fuel)
    (hbound : ∀ n, (lastComposite records n).isSome = true → rank n + 2 ≤ fuel) :
    ∃ res, db.loadDatabase fuel (DatabaseFile.records records) = some res ∧
      res.success = true ∧
      (∀ r ∈ records, r.isFood = true → (res.db.getFood r.name).isSome = true) ∧
      (∀ n name kw comps, res.db.getFood n = some (Food.composite name kw comps) →
        ∃ pj, lastComposite records n = some pj ∧
          comps.map FoodComponent.toJson =
            pj.components.filter (fun c => declaredName records c.name) ∧
          (Food.composite name kw comps).getCalories =
            (pj.components.filter (fun c => declaredName records c.name)).foldl
              (fun total c =>
                total + ((res.db.getFood c.name).map Food.getCalories).getD 0 * c.servings)
              0) ∧
      (∀ records2 : List (FoodJson α), records2.Perm records →
        (records2.map FoodJson.name).Nodup →
        db.loadDatabase fuel (DatabaseFile.records records2) = some res) := by
  have hacy := acyclic_firstPass hrank
  obtain ⟨st, hst⟩ := loadRecords_terminates records rank hacy fuel hfuel hbound
  obtain ⟨ha, hb, hc, _⟩ := loadRecords_spec records rank hacy fuel st hst
  have hinv := loadRecords_inv hst
  have hiff := loadRecords_isSome_iff records rank hacy fuel st hst
  have hfilter : ∀ cs : List (ComponentJson α),
      cs.filter (fun c => (mapFind st.foods c.name).isSome) =
        cs.filter (fun c => declaredName records c.name) := by
    intro cs
    apply List.filter_congr
    intro c _
    rw [Bool.eq_iff_iff]
    simpa [declaredName] using hiff c.name
  refine ⟨⟨true, ⟨st.foods, db.modified⟩, st.out⟩, ?_, rfl, ?_, ?_, ?_⟩
  · simp [FoodDatabaseManager.loadDatabase, hst]
  · intro r hr hf
    have hd := declaredName_of_mem hr hf
    simp only [declaredName, Bool.or_eq_true] at hd
    exact (hiff r.name).2 hd
  · intro n name kw comps hget
    have hget2 : mapFind st.foods n = some (Food.composite name kw comps) := hget
    cases hlb : lastBasic records n with
    | some f =>
      obtain ⟨k, c, hf⟩ := lastBasic_is_basic hlb
      rw [ha n f hlb, hf] at hget2
      cases hget2
    | none =>
      cases hlc : lastComposite records n with
      | none => rw [hc n hlb hlc] at hget2; cases hget2
      | some pj =>
        rw [(hb n pj hlb hlc).1] at hget2
        cases hget2
        refine ⟨pj, rfl, ?_, ?_⟩
        · rw [resolvedComponents_toJson hinv.2, hfilter]
        · show CompositeFood.accumulate _ 0 = _
          rw [accumulate_eq_foldl, foldl_resolvedComponents, hfilter]
          rfl
  · intro records2 hperm hnodup
    simp [FoodDatabaseManager.loadDatabase, loadRecords_perm hperm hnodup fuel, hst]

theorem acyclic_load_materializes_witness :
    ∃ res, (FoodDatabaseManager.empty : FoodDatabaseManager Nat).loadDatabase 2
        (DatabaseFile.records ghostRecords) = some res ∧
      res.success = true ∧
      (∀ r ∈ ghostRecords, r.isFood = true → (res.db.getFood r.name).isSome = true) := by
  obtain ⟨res, hres, hs, hall, _⟩ :=
    acyclic_load_materializes (FoodDatabaseManager.empty : FoodDatabaseManager Nat)
      ghostRecords (fun _ => 0)
      (by
        intro n pj hp c hc hs
        have hn : n = "Meal" := by
          by_contra hne
          simp [ghostRecords, lastComposite, hne] at hp
        subst hn
        simp only [ghostRecords, lastComposite, if_true, Option.some.injEq] at hp
        subst hp
        simp at hc
        rcases hc with hc | hc <;> subst hc <;> simp [ghostRecords, lastComposite] at hs)
      2 (by decide)
      (by
        intro n hn
        simp)
  exact ⟨res, hres, hs, hall⟩

/-! ## Unwinding the whole history -/

theorem perm_eraseIdx_append {β : Type} :
    ∀ (l : List β) (i : Nat) (hi : i < l.length), (l.eraseIdx i ++ [l.get ⟨i, hi⟩]).Perm l
  | [], i, hi => by simp at hi
  | x :: xs, 0, _ => by
      simp
  | x :: xs, i + 1, hi => by
      simp only [List.eraseIdx_cons_succ, List.cons_append, List.get_cons_succ]
      exact (perm_eraseIdx_append xs i (Nat.lt_of_succ_lt_succ hi)).cons x

/-- When every entry that passes the test of the undo has the content of the
added entry, the undo leaves the entries that were there before the add, in
some order. -/
theorem eraseLatest_perm [LinearOrderedField α] (foodName : String) (servings calories : α)
    (base entries : List (FoodEntry α))
    (hperm : entries.Perm (base ++ [⟨foodName, servings, calories⟩]))
    (hun : ∀ x ∈ base, matchesAdd foodName servings x = true →
      x = ⟨foodName, servings, calories⟩) :
    (eraseLatest foodName servings entries).Perm base := by
  have hmem : (⟨foodName, servings, calories⟩ : FoodEntry α) ∈ entries :=
    hperm.symm.subset (by simp)
  obtain ⟨pre, x, post, hdec, hx, hpost⟩ :=
    exists_latest_match foodName servings entries
      ⟨_, hmem, matchesAdd_self foodName servings calories⟩
  have hxe : x = ⟨foodName, servings, calories⟩ := by
    have hxm : x ∈ base ++ [(⟨foodName, servings, calories⟩ : FoodEntry α)] :=
      hperm.subset (by rw [hdec]; simp)
    rcases List.mem_append.1 hxm with h | h
    · exact hun x h hx
    · simpa using h
  rw [hdec, eraseLatest_of_latest foodName servings pre post x hx hpost]
  rw [hdec] at hperm
  rw [← hxe] at hperm
  have h1 : (x :: (pre ++ post)).Perm (x :: base) :=
    (List.perm_middle.symm.trans hperm).trans (List.perm_append_singleton x base)
  exact h1.cons_inv

theorem undo_add_perm [LinearOrderedField α] (logs r : StrMap (List (FoodEntry α)))
    (date foodName : String) (servings calories : α)
    (hr : ∀ k, (entriesAt r k).Perm
      (entriesAt ((Command.addFoodCommand date foodName servings calories).execute logs) k))
    (hun : ∀ x ∈ entriesAt logs date, matchesAdd foodName servings x = true →
      x = ⟨foodName, servings, calories⟩) (k : String) :
    (entriesAt ((Command.addFoodCommand date foodName servings calories).undo r) k).Perm
      (entriesAt logs k) := by
  have h1 := hr k
  simp only [Command.execute, entriesAt_mapInsert] at h1
  rw [undo_add_entriesAt]
  by_cases e : k = date
  · subst e
    simp only [if_true] at h1 ⊢
    exact eraseLatest_perm foodName servings calories _ _ h1 hun
  · simpa [e] using h1

theorem undo_delete_perm [LinearOrderedField α] (d : FoodDiary α)
    (r : StrMap (List (FoodEntry α))) (date : String) (index : Nat)
    (entries : List (FoodEntry α)) (h : mapFind d.dailyLogs date = some entries)
    (hi : index < entries.length)
    (hr : ∀ k, (entriesAt r k).Perm (entriesAt (d.deleteFood date index).dailyLogs k))
    (k : String) :
    (entriesAt ((Command.deleteFoodCommand date index (entries.get ⟨index, hi⟩)).undo r) k).Perm
      (entriesAt d.dailyLogs k) := by
  have h1 := hr k
  simp only [Command.undo, entriesAt_mapInsert]
  by_cases e : k = date
  · subst e
    simp only [if_true]
    rw [deleteFood_entriesAt d k index entries h hi] at h1
    rw [entriesAt_of_find h]
    exact (h1.append_right _).trans (perm_eraseIdx_append entries index hi)
  · simp only [e, if_false]
    have h2 : entriesAt (d.deleteFood date index).dailyLogs k = entriesAt d.dailyLogs k := by
      unfold entriesAt
      rw [deleteFood_find_other d date index entries h hi k e]
    rw [h2] at h1
    exact h1

/-- Undoing as many commands as there were calls gives back the history and,
for every date, the entries of the start in some order. -/
theorem unwind_perm [LinearOrderedField α] :
    ∀ (calls : List (DiaryCall α)) (d : FoodDiary α), Unwindable d calls →
      (FoodDiary.undo^[calls.length] (calls.foldl FoodDiary.call d)).undoStack = d.undoStack ∧
      ∀ k, (entriesAt (FoodDiary.undo^[calls.length]
          (calls.foldl FoodDiary.call d)).dailyLogs k).Perm (entriesAt d.dailyLogs k)
  | [], d, _ => ⟨rfl, fun _ => List.Perm.refl _⟩
  | c :: rest, d, h => by
      obtain ⟨hs, hu, hrest⟩ := h
      obtain ⟨ih1, ih2⟩ := unwind_perm rest (d.call c) hrest
      simp only [List.length_cons, List.foldl_cons, Function.iterate_succ_apply']
      generalize FoodDiary.undo^[rest.length] (rest.foldl FoodDiary.call (d.call c)) = r
        at ih1 ih2 ⊢
      cases c with
      | addFood db date foodName servings =>
        simp only [DiaryCall.Succeeds] at hs
        cases hf : db.getFood foodName with
        | none => rw [hf] at hs; simp at hs
        | some food =>
          have hcall : d.call (DiaryCall.addFood db date foodName servings) =
              ⟨(Command.addFoodCommand date foodName servings
                  (food.getCalories * servings)).execute d.dailyLogs,
                Command.addFoodCommand date foodName servings (food.getCalories * servings)
                  :: d.undoStack⟩ := by
            simp [FoodDiary.call, FoodDiary.addFood, hf, AddFoodCommand.new,
              FoodDiary.executeCommand]
          rw [hcall] at ih1 ih2
          have hundo : r.undo =
              ⟨(Command.addFoodCommand date foodName servings
                  (food.getCalories * servings)).undo r.dailyLogs, d.undoStack⟩ := by
            cases r with
            | mk logs stack =>
              simp only at ih1
              subst ih1
              rfl
          rw [hundo]
          exact ⟨rfl, undo_add_perm d.dailyLogs r.dailyLogs _ _ _ _ ih2 (hu food hf)⟩
      | deleteFood date index =>
        simp only [DiaryCall.Succeeds] at hs
        have hne : entriesAt d.dailyLogs date ≠ [] := by
          intro h0
          rw [h0] at hs
          simp at hs
        have hfind := find_of_entriesAt_ne_nil hne
        have hcall : d.call (DiaryCall.deleteFood date index) = d.deleteFood date index := rfl
        rw [hcall] at ih1 ih2
        rw [deleteFood_eq d date index _ hfind hs] at ih1
        have hundo : r.undo =
            ⟨(Command.deleteFoodCommand date index
                ((entriesAt d.dailyLogs date).get ⟨index, hs⟩)).undo r.dailyLogs,
              d.undoStack⟩ := by
          cases r with
          | mk logs stack =>
            simp only at ih1
            subst ih1
            rfl
        rw [hundo]
        exact ⟨rfl, undo_delete_perm d r.dailyLogs date index _ hfind hs ih2⟩

/-- C24 (as the code behaves): from any diary, after a sequence of successful
`addFood` and `deleteFood` calls in which every entry of the date that passes
the test of the undo of an add (same food name, servings within 0.001) has
the content of the entry being added, one `undo` per call gives back the
history of the start and, for every date, the multiset of entries of the
start, so `getTotalCaloriesForDate` has its initial value for every date. -/
theorem unwind_restores_entries [LinearOrderedField α] (d : FoodDiary α)
    (calls : List (DiaryCall α)) (h : Unwindable d calls) :
    (FoodDiary.undo^[calls.length] (calls.foldl FoodDiary.call d)).undoStack = d.undoStack ∧
    ∀ date,
      (entriesAt (FoodDiary.undo^[calls.length]
        (calls.foldl FoodDiary.call d)).dailyLogs date).Perm (entriesAt d.dailyLogs date) ∧
      (FoodDiary.undo^[calls.length]
        (calls.foldl FoodDiary.call d)).getTotalCaloriesForDate date =
          d.getTotalCaloriesForDate date := by
  obtain ⟨h1, h2⟩ := unwind_perm calls d h
  refine ⟨h1, fun date => ⟨h2 date, ?_⟩⟩
  rw [getTotalCaloriesForDate_sum, getTotalCaloriesForDate_sum]
  exact ((h2 date).map FoodEntry.calories).sum_eq

theorem unwind_restores_entries_witness :
    (FoodDiary.undo^[2]
      ([DiaryCall.addFood appleCatalog "2024-01-01" "Apple" 2,
        DiaryCall.deleteFood "2024-01-01" 0].foldl FoodDiary.call
          (⟨[("2024-01-01", [⟨"Rice", 1, 200⟩])], []⟩ : FoodDiary ℚ))).getTotalCaloriesForDate
        "2024-01-01" =
      (⟨[("2024-01-01", [⟨"Rice", 1, 200⟩])], []⟩ : FoodDiary ℚ).getTotalCaloriesForDate
        "2024-01-01" :=
  ((unwind_restores_entries (⟨[("2024-01-01", [⟨"Rice", 1, 200⟩])], []⟩ : FoodDiary ℚ)
    [DiaryCall.addFood appleCatalog "2024-01-01" "Apple" 2,
      DiaryCall.deleteFood "2024-01-01" 0]
    (by
      refine ⟨rfl, ?_, ?_, trivial, trivial⟩
      · intro food _ e he hm
        simp [entriesAt, mapFind] at he
        subst he
        simp [matchesAdd] at hm
      · show 0 < _
        simp [FoodDiary.call, FoodDiary.addFood, appleCatalog, FoodDatabaseManager.getFood,
          mapFind, FoodDiary.executeCommand, AddFoodCommand.new, Command.execute, entriesAt,
          mapInsert])).2 "2024-01-01").2

/-- C24 fails on the code: the diary holds one entry for the food `Apple` with
2 servings and 100 calories; `addFood` adds a second entry with 2 servings and
190 calories and `deleteFood` removes the first one; the two undos put the
deleted entry back at the end and then remove it again, as the latest entry
that passes the test, so the date is left with the 190 calorie entry and its
total is 190 instead of 100. -/
theorem unwind_changes_total :
    DiaryCall.Succeeds staleDiary (DiaryCall.addFood appleCatalog "2024-01-01" "Apple" 2)
      ∧ DiaryCall.Succeeds
          (staleDiary.call (DiaryCall.addFood appleCatalog "2024-01-01" "Apple" 2))
          (DiaryCall.deleteFood "2024-01-01" 0)
      ∧ entriesAt staleDiary.dailyLogs "2024-01-01" = [⟨"Apple", 2, 100⟩]
      ∧ entriesAt (FoodDiary.undo^[2]
          ([DiaryCall.addFood appleCatalog "2024-01-01" "Apple" 2,
            DiaryCall.deleteFood "2024-01-01" 0].foldl FoodDiary.call
              staleDiary)).dailyLogs "2024-01-01" = [⟨"Apple", 2, 190⟩]
      ∧ staleDiary.getTotalCaloriesForDate "2024-01-01" = 100
      ∧ (FoodDiary.undo^[2]
          ([DiaryCall.addFood appleCatalog "2024-01-01" "Apple" 2,
            DiaryCall.deleteFood "2024-01-01" 0].foldl FoodDiary.call
              staleDiary)).getTotalCaloriesForDate "2024-01-01" = 190 := by
  have hadd : staleDiary.call (DiaryCall.addFood appleCatalog "2024-01-01" "Apple" 2) =
      ⟨[("2024-01-01", [⟨"Apple", 2, 100⟩, ⟨"Apple", 2, 190⟩])],
        [Command.addFoodCommand "2024-01-01" "Apple" 2 190]⟩ := by
    simp [FoodDiary.call, FoodDiary.addFood, staleDiary, appleCatalog,
      FoodDatabaseManager.getFood, mapFind, FoodDiary.executeCommand, AddFoodCommand.new,
      Command.execute, entriesAt, mapInsert, Food.getCalories, keyLt_irrefl]
    norm_num
  have hdel : (staleDiary.call (DiaryCall.addFood appleCatalog "2024-01-01" "Apple" 2)).call
      (DiaryCall.deleteFood "2024-01-01" 0) =
      ⟨[("2024-01-01", [⟨"Apple", 2, 190⟩])],
        [Command.deleteFoodCommand "2024-01-01" 0 ⟨"Apple", 2, 100⟩,
          Command.addFoodCommand "2024-01-01" "Apple" 2 190]⟩ := by
    rw [hadd]
    simp [FoodDiary.call, FoodDiary.deleteFood, mapFind, DeleteFoodCommand.new, touch,
      FoodDiary.executeCommand, Command.execute, entriesAt, mapInsert, keyLt_irrefl]
  have hundo : FoodDiary.undo^[2]
      ([DiaryCall.addFood appleCatalog "2024-01-01" "Apple" 2,
        DiaryCall.deleteFood "2024-01-01" 0].foldl FoodDiary.call staleDiary) =
      ⟨[("2024-01-01", [⟨"Apple", 2, 190⟩])], []⟩ := by
    simp only [List.foldl_cons, List.foldl_nil, hdel, Function.iterate_succ,
      Function.iterate_zero, Function.comp_apply, id_eq]
    simp [FoodDiary.undo, Command.undo, entriesAt, mapFind, mapInsert, eraseLatest,
      matchesAdd, List.eraseP, keyLt_irrefl]
    norm_num
  rw [hundo, hadd]
  refine ⟨rfl, ?_, rfl, rfl, ?_, ?_⟩
  · show 0 < _
    simp [entriesAt, mapFind]
  · simp [FoodDiary.getTotalCaloriesForDate, staleDiary, mapFind]
  · simp [FoodDiary.getTotalCaloriesForDate, mapFind]

/-! ## Names declared more than once -/

theorem lastBasic_eq_none {records : List (FoodJson α)} {n : String}
    (h : ∀ r ∈ records, r.isBasicNamed n = false) : lastBasic records n = none := by
  induction records with
  | nil => rfl
  | cons r rest ih =>
    simp only [lastBasic]
    rw [ih (fun x hx => h x (List.mem_cons_of_mem _ hx))]
    have hr := h r (List.mem_cons_self _ _)
    cases r with
    | basic m k c =>
      simp only [FoodJson.isBasicNamed, decide_eq_false_iff_not] at hr
      simp only [if_neg (fun e : n = m => hr e.symm)]
    | composite m k cal cs => rfl
    | other m => rfl

theorem lastComposite_eq_none {records : List (FoodJson α)} {n : String}
    (h : ∀ r ∈ records, r.isCompositeNamed n = false) : lastComposite records n = none := by
  induction records with
  | nil => rfl
  | cons r rest ih =>
    simp only [lastComposite]
    rw [ih (fun x hx => h x (List.mem_cons_of_mem _ hx))]
    have hr := h r (List.mem_cons_self _ _)
    cases r with
    | basic m k c => rfl
    | composite m k cal cs =>
      simp only [FoodJson.isCompositeNamed, decide_eq_false_iff_not] at hr
      simp only [if_neg (fun e : n = m => hr e.symm)]
    | other m => rfl

/-- The last basic record of a name decides `lastBasic`. -/
theorem lastBasic_append (pre post : List (FoodJson α)) (n : String) (k : List String) (c : α)
    (hpost : ∀ r ∈ post, r.isBasicNamed n = false) :
    lastBasic (pre ++ FoodJson.basic n k c :: post) n = some (Food.basic n k c) := by
  induction pre with
  | nil => simp [lastBasic, lastBasic_eq_none hpost, BasicFood.fromJson]
  | cons r rest ih =>
    rw [List.cons_append]
    simp only [lastBasic]
    rw [ih]

/-- The last composite record of a name decides `lastComposite`. -/
theorem lastComposite_append (pre post : List (FoodJson α)) (n : String) (k : List String)
    (cal : Option α) (cs : List (ComponentJson α))
    (hpost : ∀ r ∈ post, r.isCompositeNamed n = false) :
    lastComposite (pre ++ FoodJson.composite n k cal cs :: post) n = some ⟨k, cs⟩ := by
  induction pre with
  | nil => simp [lastComposite, lastComposite_eq_none hpost]
  | cons r rest ih =>
    rw [List.cons_append]
    simp only [lastComposite]
    rw [ih]

/-- Records of another type leave both maps of the first pass as they are. -/
theorem firstPass_filter_isFood (records : List (FoodJson α)) :
    firstPass (records.filter FoodJson.isFood) = firstPass records := by
  unfold firstPass
  generalize (([], []) : StrMap (Food α) × StrMap (Pending α)) = acc
  induction records generalizing acc with
  | nil => rfl
  | cons r rest ih =>
    cases r with
    | basic m k c => simp only [List.filter_cons, FoodJson.isFood, if_true, List.foldl_cons, ih]
    | composite m k cal cs =>
      simp only [List.filter_cons, FoodJson.isFood, if_true, List.foldl_cons, ih]
    | other m =>
      simp only [List.filter_cons, FoodJson.isFood, Bool.false_eq_true, if_false,
        List.foldl_cons, firstPassStep, ih]

/-- C25 (as the code behaves): for a definition list whose composite references
contain no cycle, `loadDatabase` returns true once the depth bound is large
enough and the catalog has one food for each of its names: a name that some
basic record declares holds the food of the last basic record of that name,
whatever composite records share the name and wherever they stand; a name
that no basic record declares holds the composite built from the last
composite record of that name, with its keywords and those of its components
whose name is declared in the list; a name that no basic or composite record
declares holds nothing; and the records of any other type can be dropped from
the list without changing the result. -/
theorem duplicate_names_resolved (db : FoodDatabaseManager α)
    (records : List (FoodJson α)) (rank : String → Nat)
    (hrank : ∀ n pj, lastComposite records n = some pj →
      ∀ c ∈ pj.components, (lastComposite records c.name).isSome = true → rank c.name < rank n)
    (fuel : Nat) (hfuel : 1 ≤ fuel)
    (hbound : ∀ n, (lastComposite records n).isSome = true → rank n + 2 ≤ fuel) :
    ∃ res, db.loadDatabase fuel (DatabaseFile.records records) = some res ∧
      res.success = true ∧
      (mapKeys res.db.foods).Nodup ∧
      (∀ n pre k c post, records = pre ++ FoodJson.basic n k c :: post →
        (∀ r ∈ post, r.isBasicNamed n = false) →
        res.db.getFood n = some (Food.basic n k c)) ∧
      (∀ n pre k cal cs post, records = pre ++ FoodJson.composite n k cal cs :: post →
        (∀ r ∈ records, r.isBasicNamed n = false) →
        (∀ r ∈ post, r.isCompositeNamed n = false) →
        ∃ comps, res.db.getFood n = some (Food.composite n k comps) ∧
          comps.map FoodComponent.toJson =
            cs.filter (fun c => declaredName records c.name)) ∧
      (∀ n, (∀ r ∈ records, r.isBasicNamed n = false ∧ r.isCompositeNamed n = false) →
        res.db.getFood n = none) ∧
      db.loadDatabase fuel (DatabaseFile.records (records.filter FoodJson.isFood)) =
        some res := by
  have hacy := acyclic_firstPass hrank
  obtain ⟨st, hst⟩ := loadRecords_terminates records rank hacy fuel hfuel hbound
  obtain ⟨ha, hb, hc, _⟩ := loadRecords_spec records rank hacy fuel st hst
  have hinv := loadRecords_inv hst
  have hiff := loadRecords_isSome_iff records rank hacy fuel st hst
  refine ⟨⟨true, ⟨st.foods, db.modified⟩, st.out⟩, ?_, rfl, keys_nodup_of_sorted hinv.1,
    ?_, ?_, ?_, ?_⟩
  · simp [FoodDatabaseManager.loadDatabase, hst]
  · intro n pre k c post hrec hpost
    exact ha n _ (by rw [hrec]; exact lastBasic_append pre post n k c hpost)
  · intro n pre k cal cs post hrec hnb hpost
    have hlc : lastComposite records n = some ⟨k, cs⟩ := by
      rw [hrec]; exact lastComposite_append pre post n k cal cs hpost
    refine ⟨resolvedComponents st.foods cs, (hb n _ (lastBasic_eq_none hnb) hlc).1, ?_⟩
    rw [resolvedComponents_toJson hinv.2]
    apply List.filter_congr
    intro c _
    rw [Bool.eq_iff_iff]
    simpa [declaredName] using hiff c.name
  · intro n hn
    exact hc n (lastBasic_eq_none (fun r hr => (hn r hr).1))
      (lastComposite_eq_none (fun r hr => (hn r hr).2))
  · have e : loadRecords fuel (records.filter FoodJson.isFood) = loadRecords fuel records := by
      unfold loadRecords
      rw [firstPass_filter_isFood]
    simp [FoodDatabaseManager.loadDatabase, e, hst]

theorem duplicate_names_resolved_witness :
    ∃ res, (FoodDatabaseManager.empty : FoodDatabaseManager Nat).loadDatabase 3
        (DatabaseFile.records duplicateRecords) = some res ∧
      res.db.getFood "Milk" = some (Food.basic "Milk" ["new"] 64) ∧
      ∃ comps, res.db.getFood "Tea" = some (Food.composite "Tea" ["second"] comps) ∧
        comps.map FoodComponent.toJson = [⟨"Milk", 2⟩] := by
  obtain ⟨res, hres, _, _, hb, hc, _⟩ :=
    duplicate_names_resolved (FoodDatabaseManager.empty : FoodDatabaseManager Nat)
      duplicateRecords (fun n => if n = "Tea" then 1 else 0)
      (by
        intro n pj hp c hc hs
        by_cases h1 : n = "Tea"
        · subst h1
          simp only [duplicateRecords, lastComposite, if_true, Option.some.injEq] at hp
          subst hp
          simp at hc
          rcases hc with hc | hc <;> subst hc <;> simp [duplicateRecords, lastComposite] at hs ⊢
        · by_cases h2 : n = "Milk"
          · subst h2
            simp [duplicateRecords, lastComposite] at hp
            subst hp
            simp at hc
            subst hc
            simp [duplicateRecords, lastComposite] at hs
          · simp [duplicateRecords, lastComposite, h1, h2] at hp)
      3 (by decide)
      (by
        intro n _
        show (if n = "Tea" then 1 else 0) + 2 ≤ 3
        split <;> decide)
  refine ⟨res, hres, ?_, ?_⟩
  · exact hb "Milk"
      [.composite "Milk" ["mix"] none [⟨"Sugar", 1⟩], .basic "Milk" ["old"] 60,
        .composite "Tea" ["first"] none [⟨"Milk", 1⟩]] ["new"] 64
      [.other "Milk", .composite "Tea" ["second"] none [⟨"Milk", 2⟩, ⟨"Sugar", 1⟩]] rfl
      (by simp [FoodJson.isBasicNamed])
  · obtain ⟨comps, h1, h2⟩ := hc "Tea"
      [.composite "Milk" ["mix"] none [⟨"Sugar", 1⟩], .basic "Milk" ["old"] 60,
        .composite "Tea" ["first"] none [⟨"Milk", 1⟩], .basic "Milk" ["new"] 64,
        .other "Milk"] ["second"] none [⟨"Milk", 2⟩, ⟨"Sugar", 1⟩] [] rfl
      (by simp [duplicateRecords, FoodJson.isBasicNamed]) (by simp)
    refine ⟨comps, h1, ?_⟩
    rw [h2]
    simp [declaredName, duplicateRecords, lastBasic, lastComposite]

/-- C25 fails on the code as stated: when the two composite records of a name
list that name as a component, no depth bound lets `loadDatabase` return, so
the catalog never holds the last composite record of the name. -/
theorem duplicate_cycle_never_returns :
    ¬ ∃ (fuel : Nat) (res : LoadResult Nat),
        (FoodDatabaseManager.empty : FoodDatabaseManager Nat).loadDatabase fuel
          (DatabaseFile.records loopTwiceRecords) = some res := by
  rintro ⟨fuel, res, h⟩
  have hnone : loadRecords fuel loopTwiceRecords = none :=
    loadRecords_cycle loopTwiceRecords (fun n => n = "L") "L" rfl
      (by
        intro n hn
        subst hn
        exact ⟨rfl, ⟨["new"], [⟨"L", 1⟩]⟩, rfl, ⟨"L", 1⟩, by simp, rfl⟩)
      fuel
  simp [FoodDatabaseManager.loadDatabase, hnone] at h

/-! ## Validity of a date string -/

theorem eq_ten_of_length {β : Type} (l : List β) (h : l.length = 10) :
    ∃ a0 a1 a2 a3 a4 a5 a6 a7 a8 a9, l = [a0, a1, a2, a3, a4, a5, a6, a7, a8, a9] := by
  rcases l with _ | ⟨a0, _ | ⟨a1, _ | ⟨a2, _ | ⟨a3, _ | ⟨a4, _ | ⟨a5, _ | ⟨a6, _ | ⟨a7,
    _ | ⟨a8, _ | ⟨a9, _ | ⟨a10, l⟩⟩⟩⟩⟩⟩⟩⟩⟩⟩⟩
  all_goals first
    | exact ⟨_, _, _, _, _, _, _, _, _, _, rfl⟩
    | (simp only [List.length_cons, List.length_nil] at h; omega)

theorem formatFrom_ten (a0 a1 a2 a3 a4 a5 a6 a7 a8 a9 : Char) :
    formatFrom 0 [a0, a1, a2, a3, a4, a5, a6, a7, a8, a9] = true ↔
      (a0.isDigit = true ∧ a1.isDigit = true ∧ a2.isDigit = true ∧ a3.isDigit = true ∧
        a4 = '-' ∧ a5.isDigit = true ∧ a6.isDigit = true ∧ a7 = '-' ∧
        a8.isDigit = true ∧ a9.isDigit = true) := by
  simp [formatFrom]

theorem stoi_four (a b c d : Char) :
    stoi [a, b, c, d] =
      1000 * digitValue a + 100 * digitValue b + 10 * digitValue c + digitValue d := by
  have h0 : '0'.toNat = 48 := rfl
  simp only [stoi, List.foldl_cons, List.foldl_nil, digitValue, h0]
  omega

theorem stoi_two (a b : Char) : stoi [a, b] = 10 * digitValue a + digitValue b := by
  have h0 : '0'.toNat = 48 := rfl
  simp only [stoi, List.foldl_cons, List.foldl_nil, digitValue, h0]
  omega

theorem daysInMonth_getD (year month : Nat) (h1 : 1 ≤ month) (h12 : month ≤ 12) :
    (daysInMonth year month).getD month 0 = daysOfMonth year month := by
  interval_cases month <;> simp [daysInMonth, daysOfMonth, IsLeapYear]
  split_ifs <;> rfl

theorem isValidDate_chars (a0 a1 a2 a3 a4 a5 a6 a7 a8 a9 : Char) (s : String)
    (hcs : s.data = [a0, a1, a2, a3, a4, a5, a6, a7, a8, a9]) :
    isValidDate s = true ↔
      (formatFrom 0 [a0, a1, a2, a3, a4, a5, a6, a7, a8, a9] = true ∧
        1 ≤ 10 * digitValue a5 + digitValue a6 ∧ 10 * digitValue a5 + digitValue a6 ≤ 12 ∧
        1 ≤ 10 * digitValue a8 + digitValue a9 ∧
        10 * digitValue a8 + digitValue a9 ≤
          daysOfMonth
            (1000 * digitValue a0 + 100 * digitValue a1 + 10 * digitValue a2 + digitValue a3)
            (10 * digitValue a5 + digitValue a6)) := by
  unfold isValidDate
  simp only [hcs, List.length_cons, List.length_nil, List.take, List.drop, stoi_four, stoi_two]
  by_cases hf : formatFrom 0 [a0, a1, a2, a3, a4, a5, a6, a7, a8, a9] = true
  · by_cases hm : 1 ≤ 10 * digitValue a5 + digitValue a6 ∧
        10 * digitValue a5 + digitValue a6 ≤ 12
    · have hm2 : ¬ (10 * digitValue a5 + digitValue a6 < 1 ∨
          10 * digitValue a5 + digitValue a6 > 12) := by omega
      rw [daysInMonth_getD _ _ hm.1 hm.2]
      simp [hf, hm2, hm.1, hm.2]
      intro _ _
      omega
    · have hm2 : (10 * digitValue a5 + digitValue a6 < 1 ∨
          10 * digitValue a5 + digitValue a6 > 12) := by omega
      simp only [hf, hm2]
      simp
      intro h1 h2
      exact absurd ⟨h1, h2⟩ hm
  · simp [hf]

/-- C26: `DateUtil::isValidDate` returns true exactly for the strings of ten
characters `YYYY-MM-DD`, with a `-` at positions 4 and 7 and decimal digits
elsewhere, whose month is between 1 and 12 and whose day is between 1 and the
number of days of the month, February having 29 days when the year is
divisible by 4 and not by 100, or divisible by 400, and 28 days otherwise. -/
theorem isValidDate_iff (s : String) : isValidDate s = true ↔ ValidDate s := by
  constructor
  · intro h
    have hlen : s.data.length = 10 := by
      by_contra hne
      have hne2 : s.data.length ≠ 10 := hne
      simp only [isValidDate, if_pos hne2] at h
      exact Bool.false_ne_true h
    obtain ⟨a0, a1, a2, a3, a4, a5, a6, a7, a8, a9, hcs⟩ := eq_ten_of_length s.data hlen
    rw [isValidDate_chars a0 a1 a2 a3 a4 a5 a6 a7 a8 a9 s hcs, formatFrom_ten] at h
    obtain ⟨⟨h0, h1, h2, h3, h4, h5, h6, h7, h8, h9⟩, hm1, hm2, hd1, hd2⟩ := h
    subst h4 h7
    exact ⟨a0, a1, a2, a3, a5, a6, a8, a9, hcs, h0, h1, h2, h3, h5, h6, h8, h9, hm1, hm2,
      hd1, hd2⟩
  · rintro ⟨y1, y2, y3, y4, m1, m2, d1, d2, hcs, h0, h1, h2, h3, h5, h6, h8, h9, hm1, hm2,
      hd1, hd2⟩
    rw [isValidDate_chars y1 y2 y3 y4 '-' m1 m2 '-' d1 d2 s hcs, formatFrom_ten]
    exact ⟨⟨h0, h1, h2, h3, rfl, h5, h6, rfl, h8, h9⟩, hm1, hm2, hd1, hd2⟩

/-- The test on a leap day, on a day that does not exist and on strings of
another shape. -/
theorem isValidDate_examples :
    isValidDate "2024-02-29" = true ∧ isValidDate "2023-02-29" = false
      ∧ isValidDate "1900-02-29" = false ∧ isValidDate "2000-02-29" = true
      ∧ isValidDate "2024-13-01" = false ∧ isValidDate "2024-04-31" = false
      ∧ isValidDate "2024-4-30" = false ∧ isValidDate "2024/04/30" = false := by
  refine ⟨?_, ?_, ?_, ?_, ?_, ?_, ?_, ?_⟩ <;> rfl

/-! ## Daily profile of a date without one -/

/-- C27 at the failing input: one profile (80 kg, very active) is stored for
2024-01-10 and the profile of 2024-01-05, which has none, is asked for. The
stored date is after the target, so the search finds no date; the code then
stores and returns the default profile (70 kg, moderately active), not a copy
of the earliest stored profile, which is the one of 2024-01-10. -/
theorem default_when_all_dates_later :
    mapFind laterProfiles "2024-01-05" = none
      ∧ earliestDate laterProfiles = some "2024-01-10"
      ∧ (mapFind laterProfiles "2024-01-10").map DailyProfile.weight = some 80
      ∧ (mapFind laterProfiles "2024-01-10").map DailyProfile.activityLevel =
          some ActivityLevel.veryActive
      ∧ (getDailyProfile laterProfiles "2024-01-05").2.weight = 70
      ∧ (getDailyProfile laterProfiles "2024-01-05").2.activityLevel =
          ActivityLevel.moderatelyActive
      ∧ (mapFind (getDailyProfile laterProfiles "2024-01-05").1 "2024-01-05").map
          DailyProfile.weight = some 70 := by
  refine ⟨rfl, rfl, rfl, rfl, rfl, rfl, rfl⟩

end DietManager
